import Mathlib

/-!
Verification of the stepreduce STEP-file reduction core against its
natural-language specification.

The development shallowly embeds the Rust sources (`references.rs`,
`normalize.rs`, `deduplicate.rs`, `orphans.rs`, `parse.rs`, `lib.rs`).
Strings are embedded as `List Char` (the sources operate on ASCII bytes and
all character classes used are the ASCII fragments); `u32` values are `Nat`
with explicit `% 2 ^ 32` where wrap-around can occur; code that can panic
(string slicing with an inverted range) is embedded in `Except Unit`.

Recursive scanners are written with an explicit fuel argument so that they
are structurally recursive and hence kernel-reducible; every step consumes
at least one character (or one unit of a proved measure), and each wrapper
passes fuel that provably suffices, so the fuel never runs out on the
wrapper's calls.  Fuel-congruence lemmas are proved below where needed.
-/

namespace StepReduce

/-- One data line, as a list of characters. -/
abbrev Line := List Char

/-- Apostrophe character (ASCII 39), used to build STEP content strings. -/
def qc : Char := Char.ofNat 39

/-- Newline character (ASCII 10). -/
def nlc : Char := Char.ofNat 10

/-- Carriage-return character (ASCII 13). -/
def crc : Char := Char.ofNat 13

/-- ASCII fragment of Rust `char::is_whitespace` (as used by `str::trim`):
space, tab, line feed, vertical tab, form feed, carriage return. -/
def is_whitespace (c : Char) : Bool := c = ' ' ∨ (9 ≤ c.toNat ∧ c.toNat ≤ 13)

/-- Rust `u8::is_ascii_digit`. -/
def isDigitA (c : Char) : Bool := 48 ≤ c.toNat ∧ c.toNat ≤ 57

/-- Rust `u8::is_ascii_alphabetic`. -/
def isAlphaA (c : Char) : Bool :=
  (65 ≤ c.toNat ∧ c.toNat ≤ 90) ∨ (97 ≤ c.toNat ∧ c.toNat ≤ 122)

/-- Rust `u8::is_ascii_uppercase`. -/
def isUpperA (c : Char) : Bool := 65 ≤ c.toNat ∧ c.toNat ≤ 90

/-- Numeric value of a list of ASCII digits (as in Rust integer parsing). -/
def natOfDigits (ds : List Char) : Nat :=
  ds.foldl (fun a c => 10 * a + (c.toNat - 48)) 0

/-- Rust `str::parse::<u32>`: optional leading `+`, one or more digits,
value at most `u32::MAX`. -/
def parseU32 (cs : List Char) : Option Nat :=
  let ds := match cs with
    | '+' :: t => t
    | _ => cs
  if ds ≠ [] ∧ ds.all isDigitA ∧ natOfDigits ds < 2 ^ 32 then
    some (natOfDigits ds)
  else none

/-- Rust `str::parse::<i32>`: optional sign, one or more digits, value in
the `i32` range. -/
def parseI32 (cs : List Char) : Option Int :=
  let sd : Int × List Char := match cs with
    | '+' :: t => (1, t)
    | '-' :: t => (-1, t)
    | _ => (1, cs)
  if sd.2 ≠ [] ∧ sd.2.all isDigitA then
    let v : Int := sd.1 * (natOfDigits sd.2 : Int)
    if -(2 ^ 31) ≤ v ∧ v ≤ 2 ^ 31 - 1 then some v else none
  else none

/-- Split a list at the first occurrence of a character satisfying `p`:
returns the part strictly before it and the part strictly after it.
Embeds Rust `str::find` plus the two slices around the found index. -/
def splitOnFirstP (p : Char → Bool) : List Char → Option (List Char × List Char)
  | [] => none
  | x :: xs =>
    if p x then some ([], xs)
    else match splitOnFirstP p xs with
      | some pr => some (x :: pr.1, pr.2)
      | none => none

/-- Split at the first occurrence of character `c`. -/
def splitOnFirst (c : Char) (l : List Char) : Option (List Char × List Char) :=
  splitOnFirstP (fun x => x = c) l

/-- Rust `str::trim_start` (ASCII fragment). -/
def trimStart (l : List Char) : List Char := l.dropWhile is_whitespace

/-- Rust `str::trim_end` (ASCII fragment). -/
def trimEnd (l : List Char) : List Char :=
  (l.reverse.dropWhile is_whitespace).reverse

/-- Rust `str::trim` (ASCII fragment). -/
def trimBoth (l : List Char) : List Char := trimEnd (trimStart l)

/-- The decimal digit character for `n % 10`-style values below ten. -/
def digitChar (n : Nat) : Char :=
  match n with
  | 0 => '0' | 1 => '1' | 2 => '2' | 3 => '3' | 4 => '4'
  | 5 => '5' | 6 => '6' | 7 => '7' | 8 => '8' | _ => '9'

/-- Decimal digit string of a natural number (fuelled; `n` strictly
decreases each step, so fuel `n + 1` always suffices).  Embeds the decimal
rendering used by Rust `format!`/`to_string` on integers. -/
def natToDigitsGo : Nat → Nat → List Char → List Char
  | 0, _, acc => acc
  | fuel + 1, n, acc =>
    if n < 10 then digitChar n :: acc
    else natToDigitsGo fuel (n / 10) (digitChar (n % 10) :: acc)

/-- Decimal digit string of a natural number. -/
def natToDigits (n : Nat) : List Char := natToDigitsGo (n + 1) n []

/-- First-match association-list lookup with string keys.  Entries are
inserted at the front, so the first match is the most recent insertion,
which matches `HashMap` insert/get semantics for the uses below. -/
def findKey (m : List (List Char × Nat)) (k : List Char) : Option Nat :=
  match m with
  | [] => none
  | e :: t => if e.1 = k then some e.2 else findKey t k

/-- First-match association-list lookup with numeric keys. -/
def findId (m : List (Nat × Nat)) (k : Nat) : Option Nat :=
  match m with
  | [] => none
  | e :: t => if e.1 = k then some e.2 else findId t k

/-- Substring test, embedding Rust `str::contains` with a literal needle. -/
def containsSub (needle : List Char) : List Char → Bool
  | [] => needle.isEmpty
  | c :: t => needle.isPrefixOf (c :: t) || containsSub needle t

/-!
## `references.rs`: the `#NNN` reference scanner

`ref_matches` scans for `#` followed by a maximal run of decimal digits; a
run is a reference token only if it is non-empty and parses as a `u32`
(value below `2 ^ 32`).  On a failed candidate the scan resumes after the
`#` (empty run) or after the digit run (overflowing run), exactly as
`pos = num_end.max(pos + 1)` does in the source.  Fuel is consumed once
per step and every step consumes at least one character, so fuel equal to
the string length suffices.
-/

/-- Fuelled scanner collecting all reference values (`collect_references`).
The source returns a `HashSet`; here a list is returned and all uses below
are membership-based, which is equivalent. -/
def collectRefsGo : Nat → List Char → List Nat
  | 0, _ => []
  | _, [] => []
  | fuel + 1, c :: rest =>
    if c = '#' then
      let ds := rest.takeWhile isDigitA
      let rest' := rest.dropWhile isDigitA
      if ds.isEmpty then collectRefsGo fuel rest
      else if natOfDigits ds < 2 ^ 32 then natOfDigits ds :: collectRefsGo fuel rest'
      else collectRefsGo fuel rest'
    else collectRefsGo fuel rest

/-- Embeds `collect_references` from `references.rs`. -/
def collect_references (rhs : List Char) : List Nat :=
  collectRefsGo rhs.length rhs

/-- Fuelled scanner rewriting reference tokens through a lookup table
(`remap_references`).  Characters outside reference tokens, tokens absent
from the table, and overflowing digit runs are copied byte-for-byte. -/
def remapRefsGo (lk : List (Nat × Nat)) : Nat → List Char → List Char
  | 0, _ => []
  | _, [] => []
  | fuel + 1, c :: rest =>
    if c = '#' then
      let ds := rest.takeWhile isDigitA
      let rest' := rest.dropWhile isDigitA
      if ds.isEmpty then c :: remapRefsGo lk fuel rest
      else if natOfDigits ds < 2 ^ 32 then
        match findId lk (natOfDigits ds) with
        | some nv => '#' :: (natToDigits nv ++ remapRefsGo lk fuel rest')
        | none => '#' :: (ds ++ remapRefsGo lk fuel rest')
      else '#' :: (ds ++ remapRefsGo lk fuel rest')
    else c :: remapRefsGo lk fuel rest

/-- Embeds `remap_references` from `references.rs`. -/
def remap_references (rhs : List Char) (lk : List (Nat × Nat)) : List Char :=
  remapRefsGo lk rhs.length rhs

/-- The value a reference token is rewritten to: its mapping if present in
the table, otherwise itself. -/
def remapVal (lk : List (Nat × Nat)) (v : Nat) : Nat := (findId lk v).getD v

/-- Reference mask of a string: every reference token's digit run is
erased but all other characters (including non-token `#`s and overflowing
digit runs) are kept verbatim.  Two strings with the same mask differ only
in the values of their reference tokens; this is the specification-side
notion "content with only `#N` reference tokens rewritten". -/
def refMaskGo : Nat → List Char → List Char
  | 0, _ => []
  | _, [] => []
  | fuel + 1, c :: rest =>
    if c = '#' then
      let ds := rest.takeWhile isDigitA
      let rest' := rest.dropWhile isDigitA
      if ds.isEmpty then c :: refMaskGo fuel rest
      else if natOfDigits ds < 2 ^ 32 then '#' :: refMaskGo fuel rest'
      else '#' :: (ds ++ refMaskGo fuel rest')
    else c :: refMaskGo fuel rest

/-- Reference mask wrapper. -/
def refMask (cs : List Char) : List Char := refMaskGo cs.length cs

/-!
## `normalize.rs`: numeric literal scanner, normalizer and name stripping
-/

/-- Embeds `normalize_number`: split off the exponent at the first `e`/`E`
(parsed as `i32`, defaulting to `0`), shift the decimal point across the
mantissa by the exponent, strip leading zeros from the integer part and
trailing zeros from the fractional part, always emit a decimal point, and
collapse signed zero to `0.`. -/
def normalize_number (s : List Char) : List Char :=
  let me : List Char × Int :=
    match splitOnFirstP (fun c => c = 'e' ∨ c = 'E') s with
    | some pr => (pr.1, (parseI32 pr.2).getD 0)
    | none => (s, 0)
  let mantissa := me.1
  let expVal := me.2
  let negative := mantissa.head? = some '-'
  let m := if negative then mantissa.tail else mantissa
  let ifp : List Char × List Char :=
    match splitOnFirst '.' m with
    | some pr => (pr.1, pr.2)
    | none => (m, [])
  let ip1 := if ifp.1.isEmpty then ['0'] else ifp.1
  let fp1 := ifp.2
  let shifted : List Char × List Char :=
    if 0 < expVal then
      let shift := expVal.toNat
      if shift < fp1.length then (ip1 ++ fp1.take shift, fp1.drop shift)
      else (ip1 ++ fp1 ++ List.replicate (shift - fp1.length) '0', [])
    else if expVal < 0 then
      let shift := (-expVal).toNat
      if shift < ip1.length then
        (ip1.take (ip1.length - shift), ip1.drop (ip1.length - shift) ++ fp1)
      else (['0'], List.replicate (shift - ip1.length) '0' ++ ip1 ++ fp1)
    else (ip1, fp1)
  let ip3 := match shifted.1.dropWhile (fun c => c = '0') with
    | [] => ['0']
    | r => r
  let fp3 := (shifted.2.reverse.dropWhile (fun c => c = '0')).reverse
  if ip3 = ['0'] ∧ fp3.isEmpty then ['0', '.']
  else (if negative then ['-'] else []) ++ ip3 ++ '.' :: fp3

/-- Embeds `round_number`: normalize, then truncate the fractional part to
at most `max_decimals` digits, re-strip trailing zeros, and re-collapse
zero. -/
def round_number (s : List Char) (max_decimals : Nat) : List Char :=
  let normalized := normalize_number s
  if '.' ∈ normalized then
    let negative := normalized.head? = some '-'
    let body := if negative then normalized.tail else normalized
    match splitOnFirst '.' body with
    | some pr =>
      let fp1 := if max_decimals < pr.2.length then pr.2.take max_decimals else pr.2
      let fp2 := (fp1.reverse.dropWhile (fun c => c = '0')).reverse
      if pr.1 = ['0'] ∧ fp2.isEmpty then ['0', '.']
      else (if negative then ['-'] else []) ++ pr.1 ++ '.' :: fp2
    | none => normalized
  else normalized

/-- Embeds `try_consume_exponent`: consume `[eE][+-]?digits` if present;
returns the consumed characters and the rest, or `none`. -/
def try_consume_exponent (cs : List Char) : Option (List Char × List Char) :=
  match cs with
  | [] => none
  | c :: t =>
    if c = 'e' ∨ c = 'E' then
      let st : List Char × List Char :=
        match t with
        | s :: t' => if s = '+' ∨ s = '-' then ([s], t') else ([], s :: t')
        | [] => ([], [])
      let ds := st.2.takeWhile isDigitA
      if ds.isEmpty then none
      else some (c :: (st.1 ++ ds), st.2.dropWhile isDigitA)
    else none

/-- Embeds the per-position match attempt of `find_numbers` (the guard on
the preceding character is checked by the caller).  Returns the matched
literal and the rest of the string.  The three literal forms are
`-?digits.digits?exp?`, `-?digits exp` (mandatory exponent) and
`-?.digits exp?`. -/
def try_match_number (cs : List Char) : Option (List Char × List Char) :=
  let mt : List Char × List Char :=
    match cs with
    | '-' :: t => (['-'], t)
    | _ => ([], cs)
  let minus := mt.1
  let ds := mt.2.takeWhile isDigitA
  let t1 := mt.2.dropWhile isDigitA
  if ds.isEmpty then
    match t1 with
    | '.' :: t2 =>
      let fs := t2.takeWhile isDigitA
      let t3 := t2.dropWhile isDigitA
      if fs.isEmpty then none
      else match try_consume_exponent t3 with
        | some pr => some (minus ++ '.' :: (fs ++ pr.1), pr.2)
        | none => some (minus ++ '.' :: fs, t3)
    | _ => none
  else
    match t1 with
    | '.' :: t2 =>
      let fs := t2.takeWhile isDigitA
      let t3 := t2.dropWhile isDigitA
      match try_consume_exponent t3 with
      | some pr => some (minus ++ ds ++ '.' :: (fs ++ pr.1), pr.2)
      | none => some (minus ++ ds ++ '.' :: fs, t3)
    | _ =>
      match try_consume_exponent t1 with
      | some pr => some (minus ++ ds ++ pr.1, pr.2)
      | none => none

/-- The left guard of `find_numbers`: the character before a literal must
not be alphabetic, `_` or `#`. -/
def is_valid_predecessor (c : Char) : Bool := !(isAlphaA c || c = '_' || c = '#')

/-- Number of characters the scanner skips when no literal matches at the
current position: past a lone minus, past a consumed digit run (plus the
minus, if any), or one character. -/
def scanSkip (cs : List Char) : Nat :=
  let mt : List Char × List Char :=
    match cs with
    | '-' :: t => (['-'], t)
    | _ => ([], cs)
  let ds := mt.2.takeWhile isDigitA
  if mt.1 ≠ [] ∧ ds.isEmpty then 1
  else if ¬ ds.isEmpty then mt.1.length + ds.length
  else 1

/-- Fuelled scanner replacing every numeric literal by its normalized (or
rounded) form; all other characters are copied verbatim.  `prev` is the
character preceding the current position in the original string (`none`
at the start).  Fuel is consumed once per step and every step consumes at
least one character.  Embeds `normalize_numbers_in_line` fused with
`find_numbers`. -/
def normNumsGo (md : Option Nat) : Nat → Option Char → List Char → List Char
  | 0, _, _ => []
  | _, _, [] => []
  | fuel + 1, prev, c :: rest =>
    let guardOk := match prev with
      | none => true
      | some p => is_valid_predecessor p
    if guardOk then
      match try_match_number (c :: rest) with
      | some pr =>
        (match md with
         | some n => round_number pr.1 n
         | none => normalize_number pr.1) ++
          normNumsGo md fuel pr.1.getLast? pr.2
      | none =>
        let k := scanSkip (c :: rest)
        let skipped := (c :: rest).take k
        skipped ++ normNumsGo md fuel skipped.getLast? ((c :: rest).drop k)
    else c :: normNumsGo md fuel (some c) rest

/-- Embeds `normalize_numbers_in_line` from `normalize.rs`. -/
def normalize_numbers_in_line (rhs : List Char) (md : Option Nat) : List Char :=
  normNumsGo md rhs.length none rhs

/-- Fuelled scanner collecting the text of every numeric literal found by
`find_numbers`, in order. -/
def findNumsGo : Nat → Option Char → List Char → List (List Char)
  | 0, _, _ => []
  | _, _, [] => []
  | fuel + 1, prev, c :: rest =>
    let guardOk := match prev with
      | none => true
      | some p => is_valid_predecessor p
    if guardOk then
      match try_match_number (c :: rest) with
      | some pr => pr.1 :: findNumsGo fuel pr.1.getLast? pr.2
      | none =>
        let k := scanSkip (c :: rest)
        let skipped := (c :: rest).take k
        findNumsGo fuel skipped.getLast? ((c :: rest).drop k)
    else findNumsGo fuel (some c) rest

/-- The numeric literals of a string, as matched by `find_numbers`. -/
def find_numbers (cs : List Char) : List (List Char) :=
  findNumsGo cs.length none cs

/-- Embeds `normalize_entity_name`: if the content matches
`[A-Z_]+(` followed by a single-quoted string, the quoted content is
replaced by the empty string; otherwise the content is unchanged. -/
def normalize_entity_name (rhs : List Char) : List Char :=
  let pfx := rhs.takeWhile (fun c => isUpperA c || c = '_')
  let rest := rhs.dropWhile (fun c => isUpperA c || c = '_')
  if pfx.isEmpty then rhs
  else match rest with
    | c1 :: r2 =>
      if c1 = '(' then
        match r2 with
        | c2 :: r3 =>
          if c2 = qc then
            let after := r3.dropWhile (fun c => c ≠ qc)
            match after with
            | c3 :: r4 =>
              if c3 = qc then pfx ++ '(' :: qc :: qc :: r4 else rhs
            | [] => rhs
          else rhs
        | [] => rhs
      else rhs
    | [] => rhs

/-!
## `deduplicate.rs`: iterative fixed-point entity merge

A data line panics the source (`line[1..eq]` with an inverted range) when
its first `=` is its first character; this is embedded as `Except.error`.
A line with no `=` is skipped.  Otherwise `old_num` is the `u32` parse of
the text between position 1 and the `=` (defaulting to `0`), and the
right-hand side is trimmed.
-/

/-- Embeds `get_entity_type`: the trimmed text before the first `(`, or
the whole trimmed string. -/
def get_entity_type (rhs : List Char) : List Char :=
  let trimmed := trimBoth rhs
  match splitOnFirst '(' trimmed with
  | some pr => trimBoth pr.1
  | none => trimmed

/-- Embeds the `IDENTITY_ENTITIES` table. -/
def IDENTITY_ENTITIES : List (List Char) :=
  ["PRODUCT".toList,
   "PRODUCT_DEFINITION".toList,
   "PRODUCT_DEFINITION_FORMATION".toList,
   "PRODUCT_DEFINITION_FORMATION_WITH_SPECIFIED_SOURCE".toList,
   "PRODUCT_DEFINITION_SHAPE".toList,
   "PRODUCT_DEFINITION_CONTEXT".toList,
   "PRODUCT_DEFINITION_WITH_ASSOCIATED_DOCUMENTS".toList,
   "PRODUCT_RELATED_PRODUCT_CATEGORY".toList,
   "SHAPE_DEFINITION_REPRESENTATION".toList,
   "SHAPE_REPRESENTATION".toList,
   "SHAPE_REPRESENTATION_RELATIONSHIP".toList,
   "ADVANCED_BREP_SHAPE_REPRESENTATION".toList,
   "MANIFOLD_SOLID_BREP".toList,
   "MANIFOLD_SURFACE_SHAPE_REPRESENTATION".toList,
   "GEOMETRICALLY_BOUNDED_SURFACE_SHAPE_REPRESENTATION".toList,
   "GEOMETRICALLY_BOUNDED_WIREFRAME_SHAPE_REPRESENTATION".toList,
   "STYLED_ITEM".toList,
   "OVER_RIDING_STYLED_ITEM".toList,
   "PRESENTATION_LAYER_ASSIGNMENT".toList,
   "APPLICATION_CONTEXT".toList,
   "APPLICATION_PROTOCOL_DEFINITION".toList,
   "PRODUCT_CONTEXT".toList,
   "DESIGN_CONTEXT".toList]

/-- Embeds `is_identity_entity`. -/
def is_identity_entity (t : List Char) : Bool := decide (t ∈ IDENTITY_ENTITIES)

/-- The canonical comparison key of an entity's content: numeric
normalization (with optional truncation) followed by name stripping. -/
def canonKey (rhs : List Char) (md : Option Nat) : List Char :=
  normalize_entity_name (normalize_numbers_in_line rhs md)

/-- `u32` wrap-around of `len as u32 + 1`, the fresh sequential id. -/
def u32succ (len : Nat) : Nat := (len % 2 ^ 32 + 1) % 2 ^ 32

/-- Fuelled embedding of the `while uniques.contains_key(&norm_rhs)` loop
for identity entities: append spaces until the key is unused.  Each
collision removes at least one key of length at least the current key's
length from the candidate set, so fuel `uniques.length + 1` suffices
(proved below as `freshKeyGo_not_mem`). -/
def freshKeyGo : Nat → List (List Char × Nat) → List Char → List Char
  | 0, _, key => key
  | fuel + 1, uniques, key =>
    if (findKey uniques key).isSome then freshKeyGo fuel uniques (key ++ [' '])
    else key

/-- Fresh-key wrapper with sufficient fuel. -/
def freshKey (uniques : List (List Char × Nat)) (key : List Char) : List Char :=
  freshKeyGo (uniques.length + 1) uniques key

/-- Per-pass accumulator: the `uniques` key table, the old-to-new id
`lookup` table (both cons-front, first match = latest insert, matching
`HashMap` insert/get), and the kept `(new_id, rhs)` pairs in order.
The source stores kept entries as formatted lines `#new_id=rhs` and
re-splits them at the first `=` during remapping; since the id digits
contain no `=`, keeping the pair is observably identical. -/
structure PassAcc where
  uniques : List (List Char × Nat)
  lookup : List (Nat × Nat)
  out : List (Nat × List Char)

/-- Processing of one data line inside a `deduplicate` pass. -/
def passLine (md : Option Nat) (acc : PassAcc) (line : Line) : Except Unit PassAcc :=
  match splitOnFirst '=' line with
  | none => .ok acc
  | some pr =>
    if pr.1.isEmpty then .error ()
    else
      let old_num := (parseU32 pr.1.tail).getD 0
      let rhs := trimBoth pr.2
      let entity_type := get_entity_type rhs
      let norm_rhs := canonKey rhs md
      if is_identity_entity entity_type then
        let key := freshKey acc.uniques norm_rhs
        let new_id := u32succ acc.out.length
        .ok ⟨(key, new_id) :: acc.uniques, (old_num, new_id) :: acc.lookup,
             acc.out ++ [(new_id, rhs)]⟩
      else
        match findKey acc.uniques norm_rhs with
        | some existing_id =>
          .ok ⟨acc.uniques, (old_num, existing_id) :: acc.lookup, acc.out⟩
        | none =>
          let new_id := u32succ acc.out.length
          .ok ⟨(norm_rhs, new_id) :: acc.uniques, (old_num, new_id) :: acc.lookup,
               acc.out ++ [(new_id, rhs)]⟩

/-- The per-line loop of one pass. -/
def passLines (md : Option Nat) : List Line → PassAcc → Except Unit PassAcc
  | [], acc => .ok acc
  | l :: ls, acc =>
    match passLine md acc l with
    | .error e => .error e
    | .ok acc' => passLines md ls acc'

/-- Format a kept entry back into a data line, with references remapped
through the pass's lookup table. -/
def formatLine (lk : List (Nat × Nat)) (e : Nat × List Char) : Line :=
  '#' :: (natToDigits e.1 ++ '=' :: remap_references e.2 lk)

/-- One full pass of `deduplicate`: select survivors, then rewrite every
surviving line's references with the pass's old-to-new table. -/
def runPass (md : Option Nat) (lines : List Line) : Except Unit (List Line) :=
  match passLines md lines ⟨[], [], []⟩ with
  | .error e => .error e
  | .ok acc => .ok (acc.out.map (formatLine acc.lookup))

/-- Fuelled embedding of the `loop` in `deduplicate`: run a pass, stop as
soon as a pass fails to strictly decrease the line count.  Each iteration
strictly decreases the line count, so fuel `lines.length + 1` bounds the
number of passes (proved below). -/
def dedupLoopGo (md : Option Nat) : Nat → List Line → Except Unit (List Line)
  | 0, _ => .error ()
  | fuel + 1, lines =>
    match runPass md lines with
    | .error e => .error e
    | .ok out => if lines.length ≤ out.length then .ok out else dedupLoopGo md fuel out

/-- Embeds `deduplicate` from `deduplicate.rs`. -/
def deduplicate (data_lines : List Line) (max_decimals : Option Nat) : Except Unit (List Line) :=
  dedupLoopGo max_decimals (data_lines.length + 1) data_lines

/-!
## `orphans.rs`: mark/sweep reachability collection

The id maps are embedded as cons-front association lists whose first match
is the latest insertion, matching `HashMap` insert-overwrite semantics.
The source seeds the work list by iterating the map in unspecified hash
order and walks a `HashSet` of references per entity; the embedding fixes
a concrete order.  The resulting reachable set is order-independent (the
correctness theorems below characterize it as the transitive closure), and
all later uses of the set are membership tests.
-/

/-- Embeds the `GC_ROOT_ENTITIES` table. -/
def GC_ROOT_ENTITIES : List (List Char) :=
  ["APPLICATION_CONTEXT".toList,
   "APPLICATION_PROTOCOL_DEFINITION".toList,
   "CONTEXT_DEPENDENT_SHAPE_REPRESENTATION".toList,
   "DRAUGHTING_MODEL".toList,
   "MECHANICAL_DESIGN_GEOMETRIC_PRESENTATION_REPRESENTATION".toList,
   "PRESENTATION_LAYER_ASSIGNMENT".toList,
   "PRODUCT_DEFINITION".toList,
   "SHAPE_DEFINITION_REPRESENTATION".toList,
   "SHAPE_REPRESENTATION_RELATIONSHIP".toList]

/-- Parsing of one line in `remove_orphans`: no `=` or an unparsable id
skips the line, a leading `=` panics (inverted slice), otherwise the
entity is `(id, rhs)` with the id parsed from the trimmed text between
position 1 and the `=`, and the untrimmed right-hand side. -/
def parseOrphanLine (line : Line) : Except Unit (Option (Nat × List Char)) :=
  match splitOnFirst '=' line with
  | none => .ok none
  | some pr =>
    if pr.1.isEmpty then .error ()
    else match parseU32 (trimBoth pr.1.tail) with
      | none => .ok none
      | some eid => .ok (some (eid, pr.2))

/-- Pure projection of `parseOrphanLine` (its value when it does not
panic), used to state theorems. -/
def orphanEntity? (line : Line) : Option (Nat × List Char) :=
  match parseOrphanLine line with
  | .ok v => v
  | .error _ => none

/-- Building the id-to-content map (`id_to_rhs`), cons-front so that a
duplicate id's later line overwrites the earlier one. -/
def collectEntitiesGo : List Line → List (Nat × List Char) → Except Unit (List (Nat × List Char))
  | [], acc => .ok acc
  | l :: ls, acc =>
    match parseOrphanLine l with
    | .error e => .error e
    | .ok none => collectEntitiesGo ls acc
    | .ok (some ent) => collectEntitiesGo ls (ent :: acc)

/-- The entity map of a line list. -/
def collectEntities (lines : List Line) : Except Unit (List (Nat × List Char)) :=
  collectEntitiesGo lines []

/-- Pure variant of `collectEntities` (its value when no line panics). -/
def entsOfGo : List Line → List (Nat × List Char) → List (Nat × List Char)
  | [], acc => acc
  | l :: ls, acc =>
    match orphanEntity? l with
    | none => entsOfGo ls acc
    | some ent => entsOfGo ls (ent :: acc)

/-- Pure entity map of a line list. -/
def entsOf (lines : List Line) : List (Nat × List Char) := entsOfGo lines []

/-- Map lookup (`id_to_rhs.get`): first match = latest insertion. -/
def entFind (ents : List (Nat × List Char)) (eid : Nat) : Option (List Char) :=
  match ents with
  | [] => none
  | e :: t => if e.1 = eid then some e.2 else entFind t eid

/-- The distinct ids present in the entity map. -/
def entityIds (ents : List (Nat × List Char)) : List Nat :=
  (ents.map Prod.fst).dedup

/-- The GC roots: ids whose (latest) content has a root type. -/
def rootsOf (ents : List (Nat × List Char)) : List Nat :=
  (entityIds ents).filter (fun eid =>
    match entFind ents eid with
    | some rhs => decide (get_entity_type rhs ∈ GC_ROOT_ENTITIES)
    | none => false)

/-- The reference ids recorded for an entity (`id_to_refs.get`): the
references collected from its (latest) content, nothing for an absent id. -/
def refsOf (ents : List (Nat × List Char)) (eid : Nat) : List Nat :=
  match entFind ents eid with
  | some rhs => collect_references rhs
  | none => []

/-- One reference visit inside the walk: mark and push the id if it is not
yet reachable and exists in the map. -/
def pushRef (ents : List (Nat × List Char)) (acc : List Nat × List Nat) (r : Nat) :
    List Nat × List Nat :=
  if r ∉ acc.1 ∧ (entFind ents r).isSome then (r :: acc.1, r :: acc.2) else acc

/-- Fuelled embedding of the work-list walk: pop an id, push every not yet
reachable referenced id that exists in the map.  Each step either marks a
new id or shrinks the stack, so `2 * |ids| + |stack|` bounds the number of
steps (the measure argument is carried through `walkGo_spec` below). -/
def walkGo (ents : List (Nat × List Char)) : Nat → List Nat → List Nat → List Nat
  | 0, reachable, _ => reachable
  | _, reachable, [] => reachable
  | fuel + 1, reachable, eid :: rest =>
    let next := (refsOf ents eid).foldl (pushRef ents) (reachable, rest)
    walkGo ents fuel next.1 next.2

/-- The reachable set computed by the walk, seeded with the roots. -/
def walkSet (ents : List (Nat × List Char)) : List Nat :=
  walkGo ents (2 * (entityIds ents).length + (rootsOf ents).length)
    (rootsOf ents) (rootsOf ents)

/-- The surviving `(old_id, rhs)` pairs, in line order: the second pass
over the lines in `remove_orphans`, keeping reachable entities. -/
def survivorsOf : List Line → List Nat → Except Unit (List (Nat × List Char))
  | [], _ => .ok []
  | l :: ls, reach =>
    match parseOrphanLine l with
    | .error e => .error e
    | .ok none => survivorsOf ls reach
    | .ok (some ent) =>
      match survivorsOf ls reach with
      | .error e => .error e
      | .ok rest => .ok (if ent.1 ∈ reach then ent :: rest else rest)

/-- Pure variant of `survivorsOf`. -/
def survivorsP (lines : List Line) (reach : List Nat) : List (Nat × List Char) :=
  lines.foldr
    (fun l rest =>
      match orphanEntity? l with
      | some ent => if ent.1 ∈ reach then ent :: rest else rest
      | none => rest) []

/-- The renumber table: the i-th survivor's old id maps to `i + 1` (with
`u32` wrap).  Reversed so that the first match is the latest insertion,
matching `HashMap` overwrite for duplicate ids. -/
def renumberOf (survivors : List (Nat × List Char)) : List (Nat × Nat) :=
  (survivors.enum.map (fun p => (p.2.1, u32succ p.1))).reverse

/-- The rebuilt output lines: survivors renumbered sequentially with their
references rewritten through the renumber table. -/
def rebuildLines (survivors : List (Nat × List Char)) : List Line :=
  survivors.enum.map (fun p =>
    '#' :: (natToDigits (u32succ p.1) ++ '=' :: remap_references p.2.2 (renumberOf survivors)))

/-- Embeds `remove_orphans` from `orphans.rs`. -/
def remove_orphans (lines : List Line) : Except Unit (List Line) :=
  match collectEntities lines with
  | .error e => .error e
  | .ok ents =>
    let reachable := walkSet ents
    if reachable.isEmpty then .ok lines
    else
      match survivorsOf lines reachable with
      | .error e => .error e
      | .ok survivors => .ok (rebuildLines survivors)

/-!
## `parse.rs` and `lib.rs`: structural parser and pipeline
-/

/-- The three sections of a STEP file. -/
structure ParseResult where
  header : List Line
  data : List Line
  footer : List Line

/-- Parser state: section flags, continuation flag, and the three groups
accumulated in reverse. -/
structure ParseState where
  pastHeader : Bool
  pastData : Bool
  continuing : Bool
  headerR : List Line
  dataR : List Line
  footerR : List Line

/-- One step of `parse_data_section`, processing one physical line. -/
def parseStep (st : ParseState) (line : Line) : ParseState :=
  if st.pastHeader then
    if st.pastData || containsSub "ENDSEC;".toList line then
      ⟨st.pastHeader, true, st.continuing, st.headerR, st.dataR, line :: st.footerR⟩
    else
      let trimmed := trimBoth line
      let dataR' :=
        if st.continuing then
          match st.dataR with
          | d :: ds =>
            (d ++ (if trimmed.head?.elim false isAlphaA then [' '] else []) ++ trimmed) :: ds
          | [] => [trimmed]
        else trimmed :: st.dataR
      ⟨st.pastHeader, st.pastData, ¬ (trimEnd line).getLast? = some ';', st.headerR, dataR',
       st.footerR⟩
  else
    ⟨st.pastHeader || containsSub "DATA;".toList line, st.pastData, st.continuing,
     trimEnd line :: st.headerR, st.dataR, st.footerR⟩

/-- Embeds `parse_data_section` from `parse.rs`. -/
def parse_data_section (lines : List Line) : ParseResult :=
  let fin := lines.foldl parseStep ⟨false, false, false, [], [], []⟩
  ⟨fin.headerR.reverse, fin.dataR.reverse, fin.footerR.reverse⟩

/-- Splitting raw bytes into lines, embedding `BufRead::lines`: split at
line feeds, strip one trailing carriage return per line, and drop the
final fragment when it is empty. -/
def splitLinesGo : List Char → List Char → List Line
  | acc, [] => if acc.isEmpty then [] else [acc.reverse]
  | acc, c :: rest =>
    if c = nlc then acc.reverse :: splitLinesGo [] rest
    else if c = crc ∧ rest.head? = some nlc then splitLinesGo acc rest
    else splitLinesGo (c :: acc) rest

/-- Line splitting wrapper. -/
def splitLines (bs : List Char) : List Line := splitLinesGo [] bs

/-- Serialization: each line followed by a line feed (`writeln!`). -/
def serializeLines (ls : List Line) : List Char :=
  ls.foldr (fun l acc => l ++ nlc :: acc) []

/-- Embeds the core of `reduce` from `lib.rs` at the line level, with the
default configuration's optional comparison bound `md` (`verbose` and
`use_step_precision` are off in `ReduceOptions::default()`): parse,
deduplicate, collect orphans, reassemble. -/
def reduceLines (md : Option Nat) (fileLines : List Line) : Except Unit (List Line) :=
  let parsed := parse_data_section fileLines
  match deduplicate parsed.data md with
  | .error e => .error e
  | .ok d1 =>
    match remove_orphans d1 with
    | .error e => .error e
    | .ok d2 => .ok (parsed.header ++ d2 ++ parsed.footer)

/-- The full byte-to-byte pipeline: split into lines, reduce, serialize. -/
def reduceBytes (md : Option Nat) (input : List Char) : Except Unit (List Char) :=
  match reduceLines md (splitLines input) with
  | .error e => .error e
  | .ok out => .ok (serializeLines out)

/-!
## Generic list lemmas
-/

theorem length_dropWhile_le {α} (p : α → Bool) (l : List α) :
    (l.dropWhile p).length ≤ l.length := by
  induction l with
  | nil => simp
  | cons a t ih =>
    by_cases h : p a
    · simpa [List.dropWhile, h] using Nat.le_succ_of_le ih
    · simp [List.dropWhile, h]

theorem takeWhile_append_all {α} (p : α → Bool) (l₁ l₂ : List α)
    (h : ∀ a ∈ l₁, p a = true) :
    (l₁ ++ l₂).takeWhile p = l₁ ++ l₂.takeWhile p := by
  induction l₁ with
  | nil => simp
  | cons a t ih =>
    have ha : p a = true := h a (by simp)
    simp only [List.cons_append, List.takeWhile_cons, ha, if_true]
    rw [ih (fun b hb => h b (by simp [hb]))]

theorem dropWhile_append_all {α} (p : α → Bool) (l₁ l₂ : List α)
    (h : ∀ a ∈ l₁, p a = true) :
    (l₁ ++ l₂).dropWhile p = l₂.dropWhile p := by
  induction l₁ with
  | nil => simp
  | cons a t ih =>
    have ha : p a = true := h a (by simp)
    simp only [List.cons_append, List.dropWhile_cons, ha, if_true]
    exact ih (fun b hb => h b (by simp [hb]))

theorem takeWhile_eq_nil_of_head {α} (p : α → Bool) (l : List α)
    (h : ∀ a, l.head? = some a → p a = false) :
    l.takeWhile p = [] := by
  cases l with
  | nil => rfl
  | cons a t => simp [List.takeWhile_cons, h a rfl]

theorem dropWhile_eq_self_of_head {α} (p : α → Bool) (l : List α)
    (h : ∀ a, l.head? = some a → p a = false) :
    l.dropWhile p = l := by
  cases l with
  | nil => rfl
  | cons a t => simp [List.dropWhile_cons, h a rfl]

theorem mem_takeWhile_sat {α} (p : α → Bool) (l : List α) {a : α}
    (h : a ∈ l.takeWhile p) : p a = true := by
  induction l with
  | nil => simp at h
  | cons b t ih =>
    by_cases hb : p b
    · simp only [List.takeWhile_cons, hb, if_true, List.mem_cons] at h
      rcases h with rfl | h
      · exact hb
      · exact ih h
    · simp [List.takeWhile_cons, hb] at h

theorem length_filter_mono_pred {α} (p q : α → Bool) (l : List α)
    (mono : ∀ a, q a = true → p a = true) :
    (l.filter q).length ≤ (l.filter p).length := by
  induction l with
  | nil => simp
  | cons c u ihu =>
    simp only [List.filter_cons]
    by_cases hc : q c = true
    · rw [if_pos hc, if_pos (mono c hc)]
      simpa using ihu
    · rw [if_neg hc]
      by_cases hc' : p c = true
      · rw [if_pos hc']
        simp only [List.length_cons]
        omega
      · rw [if_neg hc']
        exact ihu

theorem length_filter_lt_of_strict {α} (p q : α → Bool) (l : List α)
    (mono : ∀ a, q a = true → p a = true) (a : α) (ha : a ∈ l)
    (hpa : p a = true) (hqa : q a = false) :
    (l.filter q).length < (l.filter p).length := by
  induction l with
  | nil => simp at ha
  | cons b t ih =>
    simp only [List.filter_cons]
    rcases List.mem_cons.mp ha with rfl | hat
    · rw [if_pos hpa, if_neg (by simp [hqa])]
      have := length_filter_mono_pred p q t mono
      simp only [List.length_cons]
      omega
    · by_cases hb : q b = true
      · rw [if_pos hb, if_pos (mono b hb)]
        simp only [List.length_cons]
        exact Nat.succ_lt_succ (ih hat)
      · rw [if_neg hb]
        by_cases hb' : p b = true
        · rw [if_pos hb']
          exact Nat.lt_succ_of_lt (ih hat)
        · rw [if_neg hb']
          exact ih hat

/-!
## Character-class and digit-string lemmas
-/

theorem isDigitA_ne_hash {c : Char} (h : isDigitA c = true) : c ≠ '#' := by
  rintro rfl; simp [isDigitA] at h

theorem isDigitA_ne_eq {c : Char} (h : isDigitA c = true) : c ≠ '=' := by
  rintro rfl; simp [isDigitA] at h

theorem isDigitA_ne_paren {c : Char} (h : isDigitA c = true) : c ≠ '(' := by
  rintro rfl; simp [isDigitA] at h

theorem isDigitA_not_ws {c : Char} (h : isDigitA c = true) : is_whitespace c = false := by
  simp only [isDigitA, decide_eq_true_eq] at h
  simp only [is_whitespace, decide_eq_true_eq, decide_eq_false_iff_not]
  rintro (rfl | hr)
  · simp at h
  · omega

theorem digitChar_isDigitA (n : Nat) : isDigitA (digitChar n) = true := by
  rcases n with _ | _ | _ | _ | _ | _ | _ | _ | _ | n <;> rfl

theorem digitChar_toNat (n : Nat) (h : n < 10) : (digitChar n).toNat = 48 + n := by
  interval_cases n <;> rfl

theorem natToDigitsGo_all_digit (fuel n : Nat) (acc : List Char)
    (hacc : ∀ c ∈ acc, isDigitA c = true) :
    ∀ c ∈ natToDigitsGo fuel n acc, isDigitA c = true := by
  induction fuel generalizing n acc with
  | zero => simpa [natToDigitsGo] using hacc
  | succ fuel ih =>
    by_cases h : n < 10
    · simp only [natToDigitsGo, h, if_true]
      intro c hc
      rcases List.mem_cons.mp hc with rfl | hc
      · exact digitChar_isDigitA n
      · exact hacc c hc
    · simp only [natToDigitsGo, h, if_false]
      refine ih (n / 10) _ ?_
      intro c hc
      rcases List.mem_cons.mp hc with rfl | hc
      · exact digitChar_isDigitA (n % 10)
      · exact hacc c hc

theorem natToDigits_all_digit (n : Nat) : ∀ c ∈ natToDigits n, isDigitA c = true :=
  natToDigitsGo_all_digit (n + 1) n [] (by simp)

theorem natToDigitsGo_ne_nil (fuel n : Nat) (acc : List Char) (hf : n < fuel) :
    natToDigitsGo fuel n acc ≠ [] := by
  induction fuel generalizing n acc with
  | zero => omega
  | succ fuel ih =>
    by_cases h : n < 10
    · simp [natToDigitsGo, h]
    · simp only [natToDigitsGo, h, if_false]
      exact ih (n / 10) _ (by omega)

theorem natToDigits_ne_nil (n : Nat) : natToDigits n ≠ [] :=
  natToDigitsGo_ne_nil (n + 1) n [] (by omega)

theorem foldl_natToDigitsGo (fuel : Nat) :
    ∀ (n : Nat) (acc : List Char), n < fuel →
      (natToDigitsGo fuel n acc).foldl (fun a c => 10 * a + (c.toNat - 48)) 0 =
        acc.foldl (fun a c => 10 * a + (c.toNat - 48)) n := by
  induction fuel with
  | zero => intro n acc h; omega
  | succ fuel ih =>
    intro n acc h
    by_cases h10 : n < 10
    · simp only [natToDigitsGo, h10, if_true, List.foldl_cons]
      congr 1
      rw [digitChar_toNat n h10]
      omega
    · simp only [natToDigitsGo, h10, if_false]
      have hdiv : n / 10 < fuel := by omega
      rw [ih (n / 10) (digitChar (n % 10) :: acc) hdiv]
      simp only [List.foldl_cons]
      congr 1
      rw [digitChar_toNat (n % 10) (Nat.mod_lt n (by omega))]
      omega

theorem natOfDigits_natToDigits (n : Nat) : natOfDigits (natToDigits n) = n := by
  have := foldl_natToDigitsGo (n + 1) n [] (by omega)
  simpa [natToDigits, natOfDigits] using this

theorem parseU32_natToDigits (n : Nat) (h : n < 2 ^ 32) :
    parseU32 (natToDigits n) = some n := by
  have hall : (natToDigits n).all isDigitA = true :=
    List.all_eq_true.mpr (fun c hc => natToDigits_all_digit n c hc)
  have hne : natToDigits n ≠ [] := natToDigits_ne_nil n
  have hval : natOfDigits (natToDigits n) = n := natOfDigits_natToDigits n
  have hplus : (match natToDigits n with
      | '+' :: t => t
      | _ => natToDigits n) = natToDigits n := by
    split
    · next t heq =>
      exfalso
      have hc : isDigitA '+' = true := by
        apply natToDigits_all_digit n
        rw [heq]; simp
      simp [isDigitA] at hc
    · rfl
  unfold parseU32
  simp only [hplus]
  rw [if_pos ⟨hne, hall, by rw [hval]; exact h⟩, hval]

/-!
## Unfolding equations for the fuelled reference scanners

The fuel only bounds the number of steps; any fuel at least the string
length yields the same result.  This gives clean cons-step equations for
the wrappers, on which all structural proofs below are based.
-/

theorem collectRefsGo_congr :
    ∀ (f1 f2 : Nat) (cs : List Char), cs.length ≤ f1 → cs.length ≤ f2 →
      collectRefsGo f1 cs = collectRefsGo f2 cs := by
  intro f1
  induction f1 with
  | zero =>
    intro f2 cs h1 _
    have : cs = [] := List.length_eq_zero.mp (Nat.le_zero.mp h1)
    subst this
    cases f2 <;> rfl
  | succ f1 ih =>
    intro f2 cs h1 h2
    cases cs with
    | nil => cases f2 <;> rfl
    | cons c rest =>
      cases f2 with
      | zero => simp at h2
      | succ f2 =>
        have hr1 : rest.length ≤ f1 := by simp at h1; omega
        have hr2 : rest.length ≤ f2 := by simp at h2; omega
        have hd1 : (rest.dropWhile isDigitA).length ≤ f1 :=
          le_trans (length_dropWhile_le _ _) hr1
        have hd2 : (rest.dropWhile isDigitA).length ≤ f2 :=
          le_trans (length_dropWhile_le _ _) hr2
        simp only [collectRefsGo]
        by_cases hc : c = '#'
        · simp only [hc, if_true]
          by_cases he : (rest.takeWhile isDigitA).isEmpty
          · simp only [if_pos he]
            exact ih f2 rest hr1 hr2
          · simp only [if_neg he]
            by_cases hv : natOfDigits (rest.takeWhile isDigitA) < 2 ^ 32
            · simp only [if_pos hv]
              rw [ih f2 _ hd1 hd2]
            · simp only [if_neg hv]
              exact ih f2 _ hd1 hd2
        · simp only [hc, if_false]
          exact ih f2 rest hr1 hr2

theorem collect_references_nil : collect_references [] = [] := rfl

theorem collect_references_cons (c : Char) (rest : List Char) :
    collect_references (c :: rest) =
      if c = '#' then
        if (rest.takeWhile isDigitA).isEmpty then collect_references rest
        else if natOfDigits (rest.takeWhile isDigitA) < 2 ^ 32 then
          natOfDigits (rest.takeWhile isDigitA) :: collect_references (rest.dropWhile isDigitA)
        else collect_references (rest.dropWhile isDigitA)
      else collect_references rest := by
  show collectRefsGo (rest.length + 1) (c :: rest) = _
  simp only [collectRefsGo]
  by_cases hc : c = '#'
  · simp only [hc, if_true]
    by_cases he : (rest.takeWhile isDigitA).isEmpty
    · simp only [if_pos he]
      rfl
    · simp only [if_neg he]
      have := collectRefsGo_congr rest.length (rest.dropWhile isDigitA).length
        (rest.dropWhile isDigitA) (length_dropWhile_le _ _) le_rfl
      by_cases hv : natOfDigits (rest.takeWhile isDigitA) < 2 ^ 32
      · simp only [if_pos hv]; rw [this]; rfl
      · simp only [if_neg hv]; rw [this]; rfl
  · simp only [hc, if_false]
    rfl

theorem remapRefsGo_congr (lk : List (Nat × Nat)) :
    ∀ (f1 f2 : Nat) (cs : List Char), cs.length ≤ f1 → cs.length ≤ f2 →
      remapRefsGo lk f1 cs = remapRefsGo lk f2 cs := by
  intro f1
  induction f1 with
  | zero =>
    intro f2 cs h1 _
    have : cs = [] := List.length_eq_zero.mp (Nat.le_zero.mp h1)
    subst this
    cases f2 <;> rfl
  | succ f1 ih =>
    intro f2 cs h1 h2
    cases cs with
    | nil => cases f2 <;> rfl
    | cons c rest =>
      cases f2 with
      | zero => simp at h2
      | succ f2 =>
        have hr1 : rest.length ≤ f1 := by simp at h1; omega
        have hr2 : rest.length ≤ f2 := by simp at h2; omega
        have hd1 : (rest.dropWhile isDigitA).length ≤ f1 :=
          le_trans (length_dropWhile_le _ _) hr1
        have hd2 : (rest.dropWhile isDigitA).length ≤ f2 :=
          le_trans (length_dropWhile_le _ _) hr2
        simp only [remapRefsGo]
        by_cases hc : c = '#'
        · simp only [hc, if_true]
          by_cases he : (rest.takeWhile isDigitA).isEmpty
          · simp only [if_pos he]
            rw [ih f2 rest hr1 hr2]
          · simp only [if_neg he]
            by_cases hv : natOfDigits (rest.takeWhile isDigitA) < 2 ^ 32
            · simp only [if_pos hv]
              cases findId lk (natOfDigits (rest.takeWhile isDigitA)) <;>
                simp only [] <;> rw [ih f2 _ hd1 hd2]
            · simp only [if_neg hv]
              rw [ih f2 _ hd1 hd2]
        · simp only [hc, if_false]
          rw [ih f2 rest hr1 hr2]

theorem remap_references_nil (lk : List (Nat × Nat)) : remap_references [] lk = [] := rfl

theorem remap_references_cons (c : Char) (rest : List Char) (lk : List (Nat × Nat)) :
    remap_references (c :: rest) lk =
      if c = '#' then
        if (rest.takeWhile isDigitA).isEmpty then c :: remap_references rest lk
        else if natOfDigits (rest.takeWhile isDigitA) < 2 ^ 32 then
          match findId lk (natOfDigits (rest.takeWhile isDigitA)) with
          | some nv =>
            '#' :: (natToDigits nv ++ remap_references (rest.dropWhile isDigitA) lk)
          | none =>
            '#' :: (rest.takeWhile isDigitA ++ remap_references (rest.dropWhile isDigitA) lk)
        else '#' :: (rest.takeWhile isDigitA ++ remap_references (rest.dropWhile isDigitA) lk)
      else c :: remap_references rest lk := by
  show remapRefsGo lk (rest.length + 1) (c :: rest) = _
  simp only [remapRefsGo]
  have hcg := remapRefsGo_congr lk rest.length (rest.dropWhile isDigitA).length
    (rest.dropWhile isDigitA) (length_dropWhile_le _ _) le_rfl
  by_cases hc : c = '#'
  · simp only [hc, if_true]
    by_cases he : (rest.takeWhile isDigitA).isEmpty
    · simp only [if_pos he]
      rfl
    · simp only [if_neg he]
      by_cases hv : natOfDigits (rest.takeWhile isDigitA) < 2 ^ 32
      · simp only [if_pos hv]
        cases findId lk (natOfDigits (rest.takeWhile isDigitA)) <;>
          simp only [] <;> rw [hcg] <;> rfl
      · simp only [if_neg hv]
        rw [hcg]
        rfl
  · simp only [hc, if_false]
    rfl

theorem refMaskGo_congr :
    ∀ (f1 f2 : Nat) (cs : List Char), cs.length ≤ f1 → cs.length ≤ f2 →
      refMaskGo f1 cs = refMaskGo f2 cs := by
  intro f1
  induction f1 with
  | zero =>
    intro f2 cs h1 _
    have : cs = [] := List.length_eq_zero.mp (Nat.le_zero.mp h1)
    subst this
    cases f2 <;> rfl
  | succ f1 ih =>
    intro f2 cs h1 h2
    cases cs with
    | nil => cases f2 <;> rfl
    | cons c rest =>
      cases f2 with
      | zero => simp at h2
      | succ f2 =>
        have hr1 : rest.length ≤ f1 := by simp at h1; omega
        have hr2 : rest.length ≤ f2 := by simp at h2; omega
        have hd1 : (rest.dropWhile isDigitA).length ≤ f1 :=
          le_trans (length_dropWhile_le _ _) hr1
        have hd2 : (rest.dropWhile isDigitA).length ≤ f2 :=
          le_trans (length_dropWhile_le _ _) hr2
        simp only [refMaskGo]
        by_cases hc : c = '#'
        · simp only [hc, if_true]
          by_cases he : (rest.takeWhile isDigitA).isEmpty
          · simp only [if_pos he]
            rw [ih f2 rest hr1 hr2]
          · simp only [if_neg he]
            by_cases hv : natOfDigits (rest.takeWhile isDigitA) < 2 ^ 32
            · simp only [if_pos hv]
              rw [ih f2 _ hd1 hd2]
            · simp only [if_neg hv]
              rw [ih f2 _ hd1 hd2]
        · simp only [hc, if_false]
          rw [ih f2 rest hr1 hr2]

theorem refMask_nil : refMask [] = [] := rfl

theorem refMask_cons (c : Char) (rest : List Char) :
    refMask (c :: rest) =
      if c = '#' then
        if (rest.takeWhile isDigitA).isEmpty then c :: refMask rest
        else if natOfDigits (rest.takeWhile isDigitA) < 2 ^ 32 then
          '#' :: refMask (rest.dropWhile isDigitA)
        else '#' :: (rest.takeWhile isDigitA ++ refMask (rest.dropWhile isDigitA))
      else c :: refMask rest := by
  show refMaskGo (rest.length + 1) (c :: rest) = _
  simp only [refMaskGo]
  have hcg := refMaskGo_congr rest.length (rest.dropWhile isDigitA).length
    (rest.dropWhile isDigitA) (length_dropWhile_le _ _) le_rfl
  by_cases hc : c = '#'
  · simp only [hc, if_true]
    by_cases he : (rest.takeWhile isDigitA).isEmpty
    · simp only [if_pos he]
      rfl
    · simp only [if_neg he]
      by_cases hv : natOfDigits (rest.takeWhile isDigitA) < 2 ^ 32
      · simp only [if_pos hv]; rw [hcg]; rfl
      · simp only [if_neg hv]; rw [hcg]; rfl
  · simp only [hc, if_false]
    rfl

/-!
## Structural lemmas about reference remapping
-/

theorem head_dropWhile_false {α} (p : α → Bool) (l : List α) {a : α}
    (h : (l.dropWhile p).head? = some a) : p a = false := by
  induction l with
  | nil => simp at h
  | cons b t ih =>
    by_cases hb : p b = true
    · rw [List.dropWhile_cons, if_pos hb] at h
      exact ih h
    · rw [List.dropWhile_cons, if_neg hb] at h
      have hba : b = a := by simpa using h
      subst hba
      simpa using hb

theorem head_of_takeWhile_nil {α} (p : α → Bool) (l : List α)
    (h : l.takeWhile p = []) : ∀ a, l.head? = some a → p a = false := by
  intro a ha
  cases l with
  | nil => simp at ha
  | cons b t =>
    have hba : b = a := by simpa using ha
    subst hba
    by_cases hb : p b = true
    · rw [List.takeWhile_cons, if_pos hb] at h
      simp at h
    · simpa using hb

theorem findId_mem {lk : List (Nat × Nat)} {k v : Nat} (h : findId lk k = some v) :
    (k, v) ∈ lk := by
  induction lk with
  | nil => simp [findId] at h
  | cons e t ih =>
    rcases e with ⟨k1, v1⟩
    rw [findId] at h
    by_cases he : (k1, v1).1 = k
    · rw [if_pos he] at h
      simp only [Option.some.injEq] at h
      simp only [] at he
      subst he
      subst h
      simp
    · rw [if_neg he] at h
      exact List.mem_cons_of_mem _ (ih h)

theorem remap_head? (cs : List Char) (lk : List (Nat × Nat)) :
    (remap_references cs lk).head? = cs.head? := by
  cases cs with
  | nil => rfl
  | cons c rest =>
    rw [remap_references_cons]
    by_cases hc : c = '#'
    · simp only [hc, if_true]
      by_cases he : (rest.takeWhile isDigitA).isEmpty = true
      · simp only [if_pos he]
        rfl
      · simp only [if_neg he]
        by_cases hv : natOfDigits (rest.takeWhile isDigitA) < 2 ^ 32
        · simp only [if_pos hv]
          cases findId lk (natOfDigits (rest.takeWhile isDigitA)) <;> rfl
        · simp only [if_neg hv]
          rfl
    · simp only [hc, if_false]
      rfl

theorem mem_remap {a : Char} (cs : List Char) (lk : List (Nat × Nat))
    (h : a ∈ remap_references cs lk) : a ∈ cs ∨ isDigitA a = true := by
  generalize hn : cs.length = n at *
  induction n using Nat.strong_induction_on generalizing cs with
  | _ n ih =>
    cases cs with
    | nil =>
      rw [remap_references_nil] at h
      simp at h
    | cons c rest =>
      have hrest : rest.length < n := by simp at hn; omega
      have hdw : (rest.dropWhile isDigitA).length < n :=
        lt_of_le_of_lt (length_dropWhile_le _ _) hrest
      have hmemdw : a ∈ rest.dropWhile isDigitA → a ∈ c :: rest := by
        intro h'
        right
        rw [← List.takeWhile_append_dropWhile (p := isDigitA) (l := rest)]
        exact List.mem_append.mpr (Or.inr h')
      rw [remap_references_cons] at h
      by_cases hc : c = '#'
      · simp only [hc, if_true] at h
        by_cases he : (rest.takeWhile isDigitA).isEmpty = true
        · simp only [if_pos he] at h
          rcases List.mem_cons.mp h with rfl | h
          · left; simp [hc]
          · rcases ih rest.length hrest rest h rfl with h' | h'
            · left; simp [h']
            · right; exact h'
        · simp only [if_neg he] at h
          have hsplit : a ∈ rest.takeWhile isDigitA ++
              remap_references (rest.dropWhile isDigitA) lk → a ∈ (c :: rest) ∨ isDigitA a = true := by
            intro hx
            rcases List.mem_append.mp hx with hx | hx
            · right; exact mem_takeWhile_sat _ _ hx
            · rcases ih _ hdw (rest.dropWhile isDigitA) hx rfl with h' | h'
              · left; exact hmemdw h'
              · right; exact h'
          by_cases hv : natOfDigits (rest.takeWhile isDigitA) < 2 ^ 32
          · simp only [if_pos hv] at h
            rcases hfi : findId lk (natOfDigits (rest.takeWhile isDigitA)) with _ | nv <;>
              rw [hfi] at h
            · rcases List.mem_cons.mp h with rfl | h
              · left; simp [hc]
              · exact hsplit h
            · rcases List.mem_cons.mp h with rfl | h
              · left; simp [hc]
              · rcases List.mem_append.mp h with hx | hx
                · right; exact natToDigits_all_digit nv a hx
                · rcases ih _ hdw (rest.dropWhile isDigitA) hx rfl with h' | h'
                  · left; exact hmemdw h'
                  · right; exact h'
          · simp only [if_neg hv] at h
            rcases List.mem_cons.mp h with rfl | h
            · left; simp [hc]
            · exact hsplit h
      · simp only [hc, if_false] at h
        rcases List.mem_cons.mp h with rfl | h
        · left; simp
        · rcases ih rest.length hrest rest h rfl with h' | h'
          · left; simp [h']
          · right; exact h'

theorem remap_no_hash (cs : List Char) (lk : List (Nat × Nat)) (h : '#' ∉ cs) :
    remap_references cs lk = cs := by
  generalize hn : cs.length = n at *
  induction n using Nat.strong_induction_on generalizing cs with
  | _ n ih =>
    cases cs with
    | nil => rfl
    | cons c rest =>
      have hrest : rest.length < n := by simp at hn; omega
      have hc : c ≠ '#' := by intro hcc; exact h (by simp [hcc])
      rw [remap_references_cons, if_neg hc,
        ih rest.length hrest rest (fun hm => h (by simp [hm])) rfl]

theorem takeWhile_all_append {p : Char → Bool} (A X : List Char)
    (hA : ∀ a ∈ A, p a = true) (hX : X.takeWhile p = []) :
    (A ++ X).takeWhile p = A := by
  rw [takeWhile_append_all p A X hA, hX, List.append_nil]

theorem dropWhile_all_append {p : Char → Bool} (A X : List Char)
    (hA : ∀ a ∈ A, p a = true) (hX : X.dropWhile p = X) :
    (A ++ X).dropWhile p = X := by
  rw [dropWhile_append_all p A X hA, hX]

theorem takeWhile_digit_remap_nil (lk : List (Nat × Nat)) (rest : List Char) :
    (remap_references (rest.dropWhile isDigitA) lk).takeWhile isDigitA = [] := by
  apply takeWhile_eq_nil_of_head
  intro a ha
  rw [remap_head?] at ha
  exact head_dropWhile_false _ _ ha

theorem dropWhile_digit_remap_self (lk : List (Nat × Nat)) (rest : List Char) :
    (remap_references (rest.dropWhile isDigitA) lk).dropWhile isDigitA =
      remap_references (rest.dropWhile isDigitA) lk := by
  apply dropWhile_eq_self_of_head
  intro a ha
  rw [remap_head?] at ha
  exact head_dropWhile_false _ _ ha

/-- References of a remapped string are exactly the original references
pushed through the lookup table (provided every table value fits in a
`u32`, which holds for every table the program builds). -/
theorem collect_remap (lk : List (Nat × Nat)) (hlk : ∀ e ∈ lk, e.2 < 2 ^ 32)
    (cs : List Char) :
    collect_references (remap_references cs lk) =
      (collect_references cs).map (remapVal lk) := by
  generalize hn : cs.length = n
  induction n using Nat.strong_induction_on generalizing cs with
  | _ n ih =>
    cases cs with
    | nil => rfl
    | cons c rest =>
      have hrest : rest.length < n := by simp at hn; omega
      have hdw : (rest.dropWhile isDigitA).length < n :=
        lt_of_le_of_lt (length_dropWhile_le _ _) hrest
      have hds_all : ∀ a ∈ rest.takeWhile isDigitA, isDigitA a = true :=
        fun a ha => mem_takeWhile_sat _ _ ha
      by_cases hc : c = '#'
      · subst hc
        by_cases he : (rest.takeWhile isDigitA).isEmpty = true
        · have hemp : rest.takeWhile isDigitA = [] := by
            simpa [List.isEmpty_iff] using he
          have hhead : ∀ a, rest.head? = some a → isDigitA a = false :=
            head_of_takeWhile_nil _ _ hemp
          have hheadR : (remap_references rest lk).takeWhile isDigitA = [] := by
            apply takeWhile_eq_nil_of_head
            intro a ha
            rw [remap_head?] at ha
            exact hhead a ha
          rw [remap_references_cons, if_pos rfl, if_pos he]
          rw [collect_references_cons, if_pos rfl, collect_references_cons, if_pos rfl]
          rw [if_pos he, if_pos (by simpa [List.isEmpty_iff] using hheadR)]
          exact ih rest.length hrest rest rfl
        · rw [remap_references_cons, if_pos rfl, if_neg he]
          rw [collect_references_cons, if_pos rfl, if_neg he]
          by_cases hv : natOfDigits (rest.takeWhile isDigitA) < 2 ^ 32
          · rw [if_pos hv]
            rcases hfi : findId lk (natOfDigits (rest.takeWhile isDigitA)) with _ | nv
            · simp only []
              rw [collect_references_cons, if_pos rfl]
              rw [takeWhile_all_append _ _ hds_all (takeWhile_digit_remap_nil lk rest),
                dropWhile_all_append _ _ hds_all (dropWhile_digit_remap_self lk rest)]
              rw [if_neg he, if_pos hv, if_pos hv]
              rw [List.map_cons, ih _ hdw (rest.dropWhile isDigitA) rfl]
              congr 1
              simp [remapVal, hfi]
            · simp only []
              rw [collect_references_cons, if_pos rfl]
              have htd_all : ∀ a ∈ natToDigits nv, isDigitA a = true :=
                natToDigits_all_digit nv
              rw [takeWhile_all_append _ _ htd_all (takeWhile_digit_remap_nil lk rest),
                dropWhile_all_append _ _ htd_all (dropWhile_digit_remap_self lk rest)]
              have hnv32 : nv < 2 ^ 32 := hlk _ (findId_mem hfi)
              rw [if_neg (by simpa [List.isEmpty_iff] using natToDigits_ne_nil nv),
                if_pos (by rw [natOfDigits_natToDigits]; exact hnv32), if_pos hv]
              rw [List.map_cons, ih _ hdw (rest.dropWhile isDigitA) rfl]
              congr 1
              rw [natOfDigits_natToDigits]
              simp [remapVal, hfi]
          · rw [if_neg hv]
            rw [collect_references_cons, if_pos rfl]
            rw [takeWhile_all_append _ _ hds_all (takeWhile_digit_remap_nil lk rest),
              dropWhile_all_append _ _ hds_all (dropWhile_digit_remap_self lk rest)]
            rw [if_neg he, if_neg hv, if_neg hv]
            exact ih _ hdw (rest.dropWhile isDigitA) rfl
      · rw [remap_references_cons, if_neg hc]
        rw [collect_references_cons, if_neg hc, collect_references_cons, if_neg hc]
        exact ih rest.length hrest rest rfl

/-- Remapping never changes the reference mask: only the digit runs of
reference tokens are rewritten. -/
theorem refMask_remap (lk : List (Nat × Nat)) (hlk : ∀ e ∈ lk, e.2 < 2 ^ 32)
    (cs : List Char) :
    refMask (remap_references cs lk) = refMask cs := by
  generalize hn : cs.length = n
  induction n using Nat.strong_induction_on generalizing cs with
  | _ n ih =>
    cases cs with
    | nil => rfl
    | cons c rest =>
      have hrest : rest.length < n := by simp at hn; omega
      have hdw : (rest.dropWhile isDigitA).length < n :=
        lt_of_le_of_lt (length_dropWhile_le _ _) hrest
      have hds_all : ∀ a ∈ rest.takeWhile isDigitA, isDigitA a = true :=
        fun a ha => mem_takeWhile_sat _ _ ha
      by_cases hc : c = '#'
      · subst hc
        by_cases he : (rest.takeWhile isDigitA).isEmpty = true
        · have hemp : rest.takeWhile isDigitA = [] := by
            simpa [List.isEmpty_iff] using he
          have hheadR : (remap_references rest lk).takeWhile isDigitA = [] := by
            apply takeWhile_eq_nil_of_head
            intro a ha
            rw [remap_head?] at ha
            exact head_of_takeWhile_nil _ _ hemp a ha
          rw [remap_references_cons, if_pos rfl, if_pos he]
          rw [refMask_cons, if_pos rfl, refMask_cons, if_pos rfl]
          rw [if_pos he, if_pos (by simpa [List.isEmpty_iff] using hheadR)]
          rw [ih rest.length hrest rest rfl]
        · rw [remap_references_cons, if_pos rfl, if_neg he]
          rw [refMask_cons, if_pos rfl, if_neg he]
          by_cases hv : natOfDigits (rest.takeWhile isDigitA) < 2 ^ 32
          · rw [if_pos hv]
            rcases hfi : findId lk (natOfDigits (rest.takeWhile isDigitA)) with _ | nv
            · simp only []
              rw [refMask_cons, if_pos rfl]
              rw [takeWhile_all_append _ _ hds_all (takeWhile_digit_remap_nil lk rest),
                dropWhile_all_append _ _ hds_all (dropWhile_digit_remap_self lk rest)]
              rw [if_neg he, if_pos hv, ih _ hdw (rest.dropWhile isDigitA) rfl, if_pos hv]
            · simp only []
              rw [refMask_cons, if_pos rfl]
              have htd_all : ∀ a ∈ natToDigits nv, isDigitA a = true :=
                natToDigits_all_digit nv
              rw [takeWhile_all_append _ _ htd_all (takeWhile_digit_remap_nil lk rest),
                dropWhile_all_append _ _ htd_all (dropWhile_digit_remap_self lk rest)]
              have hnv32 : nv < 2 ^ 32 := hlk _ (findId_mem hfi)
              rw [if_neg (by simpa [List.isEmpty_iff] using natToDigits_ne_nil nv),
                if_pos (by rw [natOfDigits_natToDigits]; exact hnv32)]
              rw [ih _ hdw (rest.dropWhile isDigitA) rfl, if_pos hv]
          · rw [if_neg hv]
            rw [refMask_cons, if_pos rfl]
            rw [takeWhile_all_append _ _ hds_all (takeWhile_digit_remap_nil lk rest),
              dropWhile_all_append _ _ hds_all (dropWhile_digit_remap_self lk rest)]
            rw [if_neg he, if_neg hv, ih _ hdw (rest.dropWhile isDigitA) rfl, if_neg hv]
      · rw [remap_references_cons, if_neg hc]
        rw [refMask_cons, if_neg hc, refMask_cons, if_neg hc,
          ih rest.length hrest rest rfl]

theorem mem_of_getLast?_eq {α} {l : List α} {a : α} (h : l.getLast? = some a) : a ∈ l := by
  induction l with
  | nil => simp at h
  | cons b t ih =>
    cases t with
    | nil =>
      simp at h
      simp [h]
    | cons c u =>
      rw [List.getLast?_cons_cons] at h
      exact List.mem_cons_of_mem b (ih h)

/-- The last character of a remapped string is the original last character
or a digit (a rewritten token can end the string). -/
theorem remap_getLast (cs : List Char) (lk : List (Nat × Nat)) (hne : cs ≠ []) :
    remap_references cs lk ≠ [] ∧
      ((remap_references cs lk).getLast? = cs.getLast? ∨
        ∃ d, (remap_references cs lk).getLast? = some d ∧ isDigitA d = true) := by
  generalize hn : cs.length = n
  induction n using Nat.strong_induction_on generalizing cs with
  | _ n ih =>
    cases cs with
    | nil => exact absurd rfl hne
    | cons c rest =>
      have hrest : rest.length < n := by simp at hn; omega
      have hgl : rest ≠ [] → (c :: rest).getLast? = rest.getLast? := by
        intro h
        exact List.getLast?_append_of_ne_nil [c] h
      have hdigitLast : ∀ (X : List Char), X ≠ [] → (∀ a ∈ X, isDigitA a = true) →
          ∃ d, X.getLast? = some d ∧ isDigitA d = true := by
        intro X hX hall
        cases hXl : X.getLast? with
        | none => simp [List.getLast?_eq_none_iff] at hXl; exact absurd hXl hX
        | some d => exact ⟨d, rfl, hall d (mem_of_getLast?_eq hXl)⟩
      have tokCase : ∀ (X : List Char), X ≠ [] → (∀ a ∈ X, isDigitA a = true) →
          rest.takeWhile isDigitA ≠ [] →
          ('#' :: (X ++ remap_references (rest.dropWhile isDigitA) lk)) ≠ [] ∧
          (('#' :: (X ++ remap_references (rest.dropWhile isDigitA) lk)).getLast? =
              (c :: rest).getLast? ∨
            ∃ d, ('#' :: (X ++ remap_references (rest.dropWhile isDigitA) lk)).getLast? =
                some d ∧ isDigitA d = true) := by
        intro X hX hall hds
        refine ⟨by simp, ?_⟩
        by_cases hrw : rest.dropWhile isDigitA = []
        · rw [hrw, remap_references_nil, List.append_nil]
          right
          have := hdigitLast X hX hall
          rcases this with ⟨d, hd, hdd⟩
          exact ⟨d, by rw [show ('#' :: X) = [('#' : Char)] ++ X by rfl,
            List.getLast?_append_of_ne_nil _ hX]; exact hd, hdd⟩
        · have hdw : (rest.dropWhile isDigitA).length < n :=
            lt_of_le_of_lt (length_dropWhile_le _ _) hrest
          rcases ih _ hdw (rest.dropWhile isDigitA) hrw rfl with ⟨hR, hlast⟩
          have h1 : ('#' :: (X ++ remap_references (rest.dropWhile isDigitA) lk)).getLast? =
              (remap_references (rest.dropWhile isDigitA) lk).getLast? := by
            rw [show ('#' :: (X ++ remap_references (rest.dropWhile isDigitA) lk)) =
              ([('#' : Char)] ++ X) ++ remap_references (rest.dropWhile isDigitA) lk by simp]
            exact List.getLast?_append_of_ne_nil _ hR
          have h2 : (c :: rest).getLast? = (rest.dropWhile isDigitA).getLast? := by
            rw [hgl (by
              intro hrnil
              rw [hrnil] at hds
              simp at hds)]
            conv_lhs => rw [← List.takeWhile_append_dropWhile (p := isDigitA) (l := rest)]
            exact List.getLast?_append_of_ne_nil _ hrw
          rw [h1, h2]
          exact hlast
      by_cases hc : c = '#'
      · subst hc
        by_cases he : (rest.takeWhile isDigitA).isEmpty = true
        · rw [remap_references_cons, if_pos rfl, if_pos he]
          by_cases hrnil : rest = []
          · subst hrnil
            simp [remap_references_nil]
          · rcases ih rest.length hrest rest hrnil rfl with ⟨hR, hlast⟩
            refine ⟨by simp, ?_⟩
            have h1 : (('#' : Char) :: remap_references rest lk).getLast? =
                (remap_references rest lk).getLast? := List.getLast?_append_of_ne_nil [_] hR
            rw [h1, hgl hrnil]
            exact hlast
        · have hds : rest.takeWhile isDigitA ≠ [] := by
            simpa [List.isEmpty_iff] using he
          rw [remap_references_cons, if_pos rfl, if_neg he]
          by_cases hv : natOfDigits (rest.takeWhile isDigitA) < 2 ^ 32
          · rw [if_pos hv]
            rcases hfi : findId lk (natOfDigits (rest.takeWhile isDigitA)) with _ | nv
            · exact tokCase _ hds (fun a ha => mem_takeWhile_sat _ _ ha) hds
            · exact tokCase _ (natToDigits_ne_nil nv) (natToDigits_all_digit nv) hds
          · rw [if_neg hv]
            exact tokCase _ hds (fun a ha => mem_takeWhile_sat _ _ ha) hds
      · rw [remap_references_cons, if_neg hc]
        by_cases hrnil : rest = []
        · subst hrnil
          simp [remap_references_nil]
        · rcases ih rest.length hrest rest hrnil rfl with ⟨hR, hlast⟩
          refine ⟨by simp, ?_⟩
          have h1 : (c :: remap_references rest lk).getLast? =
              (remap_references rest lk).getLast? := List.getLast?_append_of_ne_nil [c] hR
          rw [h1, hgl hrnil]
          exact hlast

/-!
## Trimming lemmas
-/

theorem decompose_trimEnd (l : List Char) :
    ∃ z, l = trimEnd l ++ z ∧ ∀ a ∈ z, is_whitespace a = true := by
  refine ⟨(l.reverse.takeWhile is_whitespace).reverse, ?_, ?_⟩
  · rw [trimEnd]
    rw [← List.reverse_append, List.takeWhile_append_dropWhile, List.reverse_reverse]
  · intro a ha
    rw [List.mem_reverse] at ha
    exact mem_takeWhile_sat _ _ ha

theorem mem_trimBoth_or_ws {a : Char} (l : List Char) (h : a ∈ l) :
    a ∈ trimBoth l ∨ is_whitespace a = true := by
  by_cases hws : is_whitespace a = true
  · right; exact hws
  · left
    have h1 : a ∈ trimStart l := by
      rw [trimStart]
      rcases List.mem_append.mp (by
        rw [List.takeWhile_append_dropWhile (p := is_whitespace) (l := l)]
        exact h) with h' | h'
      · exact absurd (mem_takeWhile_sat _ _ h') hws
      · exact h'
    rcases decompose_trimEnd (trimStart l) with ⟨z, hz, hallz⟩
    rw [trimBoth]
    rcases List.mem_append.mp (hz ▸ h1) with h' | h'
    · exact h'
    · exact absurd (hallz a h') hws

theorem head_trimStart_not_ws (l : List Char) {a : Char}
    (h : (trimStart l).head? = some a) : is_whitespace a = false :=
  head_dropWhile_false _ _ h

theorem getLast_trimEnd_not_ws (l : List Char) {a : Char}
    (h : (trimEnd l).getLast? = some a) : is_whitespace a = false := by
  rw [trimEnd, List.getLast?_reverse] at h
  exact head_dropWhile_false _ _ h

theorem head_trimEnd (l : List Char) {a : Char} (h : (trimEnd l).head? = some a) :
    l.head? = some a := by
  rcases decompose_trimEnd l with ⟨z, hz, _⟩
  rw [hz]
  cases hte : trimEnd l with
  | nil => rw [hte] at h; simp at h
  | cons b t =>
    rw [hte] at h
    simp at h
    simp [hte, h]

theorem head_trimBoth_not_ws (l : List Char) {a : Char}
    (h : (trimBoth l).head? = some a) : is_whitespace a = false :=
  head_trimStart_not_ws l (head_trimEnd _ h)

theorem getLast_trimBoth_not_ws (l : List Char) {a : Char}
    (h : (trimBoth l).getLast? = some a) : is_whitespace a = false :=
  getLast_trimEnd_not_ws _ h

theorem trimEnd_noop (l : List Char)
    (hlast : ∀ a, l.getLast? = some a → is_whitespace a = false) : trimEnd l = l := by
  rw [trimEnd]
  rw [dropWhile_eq_self_of_head _ _ (fun a ha => hlast a (by rwa [List.head?_reverse] at ha))]
  exact List.reverse_reverse l

theorem trimBoth_noop (l : List Char)
    (hhead : ∀ a, l.head? = some a → is_whitespace a = false)
    (hlast : ∀ a, l.getLast? = some a → is_whitespace a = false) : trimBoth l = l := by
  rw [trimBoth, trimStart, dropWhile_eq_self_of_head _ _ hhead]
  exact trimEnd_noop l hlast

theorem trimBoth_idem (l : List Char) : trimBoth (trimBoth l) = trimBoth l := by
  cases htl : trimBoth l with
  | nil => rfl
  | cons b t =>
    rw [← htl]
    exact trimBoth_noop _ (fun a ha => head_trimBoth_not_ws l ha)
      (fun a ha => getLast_trimBoth_not_ws l ha)

/-- A remapped trimmed string is still trimmed. -/
theorem trimBoth_remap (x : List Char) (lk : List (Nat × Nat)) :
    trimBoth (remap_references (trimBoth x) lk) = remap_references (trimBoth x) lk := by
  cases htx : trimBoth x with
  | nil => rfl
  | cons b t =>
    apply trimBoth_noop
    · intro a ha
      rw [remap_head?] at ha
      exact head_trimBoth_not_ws x (htx ▸ ha)
    · intro a ha
      rcases remap_getLast (trimBoth x) lk (by rw [htx]; simp) with ⟨_, hlast | ⟨d, hd, hdd⟩⟩
      · rw [htx] at hlast
        rw [hlast] at ha
        exact getLast_trimBoth_not_ws x (by rw [htx]; exact ha)
      · rw [htx] at hd
        rw [ha] at hd
        simp only [Option.some.injEq] at hd
        subst hd
        exact isDigitA_not_ws hdd

/-!
## Splitting and entity-type lemmas
-/

theorem splitOnFirstP_eq_none (p : Char → Bool) (l : List Char)
    (h : ∀ c ∈ l, p c = false) : splitOnFirstP p l = none := by
  induction l with
  | nil => rfl
  | cons x xs ih =>
    rw [splitOnFirstP, if_neg (by simp [h x (by simp)]), ih (fun c hc => h c (by simp [hc]))]

theorem splitOnFirstP_isSome (p : Char → Bool) (l : List Char) {c : Char}
    (hc : c ∈ l) (hpc : p c = true) : (splitOnFirstP p l).isSome := by
  induction l with
  | nil => simp at hc
  | cons x xs ih =>
    rw [splitOnFirstP]
    by_cases hx : p x = true
    · rw [if_pos hx]; rfl
    · rw [if_neg hx]
      rcases List.mem_cons.mp hc with rfl | hc'
      · exact absurd hpc hx
      · rcases hs : splitOnFirstP p xs with _ | pr
        · rw [hs] at ih; simpa using ih hc'
        · simp

theorem splitOnFirstP_fst (p : Char → Bool) (l : List Char) (pr : List Char × List Char)
    (h : splitOnFirstP p l = some pr) : pr.1 = l.takeWhile (fun c => !(p c)) := by
  induction l generalizing pr with
  | nil => simp [splitOnFirstP] at h
  | cons x xs ih =>
    rw [splitOnFirstP] at h
    by_cases hx : p x = true
    · rw [if_pos hx] at h
      simp only [Option.some.injEq] at h
      rw [← h, List.takeWhile_cons, if_neg (by simp [hx])]
    · rw [if_neg hx] at h
      rcases hs : splitOnFirstP p xs with _ | pr'
      · rw [hs] at h; simp at h
      · rw [hs] at h
        simp only [Option.some.injEq] at h
        rw [← h]
        simp only []
        rw [List.takeWhile_cons, if_pos (by simp [hx]), ih pr' hs]

/-- The pre-parenthesis region of a string: everything before the first
`(`. -/
def takeParen (l : List Char) : List Char := l.takeWhile (fun c => !(decide (c = '(')))

theorem get_entity_type_of_paren (rhs : List Char) (h : '(' ∈ trimBoth rhs) :
    get_entity_type rhs = trimBoth (takeParen (trimBoth rhs)) := by
  rw [get_entity_type]
  rcases hs : splitOnFirst '(' (trimBoth rhs) with _ | pr
  · have := splitOnFirstP_isSome (fun x => decide (x = '(')) (trimBoth rhs) h (by simp)
    rw [splitOnFirst] at hs
    rw [hs] at this
    simp at this
  · simp only []
    rw [splitOnFirstP_fst _ _ _ hs, takeParen]

theorem get_entity_type_of_no_paren (rhs : List Char) (h : '(' ∉ trimBoth rhs) :
    get_entity_type rhs = trimBoth rhs := by
  rw [get_entity_type, splitOnFirst,
    splitOnFirstP_eq_none _ _ (fun c hc => by
      simp only [decide_eq_false_iff_not]
      rintro rfl
      exact h hc)]

theorem takeWhile_all {p : Char → Bool} (l : List Char) (h : ∀ a ∈ l, p a = true) :
    l.takeWhile p = l := by
  have := takeWhile_append_all p l [] h
  simpa using this

theorem mem_of_mem_takeWhile {p : Char → Bool} {l : List Char} {a : Char}
    (h : a ∈ l.takeWhile p) : a ∈ l := by
  induction l with
  | nil => simp at h
  | cons b t ih =>
    rw [List.takeWhile_cons] at h
    by_cases hb : p b = true
    · rw [if_pos hb] at h
      rcases List.mem_cons.mp h with rfl | h
      · simp
      · exact List.mem_cons_of_mem b (ih h)
    · rw [if_neg hb] at h
      simp at h

theorem takeParen_of_no_paren (l : List Char) (h : '(' ∉ l) : takeParen l = l :=
  takeWhile_all l (fun a ha => by
    simp only [Bool.not_eq_true']
    simp only [decide_eq_false_iff_not]
    rintro rfl
    exact h ha)

/-- If the pre-parenthesis region has no `#`, remapping preserves it (and
preserves whether a `(` occurs at all). -/
theorem remap_takeParen (cs : List Char) (lk : List (Nat × Nat))
    (h : '#' ∉ takeParen cs) :
    takeParen (remap_references cs lk) = takeParen cs ∧
      (('(' ∈ remap_references cs lk) ↔ ('(' ∈ cs)) := by
  generalize hn : cs.length = n
  induction n using Nat.strong_induction_on generalizing cs with
  | _ n ih =>
    cases cs with
    | nil => simp [remap_references_nil]
    | cons c rest =>
      have hrest : rest.length < n := by simp at hn; omega
      by_cases hpar : c = '('
      · subst hpar
        have hch : ('(' : Char) ≠ '#' := by decide
        rw [remap_references_cons, if_neg hch]
        constructor
        · rw [takeParen, takeParen, List.takeWhile_cons, List.takeWhile_cons]
          simp
        · simp
      · have hc : c ≠ '#' := by
          intro hcc
          apply h
          rw [takeParen, List.takeWhile_cons, if_pos (by simp [hpar]), hcc]
          simp
        rw [remap_references_cons, if_neg hc]
        have hh : '#' ∉ takeParen rest := by
          intro hm
          apply h
          rw [takeParen, List.takeWhile_cons, if_pos (by simp [hpar])]
          exact List.mem_cons_of_mem c hm
        rcases ih rest.length hrest rest hh rfl with ⟨h1, h2⟩
        constructor
        · rw [takeParen, takeParen, List.takeWhile_cons, List.takeWhile_cons,
            if_pos (by simp [hpar]), if_pos (by simp [hpar])]
          rw [show (remap_references rest lk).takeWhile (fun c => !(decide (c = '('))) =
            takeParen (remap_references rest lk) from rfl,
            show rest.takeWhile (fun c => !(decide (c = '('))) = takeParen rest from rfl,
            h1]
        · constructor
          · intro hm
            rcases List.mem_cons.mp hm with rfl | hm
            · exact absurd rfl hpar
            · exact List.mem_cons_of_mem c (h2.mp hm)
          · intro hm
            rcases List.mem_cons.mp hm with rfl | hm
            · exact absurd rfl hpar
            · exact List.mem_cons_of_mem c (h2.mpr hm)

/-- A `#` in the pre-parenthesis region survives remapping. -/
theorem hash_takeParen_remap (cs : List Char) (lk : List (Nat × Nat))
    (h : '#' ∈ takeParen cs) : '#' ∈ takeParen (remap_references cs lk) := by
  generalize hn : cs.length = n
  induction n using Nat.strong_induction_on generalizing cs with
  | _ n ih =>
    cases cs with
    | nil => simp [takeParen] at h
    | cons c rest =>
      have hrest : rest.length < n := by simp at hn; omega
      by_cases hpar : c = '('
      · subst hpar
        rw [takeParen, List.takeWhile_cons] at h
        simp at h
      · by_cases hc : c = '#'
        · subst hc
          have hhead : (remap_references ('#' :: rest) lk).head? = some '#' := by
            rw [remap_head?]
            rfl
          cases hr : remap_references ('#' :: rest) lk with
          | nil => rw [hr] at hhead; simp at hhead
          | cons b t =>
            rw [hr] at hhead
            simp only [List.head?_cons, Option.some.injEq] at hhead
            subst hhead
            rw [takeParen, List.takeWhile_cons, if_pos (by decide)]
            simp
        · rw [takeParen, List.takeWhile_cons, if_pos (by simp [hpar])] at h
          rcases List.mem_cons.mp h with rfl | hm
          · exact absurd rfl hc
          · rw [remap_references_cons, if_neg hc, takeParen, List.takeWhile_cons,
              if_pos (by simp [hpar])]
            exact List.mem_cons_of_mem c (ih rest.length hrest rest hm rfl)

theorem hash_not_ws : is_whitespace '#' = false := by decide

/-- If an entity's type has no `#`, the whole pre-parenthesis region of its
trimmed content has no `#`. -/
theorem no_hash_takeParen_of_type (rhs : List Char) (hT : '#' ∉ get_entity_type rhs) :
    '#' ∉ takeParen (trimBoth rhs) := by
  intro hm
  by_cases hp : '(' ∈ trimBoth rhs
  · rw [get_entity_type_of_paren rhs hp] at hT
    rcases mem_trimBoth_or_ws _ hm with h' | h'
    · exact hT h'
    · rw [hash_not_ws] at h'; simp at h'
  · rw [get_entity_type_of_no_paren rhs hp] at hT
    rw [takeParen_of_no_paren _ hp] at hm
    exact hT hm

/-- Entity-type preservation: remapping a trimmed content string preserves
the type when the type's pre-parenthesis region has no `#`. -/
theorem get_entity_type_remap_eq (t : List Char) (lk : List (Nat × Nat))
    (ht : trimBoth t = t) (h : '#' ∉ takeParen t) :
    get_entity_type (remap_references t lk) = get_entity_type t := by
  have htr : trimBoth (remap_references t lk) = remap_references t lk := by
    conv_lhs => rw [← ht]
    conv_rhs => rw [← ht]
    exact trimBoth_remap t lk
  rcases remap_takeParen t lk h with ⟨h1, h2⟩
  by_cases hp : '(' ∈ t
  · rw [get_entity_type_of_paren _ (by rw [htr]; exact h2.mpr hp),
      get_entity_type_of_paren _ (by rw [ht]; exact hp), htr, ht, h1]
  · rw [get_entity_type_of_no_paren _ (by rw [htr]; intro hm; exact hp (h2.mp hm)),
      get_entity_type_of_no_paren _ (by rw [ht]; exact hp), htr, ht]
    rw [takeParen_of_no_paren _ hp] at h
    exact remap_no_hash t lk h

/-- If the pre-parenthesis region of a trimmed content string contains a
`#`, then the type of the remapped content still contains a `#`. -/
theorem hash_in_type_remap (t : List Char) (lk : List (Nat × Nat))
    (ht : trimBoth t = t) (h : '#' ∈ takeParen t) :
    '#' ∈ get_entity_type (remap_references t lk) := by
  have htr : trimBoth (remap_references t lk) = remap_references t lk := by
    conv_lhs => rw [← ht]
    conv_rhs => rw [← ht]
    exact trimBoth_remap t lk
  have hm : '#' ∈ takeParen (remap_references t lk) := hash_takeParen_remap t lk h
  by_cases hp : '(' ∈ remap_references t lk
  · rw [get_entity_type_of_paren _ (by rw [htr]; exact hp), htr]
    rcases mem_trimBoth_or_ws _ hm with h' | h'
    · exact h'
    · rw [hash_not_ws] at h'; simp at h'
  · rw [get_entity_type_of_no_paren _ (by rw [htr]; exact hp), htr]
    exact mem_of_mem_takeWhile hm

/-- For a `#`-free type name `T`, a trimmed content string has type `T`
after remapping exactly when it has type `T` before. -/
theorem type_eq_remap_iff (t : List Char) (lk : List (Nat × Nat)) (T : List Char)
    (ht : trimBoth t = t) (hT : '#' ∉ T) :
    (get_entity_type (remap_references t lk) = T) ↔ (get_entity_type t = T) := by
  constructor
  · intro h
    by_cases hh : '#' ∈ takeParen t
    · have := hash_in_type_remap t lk ht hh
      rw [h] at this
      exact absurd this hT
    · rw [← get_entity_type_remap_eq t lk ht hh, h]
  · intro h
    rw [get_entity_type_remap_eq t lk ht
      (by
        have := no_hash_takeParen_of_type t (by rw [h]; exact hT)
        rwa [ht] at this), h]

/-!
## The deduplication pass as a pure fold

A line panics exactly when its first character is `=`.  On panic-free
input, `passLines` is the fold of a pure step function `passStep`; all
pass-level reasoning happens on that fold.
-/

/-- The entity parsed by the deduplication pass from one line (`none` for
lines without `=`; the fabricated id `0` is used when the text before the
`=` does not parse, mirroring `unwrap_or(0)`). -/
def dedupEntity? (l : Line) : Option (Nat × List Char) :=
  match splitOnFirst '=' l with
  | none => none
  | some pr =>
    if pr.1.isEmpty then none
    else some ((parseU32 pr.1.tail).getD 0, trimBoth pr.2)

/-- The entities the deduplication pass processes, in order. -/
def dedupEntities (lines : List Line) : List (Nat × List Char) :=
  lines.filterMap dedupEntity?

/-- Panic-freedom: no data line starts with `=` (such a line makes the
source panic on the inverted slice `line[1..0]`). -/
def NoPanic (lines : List Line) : Prop := ∀ l ∈ lines, l.head? ≠ some '='

/-- The pure accumulator step of one pass (the value `passLine` computes
when the line does not panic). -/
def passStep (md : Option Nat) (acc : PassAcc) (l : Line) : PassAcc :=
  match dedupEntity? l with
  | none => acc
  | some e =>
    let norm_rhs := canonKey e.2 md
    if is_identity_entity (get_entity_type e.2) then
      let key := freshKey acc.uniques norm_rhs
      let new_id := u32succ acc.out.length
      ⟨(key, new_id) :: acc.uniques, (e.1, new_id) :: acc.lookup, acc.out ++ [(new_id, e.2)]⟩
    else
      match findKey acc.uniques norm_rhs with
      | some existing_id => ⟨acc.uniques, (e.1, existing_id) :: acc.lookup, acc.out⟩
      | none =>
        let new_id := u32succ acc.out.length
        ⟨(norm_rhs, new_id) :: acc.uniques, (e.1, new_id) :: acc.lookup,
         acc.out ++ [(new_id, e.2)]⟩

/-- The pure pass fold. -/
def passFold (md : Option Nat) (lines : List Line) (acc : PassAcc) : PassAcc :=
  lines.foldl (passStep md) acc

theorem splitOnFirst_fst_empty_iff (l : Line) (pr : List Char × List Char)
    (h : splitOnFirst '=' l = some pr) : (pr.1 = [] ↔ l.head? = some '=') := by
  cases l with
  | nil => simp [splitOnFirst, splitOnFirstP] at h
  | cons x xs =>
    have := splitOnFirstP_fst _ _ _ h
    rw [List.takeWhile_cons] at this
    by_cases hx : x = '='
    · subst hx
      rw [if_neg (by simp)] at this
      simp [this]
    · rw [if_pos (by simp [hx])] at this
      rw [this]
      simp [hx]

theorem passLine_ok (md : Option Nat) (acc : PassAcc) (l : Line)
    (h : l.head? ≠ some '=') : passLine md acc l = .ok (passStep md acc l) := by
  rw [passLine, passStep, dedupEntity?]
  rcases hs : splitOnFirst '=' l with _ | pr
  · rfl
  · have hne : ¬ pr.1.isEmpty = true := by
      rw [List.isEmpty_iff]
      intro hnil
      exact h ((splitOnFirst_fst_empty_iff l pr hs).mp hnil)
    dsimp only
    rw [if_neg hne, if_neg hne]
    cases hid : is_identity_entity (get_entity_type (trimBoth pr.2))
    · cases hfk : findKey acc.uniques (canonKey (trimBoth pr.2) md) <;> simp [hid, hfk]
    · simp [hid]

theorem passLine_panics (md : Option Nat) (acc : PassAcc) (l : Line)
    (h : l.head? = some '=') : passLine md acc l = .error () := by
  rw [passLine]
  rcases hs : splitOnFirst '=' l with _ | pr
  · exfalso
    cases l with
    | nil => simp at h
    | cons x xs =>
      simp only [List.head?_cons, Option.some.injEq] at h
      subst h
      simp [splitOnFirst, splitOnFirstP] at hs
  · dsimp only
    rw [if_pos (by rw [List.isEmpty_iff]; exact (splitOnFirst_fst_empty_iff l pr hs).mpr h)]

theorem passLines_ok (md : Option Nat) (lines : List Line) (acc : PassAcc)
    (h : NoPanic lines) : passLines md lines acc = .ok (passFold md lines acc) := by
  induction lines generalizing acc with
  | nil => rfl
  | cons l ls ih =>
    rw [passLines, passLine_ok md acc l (h l (by simp))]
    exact ih _ (fun x hx => h x (by simp [hx]))

/-!
## The fresh-key loop always escapes the key table
-/

theorem findKey_some_mem {u : List (List Char × Nat)} {k : List Char} {v : Nat}
    (h : findKey u k = some v) : (k, v) ∈ u := by
  induction u with
  | nil => simp [findKey] at h
  | cons e t ih =>
    rcases e with ⟨k1, v1⟩
    rw [findKey] at h
    by_cases he : (k1, v1).1 = k
    · rw [if_pos he] at h
      simp only [Option.some.injEq] at h
      simp only [] at he
      subst he
      subst h
      simp
    · rw [if_neg he] at h
      exact List.mem_cons_of_mem _ (ih h)

theorem freshKeyGo_not_mem :
    ∀ (fuel : Nat) (uniques : List (List Char × Nat)) (key : List Char),
      (uniques.filter (fun kv => decide (key.length ≤ kv.1.length))).length < fuel →
      findKey uniques (freshKeyGo fuel uniques key) = none := by
  intro fuel
  induction fuel with
  | zero => intro uniques key h; omega
  | succ fuel ih =>
    intro uniques key h
    rw [freshKeyGo]
    by_cases hs : (findKey uniques key).isSome = true
    · rw [if_pos hs]
      rcases Option.isSome_iff_exists.mp hs with ⟨v, hv⟩
      have hmem : (key, v) ∈ uniques := findKey_some_mem hv
      have hlt : (uniques.filter
            (fun kv => decide ((key ++ [' ']).length ≤ kv.1.length))).length <
          (uniques.filter (fun kv => decide (key.length ≤ kv.1.length))).length := by
        refine length_filter_lt_of_strict _ _ _ (fun a ha => ?_) (key, v) hmem
          (by simp) (by simp)
        simp only [decide_eq_true_eq, List.length_append, List.length_singleton] at ha ⊢
        omega
      exact ih uniques (key ++ [' ']) (by omega)
    · rw [if_neg hs]
      simpa using hs

theorem freshKey_not_mem (uniques : List (List Char × Nat)) (key : List Char) :
    findKey uniques (freshKey uniques key) = none := by
  apply freshKeyGo_not_mem
  have := List.length_filter_le (fun kv : List Char × Nat =>
    decide (key.length ≤ kv.1.length)) uniques
  omega

/-!
## Invariants of the pass fold
-/

theorem dedupEntities_cons (l : Line) (ls : List Line) :
    dedupEntities (l :: ls) =
      (match dedupEntity? l with
        | some e => e :: dedupEntities ls
        | none => dedupEntities ls) := by
  rw [dedupEntities, List.filterMap_cons]
  cases dedupEntity? l <;> rfl

theorem passFold_cons (md : Option Nat) (l : Line) (ls : List Line) (acc : PassAcc) :
    passFold md (l :: ls) acc = passFold md ls (passStep md acc l) := rfl

/-- Key-table entries are never shadowed: a key's binding is stable. -/
theorem findKey_passStep_mono (md : Option Nat) (acc : PassAcc) (l : Line)
    {k : List Char} {v : Nat} (h : findKey acc.uniques k = some v) :
    findKey (passStep md acc l).uniques k = some v := by
  rw [passStep]
  cases hde : dedupEntity? l with
  | none => exact h
  | some e =>
    dsimp only
    by_cases hid : is_identity_entity (get_entity_type e.2) = true
    · rw [if_pos hid]
      dsimp only
      rw [findKey]
      rw [if_neg (by
        intro heq
        simp only [] at heq
        have hfk := freshKey_not_mem acc.uniques (canonKey e.2 md)
        rw [heq, h] at hfk
        simp at hfk)]
      exact h
    · rw [if_neg hid]
      cases hfk : findKey acc.uniques (canonKey e.2 md) with
      | some ex => exact h
      | none =>
        dsimp only
        rw [findKey]
        rw [if_neg (by
          intro heq
          simp only [] at heq
          rw [heq, h] at hfk
          simp at hfk)]
        exact h

theorem findKey_passFold_mono (md : Option Nat) (lines : List Line) :
    ∀ (acc : PassAcc) {k : List Char} {v : Nat}, findKey acc.uniques k = some v →
      findKey (passFold md lines acc).uniques k = some v := by
  induction lines with
  | nil => intro acc k v h; exact h
  | cons l ls ih =>
    intro acc k v h
    rw [passFold_cons]
    exact ih _ (findKey_passStep_mono md acc l h)

/-- Lookup entries for ids not parsed from a line are untouched by it. -/
theorem findId_passStep_other (md : Option Nat) (acc : PassAcc) (l : Line) (i : Nat)
    (h : ∀ e, dedupEntity? l = some e → e.1 ≠ i) :
    findId (passStep md acc l).lookup i = findId acc.lookup i := by
  rw [passStep]
  cases hde : dedupEntity? l with
  | none => rfl
  | some e =>
    dsimp only
    have hne : e.1 ≠ i := h e hde
    by_cases hid : is_identity_entity (get_entity_type e.2) = true
    · rw [if_pos hid]
      dsimp only
      rw [findId, if_neg hne]
    · rw [if_neg hid]
      cases hfk : findKey acc.uniques (canonKey e.2 md) with
      | some ex =>
        dsimp only
        rw [findId, if_neg hne]
      | none =>
        dsimp only
        rw [findId, if_neg hne]

theorem findId_passFold_other (md : Option Nat) (lines : List Line) :
    ∀ (acc : PassAcc) (i : Nat), (∀ e ∈ dedupEntities lines, e.1 ≠ i) →
      findId (passFold md lines acc).lookup i = findId acc.lookup i := by
  induction lines with
  | nil => intro acc i _; rfl
  | cons l ls ih =>
    intro acc i h
    rw [passFold_cons]
    rw [ih _ i (fun e he => h e (by
      rw [dedupEntities_cons]
      cases hde : dedupEntity? l
      · exact he
      · exact List.mem_cons_of_mem _ he))]
    apply findId_passStep_other
    intro e hde
    apply h
    rw [dedupEntities_cons, hde]
    simp

theorem passStep_lookup_self (md : Option Nat) (acc : PassAcc) (l : Line)
    (e : Nat × List Char) (hde : dedupEntity? l = some e) :
    ∃ v, findId (passStep md acc l).lookup e.1 = some v := by
  rw [passStep, hde]
  dsimp only
  by_cases hid : is_identity_entity (get_entity_type e.2) = true
  · rw [if_pos hid]
    exact ⟨_, by rw [findId, if_pos rfl]⟩
  · rw [if_neg hid]
    cases hfk : findKey acc.uniques (canonKey e.2 md) with
    | some ex => exact ⟨ex, by rw [findId, if_pos rfl]⟩
    | none => exact ⟨_, by rw [findId, if_pos rfl]⟩

/-- Right after a non-identity entity is processed, its lookup binding
equals the key table's binding of its canonical key. -/
theorem passStep_lookup_nonident (md : Option Nat) (acc : PassAcc) (l : Line)
    (e : Nat × List Char) (hde : dedupEntity? l = some e)
    (hni : is_identity_entity (get_entity_type e.2) = false) :
    findId (passStep md acc l).lookup e.1 =
      findKey (passStep md acc l).uniques (canonKey e.2 md) := by
  rw [passStep, hde]
  dsimp only
  rw [if_neg (by simp [hni])]
  cases hfk : findKey acc.uniques (canonKey e.2 md) with
  | some ex =>
    dsimp only
    rw [findId, if_pos rfl, hfk]
  | none =>
    dsimp only
    rw [findId, if_pos rfl, findKey, if_pos rfl]

/-- In the final accumulator of a pass, every non-identity entity's id maps
to the table binding of its canonical key (assuming the pass's parsed ids
are distinct, as entity ids are unique within a file snapshot). -/
theorem passFold_lookup_eq_key (md : Option Nat) :
    ∀ (lines : List Line) (acc : PassAcc) (e : Nat × List Char),
      e ∈ dedupEntities lines →
      is_identity_entity (get_entity_type e.2) = false →
      ((dedupEntities lines).map Prod.fst).Nodup →
      findId (passFold md lines acc).lookup e.1 =
        findKey (passFold md lines acc).uniques (canonKey e.2 md) := by
  intro lines
  induction lines with
  | nil => intro acc e he; simp [dedupEntities] at he
  | cons l ls ih =>
    intro acc e he hni hnd
    rw [dedupEntities_cons] at he hnd
    rw [passFold_cons]
    cases hde : dedupEntity? l with
    | none =>
      rw [hde] at he hnd
      exact ih _ e he hni hnd
    | some e0 =>
      rw [hde] at he hnd
      simp only [List.map_cons, List.nodup_cons] at hnd
      rcases List.mem_cons.mp he with rfl | he'
      · have h1 := passStep_lookup_nonident md acc l e hde hni
        rcases passStep_lookup_self md acc l e hde with ⟨v, hv⟩
        rw [hv] at h1
        have h2 : findKey (passFold md ls (passStep md acc l)).uniques
            (canonKey e.2 md) = some v :=
          findKey_passFold_mono md ls _ h1.symm
        rw [findId_passFold_other md ls _ e.1
          (fun e' he' => by
            intro heq
            exact hnd.1 (heq ▸ List.mem_map_of_mem Prod.fst he')), hv, h2]
      · exact ih _ e he' hni hnd.2

theorem u32succ_lt (n : Nat) : u32succ n < 2 ^ 32 := Nat.mod_lt _ (by norm_num)

theorem u32succ_eq (n : Nat) (h : n + 1 < 2 ^ 32) : u32succ n = n + 1 := by
  rw [u32succ]
  have h1 : n % 2 ^ 32 = n := Nat.mod_eq_of_lt (by omega)
  rw [h1]
  exact Nat.mod_eq_of_lt h

/-- Full case analysis of one pass step: skipped line, merged entity, or
kept entity with a fresh sequential id. -/
theorem passStep_cases (md : Option Nat) (acc : PassAcc) (l : Line) :
    (dedupEntity? l = none ∧ passStep md acc l = acc) ∨
    (∃ e ex, dedupEntity? l = some e ∧
      is_identity_entity (get_entity_type e.2) = false ∧
      findKey acc.uniques (canonKey e.2 md) = some ex ∧
      passStep md acc l = ⟨acc.uniques, (e.1, ex) :: acc.lookup, acc.out⟩) ∨
    (∃ e k, dedupEntity? l = some e ∧
      passStep md acc l = ⟨(k, u32succ acc.out.length) :: acc.uniques,
        (e.1, u32succ acc.out.length) :: acc.lookup,
        acc.out ++ [(u32succ acc.out.length, e.2)]⟩) := by
  rw [passStep]
  cases hde : dedupEntity? l with
  | none => exact Or.inl ⟨rfl, rfl⟩
  | some e =>
    dsimp only
    by_cases hid : is_identity_entity (get_entity_type e.2) = true
    · rw [if_pos hid]
      exact Or.inr (Or.inr ⟨e, _, rfl, rfl⟩)
    · rw [if_neg hid]
      cases hfk : findKey acc.uniques (canonKey e.2 md) with
      | some ex =>
        exact Or.inr (Or.inl ⟨e, ex, rfl, by simpa using hid, hfk, rfl⟩)
      | none => exact Or.inr (Or.inr ⟨e, _, rfl, rfl⟩)

/-- Case analysis on a pass step's kept output: nothing, or one appended
entry carrying the entity's raw (trimmed) content and the fresh id. -/
theorem passStep_out_cases (md : Option Nat) (acc : PassAcc) (l : Line) :
    (passStep md acc l).out = acc.out ∨
      ∃ e, dedupEntity? l = some e ∧
        (passStep md acc l).out = acc.out ++ [(u32succ acc.out.length, e.2)] := by
  rw [passStep]
  cases hde : dedupEntity? l with
  | none => left; rfl
  | some e =>
    dsimp only
    by_cases hid : is_identity_entity (get_entity_type e.2) = true
    · rw [if_pos hid]
      exact Or.inr ⟨e, rfl, rfl⟩
    · rw [if_neg hid]
      cases hfk : findKey acc.uniques (canonKey e.2 md) with
      | some ex => left; rfl
      | none => exact Or.inr ⟨e, rfl, rfl⟩

/-- All table values produced by a pass fit in a `u32`. -/
theorem passFold_vals_lt (md : Option Nat) (lines : List Line) :
    ∀ (acc : PassAcc),
      (∀ e ∈ acc.uniques, e.2 < 2 ^ 32) → (∀ e ∈ acc.lookup, e.2 < 2 ^ 32) →
      (∀ e ∈ (passFold md lines acc).uniques, e.2 < 2 ^ 32) ∧
        (∀ e ∈ (passFold md lines acc).lookup, e.2 < 2 ^ 32) := by
  induction lines with
  | nil => intro acc hu hl; exact ⟨hu, hl⟩
  | cons l ls ih =>
    intro acc hu hl
    rw [passFold_cons]
    apply ih
    · intro e he
      rw [passStep] at he
      cases hde : dedupEntity? l with
      | none => rw [hde] at he; exact hu e he
      | some e0 =>
        rw [hde] at he
        dsimp only at he
        by_cases hid : is_identity_entity (get_entity_type e0.2) = true
        · rw [if_pos hid] at he
          rcases List.mem_cons.mp he with rfl | he'
          · exact u32succ_lt _
          · exact hu _ he'
        · rw [if_neg hid] at he
          cases hfk : findKey acc.uniques (canonKey e0.2 md) with
          | some ex => rw [hfk] at he; exact hu e he
          | none =>
            rw [hfk] at he
            rcases List.mem_cons.mp he with rfl | he'
            · exact u32succ_lt _
            · exact hu _ he'
    · intro e he
      rw [passStep] at he
      cases hde : dedupEntity? l with
      | none => rw [hde] at he; exact hl e he
      | some e0 =>
        rw [hde] at he
        dsimp only at he
        by_cases hid : is_identity_entity (get_entity_type e0.2) = true
        · rw [if_pos hid] at he
          rcases List.mem_cons.mp he with rfl | he'
          · exact u32succ_lt _
          · exact hl _ he'
        · rw [if_neg hid] at he
          cases hfk : findKey acc.uniques (canonKey e0.2 md) with
          | some ex =>
            rw [hfk] at he
            rcases List.mem_cons.mp he with rfl | he'
            · exact hu _ (findKey_some_mem hfk)
            · exact hl _ he'
          | none =>
            rw [hfk] at he
            rcases List.mem_cons.mp he with rfl | he'
            · exact u32succ_lt _
            · exact hl _ he'

/-- Kept ids form the contiguous range `1..n`, and the pass keeps at most
one line per input line. -/
theorem passFold_out_ids (md : Option Nat) (lines : List Line) :
    ∀ (acc : PassAcc),
      acc.out.map Prod.fst = List.range' 1 acc.out.length →
      acc.out.length + lines.length < 2 ^ 32 →
      (passFold md lines acc).out.map Prod.fst =
          List.range' 1 (passFold md lines acc).out.length ∧
        (passFold md lines acc).out.length ≤ acc.out.length + lines.length := by
  induction lines with
  | nil => intro acc h _; exact ⟨h, by simp [passFold]⟩
  | cons l ls ih =>
    intro acc h hlen
    rw [passFold_cons]
    rcases passStep_out_cases md acc l with hsame | ⟨e, _, happ⟩
    · have := ih (passStep md acc l) (by rw [hsame]; exact h)
        (by rw [hsame]; simp at hlen ⊢; omega)
      rcases this with ⟨h1, h2⟩
      refine ⟨h1, ?_⟩
      rw [hsame] at h2
      simp at hlen ⊢
      omega
    · have hnew : (passStep md acc l).out.map Prod.fst =
          List.range' 1 (passStep md acc l).out.length := by
        rw [happ]
        simp only [List.map_append, List.length_append, List.map_cons, List.map_nil,
          List.length_cons, List.length_nil]
        rw [h, u32succ_eq _ (by simp at hlen; omega)]
        rw [show acc.out.length + (0 + 1) = acc.out.length + 1 by omega]
        rw [List.range'_1_concat]
        simp
        omega
      have := ih (passStep md acc l) hnew
        (by rw [happ]; simp at hlen ⊢; omega)
      rcases this with ⟨h1, h2⟩
      refine ⟨h1, ?_⟩
      rw [happ] at h2
      simp at hlen h2 ⊢
      omega

/-- Every lookup value is a kept id. -/
theorem passFold_lookup_vals_sub (md : Option Nat) (lines : List Line) :
    ∀ (acc : PassAcc),
      (∀ e ∈ acc.lookup, e.2 ∈ acc.out.map Prod.fst) →
      (∀ e ∈ acc.uniques, e.2 ∈ acc.out.map Prod.fst) →
      (∀ e ∈ (passFold md lines acc).lookup,
        e.2 ∈ (passFold md lines acc).out.map Prod.fst) := by
  induction lines with
  | nil => intro acc hl _; exact hl
  | cons l ls ih =>
    intro acc hl hu
    rw [passFold_cons]
    rcases passStep_cases md acc l with ⟨_, hsame⟩ | ⟨e, ex, _, _, hfk, heq⟩ | ⟨e, k, _, heq⟩
    · rw [hsame]
      exact ih acc hl hu
    · rw [heq]
      apply ih
      · intro x hx
        rcases List.mem_cons.mp hx with rfl | hx'
        · exact hu _ (findKey_some_mem hfk)
        · exact hl _ hx'
      · exact hu
    · rw [heq]
      apply ih
      · intro x hx
        simp only [List.map_append, List.map_cons, List.map_nil]
        rcases List.mem_cons.mp hx with rfl | hx'
        · exact List.mem_append.mpr (Or.inr (by simp))
        · exact List.mem_append.mpr (Or.inl (hl _ hx'))
      · intro x hx
        simp only [List.map_append, List.map_cons, List.map_nil]
        rcases List.mem_cons.mp hx with rfl | hx'
        · exact List.mem_append.mpr (Or.inr (by simp))
        · exact List.mem_append.mpr (Or.inl (hu _ hx'))

/-- Every parsed id ends up bound in the pass's lookup table. -/
theorem passFold_lookup_dom (md : Option Nat) (lines : List Line) :
    ∀ (acc : PassAcc) (e : Nat × List Char), e ∈ dedupEntities lines →
      (findId (passFold md lines acc).lookup e.1).isSome = true := by
  induction lines with
  | nil => intro acc e he; simp [dedupEntities] at he
  | cons l ls ih =>
    intro acc e he
    rw [dedupEntities_cons] at he
    rw [passFold_cons]
    cases hde : dedupEntity? l with
    | none => rw [hde] at he; exact ih _ e he
    | some e0 =>
      rw [hde] at he
      rcases List.mem_cons.mp he with rfl | he'
      · have hstable : ∀ (lns : List Line) (acc' : PassAcc) (i : Nat),
            (findId acc'.lookup i).isSome = true →
            (findId (passFold md lns acc').lookup i).isSome = true := by
          intro lns
          induction lns with
          | nil => intro acc' i h; exact h
          | cons l' ls' ih' =>
            intro acc' i h
            rw [passFold_cons]
            apply ih'
            rw [passStep]
            cases hde' : dedupEntity? l' with
            | none => exact h
            | some e1 =>
              dsimp only
              by_cases hid : is_identity_entity (get_entity_type e1.2) = true
              · rw [if_pos hid]
                dsimp only
                rw [findId]
                by_cases hi : e1.1 = i
                · rw [if_pos hi]; rfl
                · rw [if_neg hi]; exact h
              · rw [if_neg hid]
                cases hfk : findKey acc'.uniques (canonKey e1.2 md) with
                | some ex =>
                  dsimp only
                  rw [findId]
                  by_cases hi : e1.1 = i
                  · rw [if_pos hi]; rfl
                  · rw [if_neg hi]; exact h
                | none =>
                  dsimp only
                  rw [findId]
                  by_cases hi : e1.1 = i
                  · rw [if_pos hi]; rfl
                  · rw [if_neg hi]; exact h
        apply hstable
        rcases passStep_lookup_self md acc l e hde with ⟨v, hv⟩
        rw [hv]
        rfl
      · exact ih _ e he'

/-- The pass keeps at most as many lines as it reads, starting from the
empty accumulator. -/
theorem passFold_out_length_le (md : Option Nat) (lines : List Line) :
    ∀ (acc : PassAcc), (passFold md lines acc).out.length ≤ acc.out.length + lines.length := by
  induction lines with
  | nil => intro acc; simp [passFold]
  | cons l ls ih =>
    intro acc
    rw [passFold_cons]
    have := ih (passStep md acc l)
    rcases passStep_out_cases md acc l with hsame | ⟨e, _, happ⟩
    · rw [hsame] at this; simp; omega
    · rw [happ] at this; simp at this ⊢; omega

/-- Kept contents are trimmed strings. -/
theorem passFold_out_trimmed (md : Option Nat) (lines : List Line) :
    ∀ (acc : PassAcc), (∀ e ∈ acc.out, trimBoth e.2 = e.2) →
      ∀ e ∈ (passFold md lines acc).out, trimBoth e.2 = e.2 := by
  induction lines with
  | nil => intro acc h; exact h
  | cons l ls ih =>
    intro acc h
    rw [passFold_cons]
    apply ih
    rcases passStep_out_cases md acc l with hsame | ⟨e0, hde, happ⟩
    · rw [hsame]; exact h
    · rw [happ]
      intro e he
      rcases List.mem_append.mp he with he' | he'
      · exact h e he'
      · simp only [List.mem_singleton] at he'
        subst he'
        simp only []
        have : ∃ pr, splitOnFirst '=' l = some pr ∧ e0.2 = trimBoth pr.2 := by
          rw [dedupEntity?] at hde
          rcases hs : splitOnFirst '=' l with _ | pr
          · rw [hs] at hde; simp at hde
          · rw [hs] at hde
            dsimp only at hde
            by_cases hemp : pr.1.isEmpty = true
            · rw [if_pos hemp] at hde; simp at hde
            · rw [if_neg hemp] at hde
              simp only [Option.some.injEq] at hde
              exact ⟨pr, rfl, by rw [← hde]⟩
        rcases this with ⟨pr, _, hrhs⟩
        rw [hrhs]
        exact trimBoth_idem pr.2

/-!
## Identity entities through one pass, and line formatting round-trips
-/

/-- The kept contents with a given identity type are exactly the processed
entities' contents with that type, in order: identity-typed entities are
never merged, and non-identity survivors cannot carry an identity type. -/
theorem passFold_out_filterT (md : Option Nat) (T : List Char)
    (hTid : T ∈ IDENTITY_ENTITIES) (lines : List Line) :
    ∀ (acc : PassAcc),
      ((passFold md lines acc).out.map Prod.snd).filter
          (fun r => decide (get_entity_type r = T)) =
        ((acc.out.map Prod.snd).filter (fun r => decide (get_entity_type r = T))) ++
        (((dedupEntities lines).map Prod.snd).filter
          (fun r => decide (get_entity_type r = T))) := by
  induction lines with
  | nil =>
    intro acc
    simp [passFold, dedupEntities]
  | cons l ls ih =>
    intro acc
    rw [passFold_cons]
    rcases passStep_cases md acc l with ⟨hnone, hsame⟩ | ⟨e, ex, hde, hni, hfk, heq⟩ |
      ⟨e, k, hde, heq⟩
    · rw [hsame, dedupEntities_cons, hnone]
      exact ih acc
    · rw [heq, dedupEntities_cons, hde]
      dsimp only
      have hTne : ¬ (get_entity_type e.2 = T) := by
        intro hT
        rw [hT] at hni
        have hidT : is_identity_entity T = true := by
          unfold is_identity_entity
          simpa using hTid
        rw [hidT] at hni
        cases hni
      rw [ih ⟨acc.uniques, (e.1, ex) :: acc.lookup, acc.out⟩]
      simp only [List.map_cons]
      rw [List.filter_cons, if_neg (by simpa using hTne)]
    · rw [heq, dedupEntities_cons, hde]
      dsimp only
      rw [ih ⟨(k, u32succ acc.out.length) :: acc.uniques,
        (e.1, u32succ acc.out.length) :: acc.lookup,
        acc.out ++ [(u32succ acc.out.length, e.2)]⟩]
      simp only [List.map_append, List.map_cons, List.map_nil, List.filter_append,
        List.filter_cons]
      by_cases hT : (decide (get_entity_type e.2 = T)) = true
      · simp only [if_pos hT]
        simp
      · simp only [if_neg hT]
        simp

theorem splitOnFirstP_pre (p : Char → Bool) (pre post : List Char) (x : Char)
    (hpre : ∀ c ∈ pre, p c = false) (hx : p x = true) :
    splitOnFirstP p (pre ++ x :: post) = some (pre, post) := by
  induction pre with
  | nil => simp [splitOnFirstP, hx]
  | cons c t ih =>
    rw [List.cons_append, splitOnFirstP, if_neg (by simp [hpre c (by simp)]),
      ih (fun c hc => hpre c (by simp [hc]))]

/-- Re-parsing a formatted line recovers the id and the remapped content. -/
theorem dedupEntity?_formatLine (lk : List (Nat × Nat)) (e : Nat × List Char) :
    dedupEntity? (formatLine lk e) =
      some ((parseU32 (natToDigits e.1)).getD 0,
        trimBoth (remap_references e.2 lk)) := by
  have hsplit : splitOnFirst '=' ('#' :: (natToDigits e.1 ++ '=' :: remap_references e.2 lk)) =
      some ('#' :: natToDigits e.1, remap_references e.2 lk) := by
    rw [splitOnFirst,
      show ('#' :: (natToDigits e.1 ++ '=' :: remap_references e.2 lk)) =
        (('#' :: natToDigits e.1) ++ '=' :: remap_references e.2 lk) by simp]
    apply splitOnFirstP_pre
    · intro c hc
      rcases List.mem_cons.mp hc with rfl | hc'
      · decide
      · simp only [decide_eq_false_iff_not]
        exact isDigitA_ne_eq (natToDigits_all_digit e.1 c hc')
    · simp
  rw [formatLine, dedupEntity?, hsplit]
  dsimp only
  rw [if_neg (by simp)]
  rfl

theorem dedupEntities_map_formatLine (lk : List (Nat × Nat))
    (outp : List (Nat × List Char)) :
    dedupEntities (outp.map (formatLine lk)) =
      outp.map (fun e => ((parseU32 (natToDigits e.1)).getD 0,
        trimBoth (remap_references e.2 lk))) := by
  induction outp with
  | nil => rfl
  | cons e t ih =>
    rw [List.map_cons, dedupEntities_cons, dedupEntity?_formatLine, List.map_cons, ih]

theorem NoPanic_formatLines (lk : List (Nat × Nat)) (outp : List (Nat × List Char)) :
    NoPanic (outp.map (formatLine lk)) := by
  intro l hl
  rcases List.mem_map.mp hl with ⟨e, _, rfl⟩
  rw [formatLine]
  simp

theorem runPass_ok (md : Option Nat) (lines : List Line) (h : NoPanic lines) :
    runPass md lines = .ok ((passFold md lines ⟨[], [], []⟩).out.map
      (formatLine (passFold md lines ⟨[], [], []⟩).lookup)) := by
  rw [runPass, passLines_ok md lines ⟨[], [], []⟩ h]

theorem identity_no_hash (T : List Char) (hT : T ∈ IDENTITY_ENTITIES) : '#' ∉ T := by
  fin_cases hT <;> decide

/-- The (trimmed) contents of the `T`-typed entities parsed from a line
list, in order. -/
def identContents (T : List Char) (lines : List Line) : List (List Char) :=
  ((dedupEntities lines).map Prod.snd).filter (fun r => decide (get_entity_type r = T))

/-- Iterated reference remapping through a sequence of lookup tables. -/
def remapChain (lks : List (List (Nat × Nat))) (r : List Char) : List Char :=
  lks.foldl (fun s lk => remap_references s lk) r

theorem runPass_identContents (md : Option Nat) (T : List Char)
    (hTid : T ∈ IDENTITY_ENTITIES) (lines out : List Line)
    (h : NoPanic lines) (hout : runPass md lines = .ok out) :
    ∃ lk, identContents T out =
      (identContents T lines).map (fun r => remap_references r lk) := by
  have hTh : '#' ∉ T := identity_no_hash T hTid
  rw [runPass_ok md lines h] at hout
  injection hout with hout
  refine ⟨(passFold md lines ⟨[], [], []⟩).lookup, ?_⟩
  subst hout
  have htr : ∀ e ∈ (passFold md lines (⟨[], [], []⟩ : PassAcc)).out, trimBoth e.2 = e.2 :=
    passFold_out_trimmed md lines ⟨[], [], []⟩ (by intro e he; simp at he)
  rw [identContents, dedupEntities_map_formatLine, List.map_map]
  have hmap1 : (passFold md lines (⟨[], [], []⟩ : PassAcc)).out.map
      (Prod.snd ∘ (fun e : Nat × List Char => ((parseU32 (natToDigits e.1)).getD 0,
        trimBoth (remap_references e.2
          (passFold md lines (⟨[], [], []⟩ : PassAcc)).lookup)))) =
      ((passFold md lines (⟨[], [], []⟩ : PassAcc)).out.map Prod.snd).map
        (fun r => remap_references r (passFold md lines (⟨[], [], []⟩ : PassAcc)).lookup) := by
    rw [List.map_map]
    apply List.map_congr_left
    intro e he
    dsimp only [Function.comp]
    rw [← htr e he]
    exact trimBoth_remap e.2 _
  rw [hmap1, List.filter_map]
  have hfc : ((passFold md lines (⟨[], [], []⟩ : PassAcc)).out.map Prod.snd).filter
      ((fun r => decide (get_entity_type r = T)) ∘
        (fun r => remap_references r (passFold md lines (⟨[], [], []⟩ : PassAcc)).lookup)) =
      ((passFold md lines (⟨[], [], []⟩ : PassAcc)).out.map Prod.snd).filter
        (fun r => decide (get_entity_type r = T)) := by
    apply List.filter_congr
    intro r hr
    dsimp only [Function.comp]
    rcases List.mem_map.mp hr with ⟨e, he, rfl⟩
    simp only [decide_eq_decide]
    exact type_eq_remap_iff e.2 _ T (htr e he) hTh
  rw [hfc, passFold_out_filterT md T hTid lines ⟨[], [], []⟩]
  rw [identContents]
  simp

theorem NoPanic_runPass (md : Option Nat) (lines out : List Line)
    (h : NoPanic lines) (hout : runPass md lines = .ok out) : NoPanic out := by
  rw [runPass_ok md lines h] at hout
  injection hout with hout
  subst hout
  exact NoPanic_formatLines _ _

theorem dedupLoopGo_identContents (md : Option Nat) (T : List Char)
    (hTid : T ∈ IDENTITY_ENTITIES) :
    ∀ (fuel : Nat) (lines out : List Line), NoPanic lines →
      dedupLoopGo md fuel lines = .ok out →
      ∃ lks, identContents T out = (identContents T lines).map (remapChain lks) := by
  intro fuel
  induction fuel with
  | zero =>
    intro lines out _ hout
    simp [dedupLoopGo] at hout
  | succ f ih =>
    intro lines out h hout
    rw [dedupLoopGo] at hout
    rcases hrp : runPass md lines with e | mid
    · rw [hrp] at hout
      simp at hout
    · rw [hrp] at hout
      dsimp only at hout
      rcases runPass_identContents md T hTid lines mid h hrp with ⟨lk, hlk⟩
      by_cases hle : lines.length ≤ mid.length
      · rw [if_pos hle] at hout
        injection hout with hout
        subst hout
        refine ⟨[lk], ?_⟩
        rw [hlk]
        apply List.map_congr_left
        intro x _
        rfl
      · rw [if_neg hle] at hout
        rcases ih mid out (NoPanic_runPass md lines mid h hrp) hout with ⟨lks, hlks⟩
        refine ⟨lk :: lks, ?_⟩
        rw [hlks, hlk, List.map_map]
        apply List.map_congr_left
        intro x _
        rfl

/-!
## The pass loop: non-increase, termination, exit condition
-/

theorem runPass_length_le (md : Option Nat) (lines out : List Line)
    (h : NoPanic lines) (hout : runPass md lines = .ok out) :
    out.length ≤ lines.length := by
  rw [runPass_ok md lines h] at hout
  injection hout with hout
  subst hout
  simpa using passFold_out_length_le md lines ⟨[], [], []⟩

theorem dedupLoopGo_ok (md : Option Nat) :
    ∀ (fuel : Nat) (lines : List Line), NoPanic lines → lines.length < fuel →
      ∃ out, dedupLoopGo md fuel lines = .ok out := by
  intro fuel
  induction fuel with
  | zero => intro lines _ hlt; omega
  | succ f ih =>
    intro lines h hlt
    rw [dedupLoopGo]
    rcases hrp : runPass md lines with e | mid
    · rw [runPass_ok md lines h] at hrp
      cases hrp
    · dsimp only
      by_cases hle : lines.length ≤ mid.length
      · rw [if_pos hle]
        exact ⟨mid, rfl⟩
      · rw [if_neg hle]
        have := runPass_length_le md lines mid h hrp
        exact ih mid (NoPanic_runPass md lines mid h hrp) (by omega)

theorem deduplicate_ok (md : Option Nat) (lines : List Line) (h : NoPanic lines) :
    ∃ out, deduplicate lines md = .ok out :=
  dedupLoopGo_ok md (lines.length + 1) lines h (by omega)

/-- The loop only returns the output of a pass that failed to strictly
decrease the line count. -/
theorem dedupLoopGo_exit (md : Option Nat) :
    ∀ (fuel : Nat) (lines out : List Line), dedupLoopGo md fuel lines = .ok out →
      ∃ p, runPass md p = .ok out ∧ p.length ≤ out.length := by
  intro fuel
  induction fuel with
  | zero => intro lines out hout; simp [dedupLoopGo] at hout
  | succ f ih =>
    intro lines out hout
    rw [dedupLoopGo] at hout
    rcases hrp : runPass md lines with e | mid
    · rw [hrp] at hout
      simp at hout
    · rw [hrp] at hout
      dsimp only at hout
      by_cases hle : lines.length ≤ mid.length
      · rw [if_pos hle] at hout
        injection hout with hout
        subst hout
        exact ⟨lines, hrp, hle⟩
      · rw [if_neg hle] at hout
        exact ih mid out hout

/-- A pass that does not strictly decrease the count ends the loop at once. -/
theorem dedupLoopGo_stop (md : Option Nat) (fuel : Nat) (lines out : List Line)
    (hrp : runPass md lines = .ok out) (hle : lines.length ≤ out.length) :
    dedupLoopGo md (fuel + 1) lines = .ok out := by
  rw [dedupLoopGo, hrp]
  dsimp only
  rw [if_pos hle]

/-!
## Walk correctness: the computed set is the transitive closure
-/

/-- Transitive reachability from a root-typed entity through `#N`
references that exist in the entity map. -/
inductive Reachable (ents : List (Nat × List Char)) : Nat → Prop
  | root (eid : Nat) (rhs : List Char) (hfind : entFind ents eid = some rhs)
      (hroot : get_entity_type rhs ∈ GC_ROOT_ENTITIES) : Reachable ents eid
  | step (eid r : Nat) (rhs : List Char) (hre : Reachable ents eid)
      (hfind : entFind ents eid = some rhs) (hr : r ∈ collect_references rhs)
      (hex : (entFind ents r).isSome = true) : Reachable ents r

/-- A set of ids closed under existing forward references. -/
def Closed (ents : List (Nat × List Char)) (R : List Nat) : Prop :=
  ∀ x ∈ R, ∀ r ∈ refsOf ents x, (entFind ents r).isSome = true → r ∈ R

theorem entFind_isSome_mem (ents : List (Nat × List Char)) (x : Nat) :
    (entFind ents x).isSome = true ↔ x ∈ entityIds ents := by
  rw [entityIds, List.mem_dedup]
  induction ents with
  | nil => simp [entFind]
  | cons e t ih =>
    rw [entFind]
    by_cases hx : e.1 = x
    · rw [if_pos hx]
      simp [hx.symm]
    · rw [if_neg hx]
      rw [ih]
      simp only [List.map_cons, List.mem_cons]
      constructor
      · intro h; exact Or.inr h
      · rintro (h | h)
        · exact absurd h.symm hx
        · exact h

theorem pushFold_mono1 (ents : List (Nat × List Char)) (refs : List Nat) :
    ∀ (acc : List Nat × List Nat) (x : Nat), x ∈ acc.1 →
      x ∈ (refs.foldl (pushRef ents) acc).1 := by
  induction refs with
  | nil => intro acc x hx; exact hx
  | cons r t ih =>
    intro acc x hx
    rw [List.foldl_cons]
    apply ih
    rw [pushRef]
    by_cases hc : r ∉ acc.1 ∧ (entFind ents r).isSome
    · rw [if_pos hc]; exact List.mem_cons_of_mem _ hx
    · rw [if_neg hc]; exact hx

theorem pushFold_mono2 (ents : List (Nat × List Char)) (refs : List Nat) :
    ∀ (acc : List Nat × List Nat) (x : Nat), x ∈ acc.2 →
      x ∈ (refs.foldl (pushRef ents) acc).2 := by
  induction refs with
  | nil => intro acc x hx; exact hx
  | cons r t ih =>
    intro acc x hx
    rw [List.foldl_cons]
    apply ih
    rw [pushRef]
    by_cases hc : r ∉ acc.1 ∧ (entFind ents r).isSome
    · rw [if_pos hc]; exact List.mem_cons_of_mem _ hx
    · rw [if_neg hc]; exact hx

theorem pushFold_new (ents : List (Nat × List Char)) (refs : List Nat) :
    ∀ (acc : List Nat × List Nat) (x : Nat), x ∈ (refs.foldl (pushRef ents) acc).1 →
      x ∈ acc.1 ∨ (x ∈ refs ∧ (entFind ents x).isSome = true ∧
        x ∈ (refs.foldl (pushRef ents) acc).2) := by
  induction refs with
  | nil => intro acc x hx; exact Or.inl hx
  | cons r t ih =>
    intro acc x hx
    rw [List.foldl_cons] at hx ⊢
    rcases ih (pushRef ents acc r) x hx with hx' | ⟨hxt, hxs, hx2⟩
    · rw [pushRef] at hx'
      by_cases hc : r ∉ acc.1 ∧ (entFind ents r).isSome
      · rw [if_pos hc] at hx'
        rcases List.mem_cons.mp hx' with rfl | hx''
        · refine Or.inr ⟨by simp, hc.2, ?_⟩
          apply pushFold_mono2
          rw [pushRef, if_pos hc]
          simp
        · exact Or.inl hx''
      · rw [if_neg hc] at hx'
        exact Or.inl hx'
    · exact Or.inr ⟨by simp [hxt], hxs, hx2⟩

theorem pushFold_covers (ents : List (Nat × List Char)) (refs : List Nat) :
    ∀ (acc : List Nat × List Nat) (r : Nat), r ∈ refs → (entFind ents r).isSome = true →
      r ∈ (refs.foldl (pushRef ents) acc).1 := by
  induction refs with
  | nil => intro acc r hr; exact absurd hr (by simp)
  | cons r0 t ih =>
    intro acc r hr hs
    rw [List.foldl_cons]
    rcases List.mem_cons.mp hr with rfl | hrt
    · apply pushFold_mono1
      rw [pushRef]
      by_cases hc : r ∉ acc.1 ∧ (entFind ents r).isSome
      · rw [if_pos hc]; simp
      · rw [if_neg hc]
        push_neg at hc
        by_contra hra
        exact hc hra hs
    · exact ih _ r hrt hs

theorem pushFold_nodup (ents : List (Nat × List Char)) (refs : List Nat) :
    ∀ (acc : List Nat × List Nat), acc.1.Nodup → (refs.foldl (pushRef ents) acc).1.Nodup := by
  induction refs with
  | nil => intro acc h; exact h
  | cons r t ih =>
    intro acc h
    rw [List.foldl_cons]
    apply ih
    rw [pushRef]
    by_cases hc : r ∉ acc.1 ∧ (entFind ents r).isSome
    · rw [if_pos hc]
      exact List.Nodup.cons hc.1 h
    · rw [if_neg hc]; exact h

theorem pushFold_length (ents : List (Nat × List Char)) (refs : List Nat) :
    ∀ (acc : List Nat × List Nat),
      (refs.foldl (pushRef ents) acc).1.length + acc.2.length =
        (refs.foldl (pushRef ents) acc).2.length + acc.1.length := by
  induction refs with
  | nil =>
    intro acc
    rw [List.foldl_nil]
    omega
  | cons r t ih =>
    intro acc
    rw [List.foldl_cons]
    have := ih (pushRef ents acc r)
    rw [pushRef] at this ⊢
    by_cases hc : r ∉ acc.1 ∧ (entFind ents r).isSome
    · rw [if_pos hc] at this ⊢
      simp only [List.length_cons] at this
      omega
    · rw [if_neg hc] at this ⊢
      omega

theorem pushFold_length_le (ents : List (Nat × List Char)) (refs : List Nat) :
    ∀ (acc : List Nat × List Nat), acc.1.length ≤ (refs.foldl (pushRef ents) acc).1.length := by
  induction refs with
  | nil =>
    intro acc
    rw [List.foldl_nil]
  | cons r t ih =>
    intro acc
    rw [List.foldl_cons]
    have := ih (pushRef ents acc r)
    rw [pushRef] at this ⊢
    by_cases hc : r ∉ acc.1 ∧ (entFind ents r).isSome
    · rw [if_pos hc] at this ⊢
      simp only [List.length_cons] at this
      omega
    · rw [if_neg hc] at this ⊢
      omega

theorem pushFold_stack (ents : List (Nat × List Char)) (refs : List Nat) :
    ∀ (acc : List Nat × List Nat) (x : Nat), x ∈ (refs.foldl (pushRef ents) acc).2 →
      x ∈ acc.2 ∨ x ∈ (refs.foldl (pushRef ents) acc).1 := by
  induction refs with
  | nil => intro acc x hx; exact Or.inl hx
  | cons r t ih =>
    intro acc x hx
    rw [List.foldl_cons] at hx ⊢
    rcases ih (pushRef ents acc r) x hx with hx' | hx'
    · rw [pushRef] at hx'
      by_cases hc : r ∉ acc.1 ∧ (entFind ents r).isSome
      · rw [if_pos hc] at hx'
        rcases List.mem_cons.mp hx' with rfl | hx''
        · right
          apply pushFold_mono1
          rw [pushRef, if_pos hc]
          simp
        · exact Or.inl hx''
      · rw [if_neg hc] at hx'
        exact Or.inl hx'
    · exact Or.inr hx'

theorem walkGo_spec (ents : List (Nat × List Char)) : ∀ (fuel : Nat)
    (reachable stack : List Nat),
    (∀ x ∈ stack, x ∈ reachable) →
    reachable.Nodup →
    (∀ x ∈ reachable, (entFind ents x).isSome = true) →
    (∀ x ∈ reachable, x ∉ stack →
      ∀ r ∈ refsOf ents x, (entFind ents r).isSome = true → r ∈ reachable) →
    (∀ x ∈ reachable, Reachable ents x) →
    2 * ((entityIds ents).length - reachable.length) + stack.length ≤ fuel →
    (∀ x ∈ reachable, x ∈ walkGo ents fuel reachable stack) ∧
    (∀ x ∈ walkGo ents fuel reachable stack, Reachable ents x) ∧
    Closed ents (walkGo ents fuel reachable stack) := by
  intro fuel
  induction fuel with
  | zero =>
    intro reachable stack hst hnd hsome hcl hre hm
    have hstack : stack = [] := by
      cases stack with
      | nil => rfl
      | cons a t =>
        exfalso
        simp only [List.length_cons] at hm
        omega
    subst hstack
    have hw : walkGo ents 0 reachable [] = reachable := rfl
    rw [hw]
    refine ⟨fun x hx => hx, hre, ?_⟩
    intro x hx r hr hrs
    exact hcl x hx (by simp) r hr hrs
  | succ f ih =>
    intro reachable stack hst hnd hsome hcl hre hm
    cases stack with
    | nil =>
      have hw : walkGo ents (f + 1) reachable [] = reachable := rfl
      rw [hw]
      refine ⟨fun x hx => hx, hre, ?_⟩
      intro x hx r hr hrs
      exact hcl x hx (by simp) r hr hrs
    | cons eid rest =>
      have hw : walkGo ents (f + 1) reachable (eid :: rest) =
          walkGo ents f ((refsOf ents eid).foldl (pushRef ents) (reachable, rest)).1
            ((refsOf ents eid).foldl (pushRef ents) (reachable, rest)).2 := rfl
      rw [hw]
      have hmono1 : ∀ x ∈ reachable,
          x ∈ ((refsOf ents eid).foldl (pushRef ents) (reachable, rest)).1 :=
        fun x hx => pushFold_mono1 ents (refsOf ents eid) (reachable, rest) x hx
      have hmono2 : ∀ x ∈ rest,
          x ∈ ((refsOf ents eid).foldl (pushRef ents) (reachable, rest)).2 :=
        fun x hx => pushFold_mono2 ents (refsOf ents eid) (reachable, rest) x hx
      have hnew := pushFold_new ents (refsOf ents eid) (reachable, rest)
      have hcov := pushFold_covers ents (refsOf ents eid) (reachable, rest)
      have hnd2 : ((refsOf ents eid).foldl (pushRef ents) (reachable, rest)).1.Nodup :=
        pushFold_nodup ents (refsOf ents eid) (reachable, rest) hnd
      have hlen := pushFold_length ents (refsOf ents eid) (reachable, rest)
      have hlenle := pushFold_length_le ents (refsOf ents eid) (reachable, rest)
      have hstk := pushFold_stack ents (refsOf ents eid) (reachable, rest)
      have hst2 : ∀ x ∈ ((refsOf ents eid).foldl (pushRef ents) (reachable, rest)).2,
          x ∈ ((refsOf ents eid).foldl (pushRef ents) (reachable, rest)).1 := by
        intro x hx
        rcases hstk x hx with h | h
        · exact hmono1 x (hst x (List.mem_cons_of_mem _ h))
        · exact h
      have hsome2 : ∀ x ∈ ((refsOf ents eid).foldl (pushRef ents) (reachable, rest)).1,
          (entFind ents x).isSome = true := by
        intro x hx
        rcases hnew x hx with h | h
        · exact hsome x h
        · exact h.2.1
      have hre2 : ∀ x ∈ ((refsOf ents eid).foldl (pushRef ents) (reachable, rest)).1,
          Reachable ents x := by
        intro x hx
        rcases hnew x hx with h | ⟨hxr, hxs, _⟩
        · exact hre x h
        · have heid : Reachable ents eid := hre eid (hst eid (by simp))
          rcases hfind : entFind ents eid with _ | rhs
          · rw [refsOf, hfind] at hxr
            exact absurd hxr (by simp)
          · rw [refsOf, hfind] at hxr
            exact Reachable.step eid x rhs heid hfind hxr hxs
      have hcl2 : ∀ x ∈ ((refsOf ents eid).foldl (pushRef ents) (reachable, rest)).1,
          x ∉ ((refsOf ents eid).foldl (pushRef ents) (reachable, rest)).2 →
          ∀ r ∈ refsOf ents x, (entFind ents r).isSome = true →
            r ∈ ((refsOf ents eid).foldl (pushRef ents) (reachable, rest)).1 := by
        intro x hx hxn r hr hrs
        rcases hnew x hx with hxr | ⟨_, _, hx2⟩
        · by_cases hxe : x = eid
          · subst hxe
            exact hcov r hr hrs
          · have hxrest : x ∉ rest := fun hc => hxn (hmono2 x hc)
            have hxst : x ∉ eid :: rest := by simp [hxe, hxrest]
            exact hmono1 r (hcl x hxr hxst r hr hrs)
        · exact absurd hx2 hxn
      have hsub : ((refsOf ents eid).foldl (pushRef ents) (reachable, rest)).1 ⊆
          entityIds ents :=
        fun x hx => (entFind_isSome_mem ents x).mp (hsome2 x hx)
      have hn : ((refsOf ents eid).foldl (pushRef ents) (reachable, rest)).1.length ≤
          (entityIds ents).length :=
        (List.subperm_of_subset hnd2 hsub).length_le
      have hm2 : 2 * ((entityIds ents).length -
            ((refsOf ents eid).foldl (pushRef ents) (reachable, rest)).1.length) +
          ((refsOf ents eid).foldl (pushRef ents) (reachable, rest)).2.length ≤ f := by
        have hlen2 : ((refsOf ents eid).foldl (pushRef ents) (reachable, rest)).1.length +
            rest.length =
            ((refsOf ents eid).foldl (pushRef ents) (reachable, rest)).2.length +
              reachable.length := hlen
        have hlenle2 : reachable.length ≤
            ((refsOf ents eid).foldl (pushRef ents) (reachable, rest)).1.length := hlenle
        simp only [List.length_cons] at hm
        omega
      obtain ⟨ha, hb, hc2⟩ := ih _ _ hst2 hnd2 hsome2 hcl2 hre2 hm2
      exact ⟨fun x hx => ha _ (hmono1 x hx), hb, hc2⟩

theorem refsOf_eq (ents : List (Nat × List Char)) (eid : Nat) (rhs : List Char)
    (h : entFind ents eid = some rhs) : refsOf ents eid = collect_references rhs := by
  rw [refsOf, h]

theorem mem_rootsOf (ents : List (Nat × List Char)) (x : Nat) :
    x ∈ rootsOf ents ↔ ∃ rhs, entFind ents x = some rhs ∧
      get_entity_type rhs ∈ GC_ROOT_ENTITIES := by
  rw [rootsOf, List.mem_filter]
  constructor
  · rintro ⟨hmem, hpred⟩
    rcases hf : entFind ents x with _ | rhs
    · rw [hf] at hpred
      simp at hpred
    · rw [hf] at hpred
      dsimp only at hpred
      simp only [decide_eq_true_eq] at hpred
      exact ⟨rhs, rfl, hpred⟩
  · rintro ⟨rhs, hf, hroot⟩
    refine ⟨(entFind_isSome_mem ents x).mp (by rw [hf]; rfl), ?_⟩
    rw [hf]
    dsimp only
    simpa using hroot

theorem walkSet_spec (ents : List (Nat × List Char)) :
    (∀ x ∈ rootsOf ents, x ∈ walkSet ents) ∧
    (∀ x ∈ walkSet ents, Reachable ents x) ∧ Closed ents (walkSet ents) := by
  have hnd : (rootsOf ents).Nodup := (List.nodup_dedup _).filter _
  have hsome : ∀ x ∈ rootsOf ents, (entFind ents x).isSome = true := by
    intro x hx
    rcases (mem_rootsOf ents x).mp hx with ⟨rhs, hf, _⟩
    rw [hf]
    rfl
  have hre : ∀ x ∈ rootsOf ents, Reachable ents x := by
    intro x hx
    rcases (mem_rootsOf ents x).mp hx with ⟨rhs, hf, hroot⟩
    exact Reachable.root x rhs hf hroot
  have hlen : (rootsOf ents).length ≤ (entityIds ents).length :=
    List.length_filter_le _ _
  exact walkGo_spec ents (2 * (entityIds ents).length + (rootsOf ents).length)
    (rootsOf ents) (rootsOf ents) (fun x hx => hx) hnd hsome
    (fun x hx hnx => absurd hx hnx) hre (by omega)

theorem walkSet_complete (ents : List (Nat × List Char)) (x : Nat)
    (h : Reachable ents x) : x ∈ walkSet ents := by
  induction h with
  | root eid rhs hfind hroot =>
    exact (walkSet_spec ents).1 eid ((mem_rootsOf ents eid).mpr ⟨rhs, hfind, hroot⟩)
  | step eid r rhs hre hfind hr hex ih =>
    exact (walkSet_spec ents).2.2 eid ih r (by rw [refsOf_eq ents eid rhs hfind]; exact hr) hex

/-- The walk computes exactly the transitively reachable ids. -/
theorem walkSet_iff (ents : List (Nat × List Char)) (x : Nat) :
    x ∈ walkSet ents ↔ Reachable ents x :=
  ⟨fun h => (walkSet_spec ents).2.1 x h, walkSet_complete ents x⟩

theorem walkGo_nil_nil (ents : List (Nat × List Char)) :
    ∀ fuel, walkGo ents fuel [] [] = [] := by
  intro fuel
  cases fuel <;> rfl

theorem walkSet_of_roots_nil (ents : List (Nat × List Char)) (h : rootsOf ents = []) :
    walkSet ents = [] := by
  rw [walkSet, h]
  exact walkGo_nil_nil ents _

theorem walkSet_ne_nil (ents : List (Nat × List Char)) (h : rootsOf ents ≠ []) :
    walkSet ents ≠ [] := by
  rcases List.exists_mem_of_ne_nil _ h with ⟨x, hx⟩
  intro hw
  have := (walkSet_spec ents).1 x hx
  rw [hw] at this
  simp at this

/-!
## `remove_orphans` under panic-freedom
-/

theorem parseOrphanLine_ok (l : Line) (h : l.head? ≠ some '=') :
    parseOrphanLine l = .ok (orphanEntity? l) := by
  have hok : ∃ v, parseOrphanLine l = .ok v := by
    rw [parseOrphanLine]
    rcases hs : splitOnFirst '=' l with _ | pr
    · exact ⟨none, rfl⟩
    · have hne : ¬ pr.1.isEmpty = true := by
        rw [List.isEmpty_iff]
        intro hnil
        exact h ((splitOnFirst_fst_empty_iff l pr hs).mp hnil)
      dsimp only
      rw [if_neg hne]
      rcases hp : parseU32 (trimBoth pr.1.tail) with _ | eid
      · exact ⟨none, rfl⟩
      · exact ⟨some (eid, pr.2), rfl⟩
  rcases hok with ⟨v, hv⟩
  rw [hv, orphanEntity?, hv]

theorem collectEntitiesGo_ok (lines : List Line) (h : NoPanic lines) :
    ∀ acc, collectEntitiesGo lines acc = .ok (entsOfGo lines acc) := by
  induction lines with
  | nil => intro acc; rfl
  | cons l ls ih =>
    intro acc
    rw [collectEntitiesGo, entsOfGo, parseOrphanLine_ok l (h l (by simp))]
    cases ho : orphanEntity? l with
    | none =>
      dsimp only
      exact ih (fun x hx => h x (by simp [hx])) acc
    | some ent =>
      dsimp only
      exact ih (fun x hx => h x (by simp [hx])) _

theorem collectEntities_ok (lines : List Line) (h : NoPanic lines) :
    collectEntities lines = .ok (entsOf lines) := by
  rw [collectEntities, entsOf]
  exact collectEntitiesGo_ok lines h []

theorem survivorsP_cons (l : Line) (ls : List Line) (reach : List Nat) :
    survivorsP (l :: ls) reach =
      (match orphanEntity? l with
       | some ent =>
         if ent.1 ∈ reach then ent :: survivorsP ls reach else survivorsP ls reach
       | none => survivorsP ls reach) := rfl

theorem survivorsOf_ok (lines : List Line) (reach : List Nat) (h : NoPanic lines) :
    survivorsOf lines reach = .ok (survivorsP lines reach) := by
  induction lines with
  | nil => rfl
  | cons l ls ih =>
    rw [survivorsOf, parseOrphanLine_ok l (h l (by simp)),
      ih (fun x hx => h x (by simp [hx])), survivorsP_cons]
    cases ho : orphanEntity? l with
    | none => rfl
    | some ent => rfl

theorem survivorsP_eq_filter (lines : List Line) (reach : List Nat) :
    survivorsP lines reach =
      (lines.filterMap orphanEntity?).filter (fun ent => decide (ent.1 ∈ reach)) := by
  induction lines with
  | nil => rfl
  | cons l ls ih =>
    rw [survivorsP_cons, List.filterMap_cons]
    cases ho : orphanEntity? l with
    | none => exact ih
    | some ent =>
      dsimp only
      rw [List.filter_cons, ih]
      by_cases hm : ent.1 ∈ reach
      · rw [if_pos hm, if_pos (by simpa using hm)]
      · rw [if_neg hm, if_neg (by simpa using hm)]

theorem remove_orphans_ok (lines : List Line) (h : NoPanic lines) :
    remove_orphans lines =
      .ok (if (walkSet (entsOf lines)).isEmpty then lines
        else rebuildLines (survivorsP lines (walkSet (entsOf lines)))) := by
  rw [remove_orphans, collectEntities_ok lines h]
  dsimp only
  by_cases he : (walkSet (entsOf lines)).isEmpty = true
  · rw [if_pos he, if_pos he]
  · rw [if_neg he, if_neg he, survivorsOf_ok lines _ h]

/-!
## Overflowing digit runs are never reference tokens
-/

theorem collect_references_lt :
    ∀ (n : Nat) (cs : List Char), cs.length ≤ n →
      ∀ v ∈ collect_references cs, v < 2 ^ 32 := by
  intro n
  induction n with
  | zero =>
    intro cs hlen v hv
    rw [List.eq_nil_of_length_eq_zero (Nat.le_zero.mp hlen)] at hv
    exact absurd hv (by simp [collect_references, collectRefsGo])
  | succ n ih =>
    intro cs hlen v hv
    cases cs with
    | nil => exact absurd hv (by simp [collect_references, collectRefsGo])
    | cons c rest =>
      simp only [List.length_cons, Nat.add_le_add_iff_right] at hlen
      rw [collect_references_cons] at hv
      by_cases hc : c = '#'
      · rw [if_pos hc] at hv
        by_cases he : (rest.takeWhile isDigitA).isEmpty = true
        · rw [if_pos he] at hv
          exact ih rest hlen v hv
        · rw [if_neg he] at hv
          by_cases hlt : natOfDigits (rest.takeWhile isDigitA) < 2 ^ 32
          · rw [if_pos hlt] at hv
            rcases List.mem_cons.mp hv with rfl | hv'
            · exact hlt
            · exact ih (rest.dropWhile isDigitA)
                (le_trans (length_dropWhile_le _ _) hlen) v hv'
          · rw [if_neg hlt] at hv
            exact ih (rest.dropWhile isDigitA)
              (le_trans (length_dropWhile_le _ _) hlen) v hv
      · rw [if_neg hc] at hv
        exact ih rest hlen v hv

theorem collect_references_overflow (ds post : List Char) (hne : ds ≠ [])
    (hall : ∀ c ∈ ds, isDigitA c = true) (hov : 2 ^ 32 ≤ natOfDigits ds)
    (hpost : post.takeWhile isDigitA = []) :
    collect_references ('#' :: (ds ++ post)) = collect_references post := by
  rw [collect_references_cons, if_pos rfl,
    takeWhile_all_append ds post hall hpost,
    dropWhile_all_append ds post hall (by
      cases post with
      | nil => rfl
      | cons a t =>
        rw [List.dropWhile]
        rw [List.takeWhile] at hpost
        cases hp : isDigitA a with
        | false => rfl
        | true => rw [hp] at hpost; simp at hpost)]
  rw [if_neg (by simpa using hne), if_neg (by omega)]

theorem remap_references_overflow (ds post : List Char) (lk : List (Nat × Nat))
    (hne : ds ≠ []) (hall : ∀ c ∈ ds, isDigitA c = true)
    (hov : 2 ^ 32 ≤ natOfDigits ds) (hpost : post.takeWhile isDigitA = []) :
    remap_references ('#' :: (ds ++ post)) lk = '#' :: (ds ++ remap_references post lk) := by
  rw [remap_references_cons, if_pos rfl,
    takeWhile_all_append ds post hall hpost,
    dropWhile_all_append ds post hall (by
      cases post with
      | nil => rfl
      | cons a t =>
        rw [List.dropWhile]
        rw [List.takeWhile] at hpost
        cases hp : isDigitA a with
        | false => rfl
        | true => rw [hp] at hpost; simp at hpost)]
  rw [if_neg (by simpa using hne), if_neg (by omega)]

/-!
## The contiguous-ids and no-dangling-references invariant
-/

/-- Every reference in a parsed entity's content points at a parsed id. -/
def DedupClosed (lines : List Line) : Prop :=
  ∀ e ∈ dedupEntities lines, ∀ r ∈ collect_references e.2,
    r ∈ (dedupEntities lines).map Prod.fst

/-- Kept contents originate from processed entities. -/
theorem passFold_out_contents (md : Option Nat) (lines : List Line) :
    ∀ (acc : PassAcc), ∀ x ∈ (passFold md lines acc).out,
      x ∈ acc.out ∨ ∃ e0 ∈ dedupEntities lines, x.2 = e0.2 := by
  induction lines with
  | nil => intro acc x hx; exact Or.inl hx
  | cons l ls ih =>
    intro acc x hx
    rw [passFold_cons] at hx
    rcases ih (passStep md acc l) x hx with hx' | ⟨e0, he0, hx2⟩
    · rcases passStep_out_cases md acc l with hsame | ⟨e, hde, happ⟩
      · rw [hsame] at hx'
        exact Or.inl hx'
      · rw [happ] at hx'
        rcases List.mem_append.mp hx' with hx'' | hx''
        · exact Or.inl hx''
        · simp only [List.mem_singleton] at hx''
          subst hx''
          refine Or.inr ⟨e, ?_, rfl⟩
          rw [dedupEntities_cons, hde]
          simp
    · refine Or.inr ⟨e0, ?_, hx2⟩
      rw [dedupEntities_cons]
      cases hde : dedupEntity? l
      · exact he0
      · exact List.mem_cons_of_mem _ he0

theorem passFold_out_id_lt (md : Option Nat) (lines : List Line)
    (hlen : lines.length < 2 ^ 32) :
    ∀ e ∈ (passFold md lines (⟨[], [], []⟩ : PassAcc)).out, e.1 < 2 ^ 32 := by
  intro e he
  obtain ⟨hids, hle⟩ := passFold_out_ids md lines ⟨[], [], []⟩ (by simp) (by simpa using hlen)
  have : e.1 ∈ (passFold md lines (⟨[], [], []⟩ : PassAcc)).out.map Prod.fst :=
    List.mem_map_of_mem Prod.fst he
  rw [hids] at this
  rcases List.mem_range'.mp this with ⟨h1, h2⟩
  simp only [List.length_nil, Nat.zero_add] at hle
  omega

/-- Parsed entities of a pass's output: the kept ids with the remapped
contents. -/
theorem runPass_dedupEntities (md : Option Nat) (lines out : List Line)
    (h : NoPanic lines) (hlen : lines.length < 2 ^ 32)
    (hout : runPass md lines = .ok out) :
    dedupEntities out = (passFold md lines ⟨[], [], []⟩).out.map
      (fun e => (e.1, remap_references e.2 (passFold md lines ⟨[], [], []⟩).lookup)) := by
  rw [runPass_ok md lines h] at hout
  injection hout with hout
  subst hout
  rw [dedupEntities_map_formatLine]
  apply List.map_congr_left
  intro e he
  have h1 : parseU32 (natToDigits e.1) = some e.1 :=
    parseU32_natToDigits e.1 (passFold_out_id_lt md lines hlen e he)
  have h2 : trimBoth e.2 = e.2 :=
    passFold_out_trimmed md lines ⟨[], [], []⟩ (by intro x hx; simp at hx) e he
  rw [h1]
  have h3 : trimBoth (remap_references e.2 (passFold md lines ⟨[], [], []⟩).lookup) =
      remap_references e.2 (passFold md lines ⟨[], [], []⟩).lookup := by
    rw [← h2]
    exact trimBoth_remap e.2 _
  rw [h3]
  rfl

theorem runPass_ids (md : Option Nat) (lines out : List Line)
    (h : NoPanic lines) (hlen : lines.length < 2 ^ 32)
    (hout : runPass md lines = .ok out) :
    (dedupEntities out).map Prod.fst = List.range' 1 (dedupEntities out).length ∧
      (dedupEntities out).length = out.length := by
  have hde := runPass_dedupEntities md lines out h hlen hout
  obtain ⟨hids, _⟩ := passFold_out_ids md lines ⟨[], [], []⟩ (by simp) (by simpa using hlen)
  have hmapfst : (dedupEntities out).map Prod.fst =
      (passFold md lines (⟨[], [], []⟩ : PassAcc)).out.map Prod.fst := by
    rw [hde, List.map_map]
    rfl
  have hlen2 : (dedupEntities out).length =
      (passFold md lines (⟨[], [], []⟩ : PassAcc)).out.length := by
    rw [hde, List.length_map]
  constructor
  · rw [hmapfst, hids, hlen2]
  · rw [hlen2]
    rw [runPass_ok md lines h] at hout
    injection hout with hout
    rw [← hout, List.length_map]

theorem findId_isSome_iff (lk : List (Nat × Nat)) (r : Nat) :
    (findId lk r).isSome = true ↔ r ∈ lk.map Prod.fst := by
  induction lk with
  | nil => simp [findId]
  | cons e t ih =>
    rw [findId]
    by_cases he : e.1 = r
    · rw [if_pos he]
      simp [he.symm]
    · rw [if_neg he]
      rw [ih]
      simp only [List.map_cons, List.mem_cons]
      constructor
      · intro hx; exact Or.inr hx
      · rintro (hx | hx)
        · exact absurd hx.symm he
        · exact hx

theorem runPass_closed (md : Option Nat) (lines out : List Line)
    (h : NoPanic lines) (hlen : lines.length < 2 ^ 32) (hcl : DedupClosed lines)
    (hout : runPass md lines = .ok out) : DedupClosed out := by
  have hde := runPass_dedupEntities md lines out h hlen hout
  intro x hx r hr
  rw [hde] at hx
  rcases List.mem_map.mp hx with ⟨e, he, rfl⟩
  dsimp only at hr ⊢
  have hvals := (passFold_vals_lt md lines ⟨[], [], []⟩
    (by intro y hy; simp at hy) (by intro y hy; simp at hy)).2
  rw [collect_remap (passFold md lines ⟨[], [], []⟩).lookup hvals e.2] at hr
  rcases List.mem_map.mp hr with ⟨r0, hr0, rfl⟩
  have hr0ids : r0 ∈ (dedupEntities lines).map Prod.fst := by
    rcases passFold_out_contents md lines ⟨[], [], []⟩ e he with habs | ⟨e0, he0, hx2⟩
    · simp at habs
    · rw [hx2] at hr0
      exact hcl e0 he0 r0 hr0
  rcases List.mem_map.mp hr0ids with ⟨er, her, hfst⟩
  have hdom : (findId (passFold md lines ⟨[], [], []⟩).lookup r0).isSome = true := by
    rw [← hfst]
    exact passFold_lookup_dom md lines ⟨[], [], []⟩ er her
  rcases hfi : findId (passFold md lines ⟨[], [], []⟩).lookup r0 with _ | v
  · rw [hfi] at hdom; simp at hdom
  · have hvv : v ∈ (passFold md lines (⟨[], [], []⟩ : PassAcc)).out.map Prod.fst :=
      passFold_lookup_vals_sub md lines ⟨[], [], []⟩
        (by intro y hy; simp at hy) (by intro y hy; simp at hy)
        (r0, v) (findId_mem hfi)
    have : remapVal (passFold md lines ⟨[], [], []⟩).lookup r0 = v := by
      rw [remapVal, hfi]
      rfl
    rw [this, hde, List.map_map]
    simpa using hvv

theorem trimBoth_digits (n : Nat) : trimBoth (natToDigits n) = natToDigits n := by
  apply trimBoth_noop
  · intro a ha
    exact isDigitA_not_ws (natToDigits_all_digit n a (List.mem_of_mem_head? ha))
  · intro a ha
    exact isDigitA_not_ws (natToDigits_all_digit n a (List.mem_of_mem_getLast? ha))

/-- Re-parsing a formatted line on the orphan-collector side. -/
theorem orphanEntity?_formatLine (lk : List (Nat × Nat)) (e : Nat × List Char)
    (hlt : e.1 < 2 ^ 32) :
    orphanEntity? (formatLine lk e) = some (e.1, remap_references e.2 lk) := by
  have hsplit : splitOnFirst '=' ('#' :: (natToDigits e.1 ++ '=' :: remap_references e.2 lk)) =
      some ('#' :: natToDigits e.1, remap_references e.2 lk) := by
    rw [splitOnFirst,
      show ('#' :: (natToDigits e.1 ++ '=' :: remap_references e.2 lk)) =
        (('#' :: natToDigits e.1) ++ '=' :: remap_references e.2 lk) by simp]
    apply splitOnFirstP_pre
    · intro c hc
      rcases List.mem_cons.mp hc with rfl | hc'
      · decide
      · simp only [decide_eq_false_iff_not]
        exact isDigitA_ne_eq (natToDigits_all_digit e.1 c hc')
    · simp
  rw [orphanEntity?, parseOrphanLine, formatLine, hsplit]
  dsimp only
  rw [if_neg (by simp)]
  have htd : trimBoth ('#' :: natToDigits e.1).tail = natToDigits e.1 := by
    rw [show ('#' :: natToDigits e.1).tail = natToDigits e.1 from rfl]
    exact trimBoth_digits e.1
  rw [htd, parseU32_natToDigits e.1 hlt]

theorem filterMap_orphan_formatLine (lk : List (Nat × Nat)) :
    ∀ (outp : List (Nat × List Char)), (∀ e ∈ outp, e.1 < 2 ^ 32) →
      (outp.map (formatLine lk)).filterMap orphanEntity? =
        outp.map (fun e => (e.1, remap_references e.2 lk)) := by
  intro outp
  induction outp with
  | nil => intro _; rfl
  | cons e t ih =>
    intro hlt
    rw [List.map_cons, List.filterMap_cons, orphanEntity?_formatLine lk e (hlt e (by simp)),
      List.map_cons, ih (fun x hx => hlt x (by simp [hx]))]

/-- On a pass's output, the orphan collector parses exactly the same
entities as the deduplicator. -/
theorem runPass_parse_agrees (md : Option Nat) (lines out : List Line)
    (h : NoPanic lines) (hlen : lines.length < 2 ^ 32)
    (hout : runPass md lines = .ok out) :
    out.filterMap orphanEntity? = dedupEntities out := by
  have hde := runPass_dedupEntities md lines out h hlen hout
  rw [runPass_ok md lines h] at hout
  injection hout with hout
  rw [hde, ← hout,
    filterMap_orphan_formatLine (passFold md lines ⟨[], [], []⟩).lookup
      (passFold md lines ⟨[], [], []⟩).out (passFold_out_id_lt md lines hlen)]

/-- The invariant established by the whole deduplication loop. -/
theorem dedupLoopGo_final (md : Option Nat) :
    ∀ (fuel : Nat) (lines out : List Line), NoPanic lines → lines.length < 2 ^ 32 →
      DedupClosed lines → dedupLoopGo md fuel lines = .ok out →
      (dedupEntities out).map Prod.fst = List.range' 1 (dedupEntities out).length ∧
      DedupClosed out ∧ NoPanic out ∧ out.length ≤ lines.length ∧
      (dedupEntities out).length = out.length ∧
      out.filterMap orphanEntity? = dedupEntities out := by
  intro fuel
  induction fuel with
  | zero =>
    intro lines out _ _ _ hout
    simp [dedupLoopGo] at hout
  | succ f ih =>
    intro lines out h hlen hcl hout
    rw [dedupLoopGo] at hout
    rcases hrp : runPass md lines with e | mid
    · rw [hrp] at hout
      simp at hout
    · rw [hrp] at hout
      dsimp only at hout
      by_cases hle : lines.length ≤ mid.length
      · rw [if_pos hle] at hout
        injection hout with hout
        subst hout
        obtain ⟨hids, hl2⟩ := runPass_ids md lines mid h hlen hrp
        exact ⟨hids, runPass_closed md lines mid h hlen hcl hrp,
          NoPanic_runPass md lines mid h hrp,
          runPass_length_le md lines mid h hrp, hl2,
          runPass_parse_agrees md lines mid h hlen hrp⟩
      · rw [if_neg hle] at hout
        have hnp := NoPanic_runPass md lines mid h hrp
        have hmle := runPass_length_le md lines mid h hrp
        have hml : mid.length < 2 ^ 32 := lt_of_le_of_lt hmle hlen
        have hmcl := runPass_closed md lines mid h hlen hcl hrp
        obtain ⟨a, b, c, d, e2, f2⟩ := ih mid out hnp hml hmcl hout
        exact ⟨a, b, c, le_trans d hmle, e2, f2⟩

theorem entsOfGo_eq (lines : List Line) :
    ∀ acc, entsOfGo lines acc = (lines.filterMap orphanEntity?).reverse ++ acc := by
  induction lines with
  | nil => intro acc; simp [entsOfGo]
  | cons l ls ih =>
    intro acc
    rw [entsOfGo, List.filterMap_cons]
    cases ho : orphanEntity? l with
    | none =>
      dsimp only
      rw [ih acc]
    | some ent =>
      dsimp only
      rw [ih (ent :: acc)]
      simp

theorem entsOf_eq (lines : List Line) :
    entsOf lines = (lines.filterMap orphanEntity?).reverse := by
  rw [entsOf, entsOfGo_eq]
  simp

theorem entFind_eq_of_nodup (ents : List (Nat × List Char))
    (hnd : (ents.map Prod.fst).Nodup) {k : Nat} {v : List Char}
    (hmem : (k, v) ∈ ents) : entFind ents k = some v := by
  induction ents with
  | nil => simp at hmem
  | cons e t ih =>
    simp only [List.map_cons, List.nodup_cons] at hnd
    rw [entFind]
    rcases List.mem_cons.mp hmem with heq | hmem2
    · rw [← heq]
      dsimp only
      rw [if_pos rfl]
    · by_cases hek : e.1 = k
      · exfalso
        apply hnd.1
        rw [hek]
        exact List.mem_map_of_mem Prod.fst hmem2
      · rw [if_neg hek]
        exact ih hnd.2 hmem2

theorem rebuildLines_eq (survivors : List (Nat × List Char)) :
    rebuildLines survivors =
      (survivors.enum.map (fun p => (u32succ p.1, p.2.2))).map
        (formatLine (renumberOf survivors)) := by
  rw [rebuildLines, List.map_map]
  apply List.map_congr_left
  intro p _
  rfl

theorem enum_map_u32succ (survivors : List (Nat × List Char))
    (hlen : survivors.length < 2 ^ 32) :
    (survivors.enum.map (fun p => (u32succ p.1, p.2.2))).map Prod.fst =
      List.range' 1 survivors.length := by
  rw [List.map_map]
  have h1 : (Prod.fst ∘ fun p : Nat × (Nat × List Char) => (u32succ p.1, p.2.2)) =
      fun p : Nat × (Nat × List Char) => u32succ p.1 := rfl
  rw [h1]
  have h2 : survivors.enum.map (fun p => u32succ p.1) =
      survivors.enum.map (fun p => 1 + p.1) := by
    apply List.map_congr_left
    intro p hp
    have hplt : p.1 < survivors.length := by
      have : p.1 ∈ survivors.enum.map Prod.fst := List.mem_map_of_mem Prod.fst hp
      rw [List.enum_map_fst] at this
      exact List.mem_range.mp this
    have := u32succ_eq p.1 (show p.1 + 1 < 2 ^ 32 by omega)
    omega
  rw [h2]
  have h3 : survivors.enum.map (fun p => 1 + p.1) =
      (survivors.enum.map Prod.fst).map (fun i => 1 + i) := by
    rw [List.map_map]
    rfl
  rw [h3, List.enum_map_fst, ← List.range'_eq_map_range]

theorem renumberOf_mem (survivors : List (Nat × List Char)) {x : Nat × Nat}
    (hx : x ∈ renumberOf survivors) :
    ∃ p ∈ survivors.enum, x = (p.2.1, u32succ p.1) ∧ p.1 < survivors.length := by
  rw [renumberOf, List.mem_reverse] at hx
  rcases List.mem_map.mp hx with ⟨p, hp, heq⟩
  refine ⟨p, hp, heq.symm, ?_⟩
  have : p.1 ∈ survivors.enum.map Prod.fst := List.mem_map_of_mem Prod.fst hp
  rw [List.enum_map_fst] at this
  exact List.mem_range.mp this

theorem renumberOf_vals_lt (survivors : List (Nat × List Char)) :
    ∀ e ∈ renumberOf survivors, e.2 < 2 ^ 32 := by
  intro e he
  rcases renumberOf_mem survivors he with ⟨p, _, heq, _⟩
  rw [heq]
  exact u32succ_lt p.1

theorem renumberOf_dom (survivors : List (Nat × List Char)) (r : Nat)
    (hr : r ∈ survivors.map Prod.fst) :
    (findId (renumberOf survivors) r).isSome = true := by
  rw [findId_isSome_iff, renumberOf, List.map_reverse, List.mem_reverse, List.map_map]
  have h1 : (Prod.fst ∘ fun p : Nat × (Nat × List Char) => (p.2.1, u32succ p.1)) =
      (Prod.fst ∘ Prod.snd : Nat × (Nat × List Char) → Nat) := rfl
  rw [h1, show (survivors.enum.map (Prod.fst ∘ Prod.snd : Nat × (Nat × List Char) → Nat)) =
    (survivors.enum.map Prod.snd).map Prod.fst by rw [List.map_map]]
  rw [List.enum_map_snd]
  exact hr

theorem renumberOf_val_mem (survivors : List (Nat × List Char)) {r v : Nat}
    (hfi : findId (renumberOf survivors) r = some v)
    (hlen : survivors.length < 2 ^ 32) : v ∈ List.range' 1 survivors.length := by
  rcases renumberOf_mem survivors (findId_mem hfi) with ⟨p, hp, heq, hplt⟩
  have hv : v = u32succ p.1 := congrArg Prod.snd heq
  have hlt2 : p.1 + 1 < 2 ^ 32 := by omega
  rw [hv, u32succ_eq p.1 hlt2]
  have h1 : (1 : Nat) ≤ p.1 + 1 := by omega
  have h2 : p.1 + 1 < 1 + survivors.length := by omega
  exact List.mem_range'_1.mpr ⟨h1, h2⟩

theorem dedupEntities_trimmed (lines : List Line) :
    ∀ e ∈ dedupEntities lines, trimBoth e.2 = e.2 := by
  intro e he
  rcases List.mem_filterMap.mp he with ⟨l, _, hde⟩
  rw [dedupEntity?] at hde
  rcases hs : splitOnFirst '=' l with _ | pr
  · rw [hs] at hde
    simp at hde
  · rw [hs] at hde
    dsimp only at hde
    by_cases hemp : pr.1.isEmpty = true
    · rw [if_pos hemp] at hde
      simp at hde
    · rw [if_neg hemp] at hde
      simp only [Option.some.injEq] at hde
      rw [← hde]
      exact trimBoth_idem pr.2

/-- Parsed entities of the rebuilt survivor lines. -/
theorem dedupEntities_rebuild (survivors : List (Nat × List Char))
    (htr : ∀ e ∈ survivors, trimBoth e.2 = e.2) :
    dedupEntities (rebuildLines survivors) =
      (survivors.enum.map (fun p => (u32succ p.1, p.2.2))).map
        (fun e => (e.1, remap_references e.2 (renumberOf survivors))) := by
  rw [rebuildLines_eq, dedupEntities_map_formatLine]
  apply List.map_congr_left
  intro e he
  rcases List.mem_map.mp he with ⟨p, hp, heq⟩
  have he1 : e.1 = u32succ p.1 := by rw [← heq]
  have he2 : e.2 = p.2.2 := by rw [← heq]
  have hp2 : p.2 ∈ survivors := by
    have : p.2 ∈ survivors.enum.map Prod.snd := List.mem_map_of_mem Prod.snd hp
    rw [List.enum_map_snd] at this
    exact this
  have htre : trimBoth e.2 = e.2 := by
    rw [he2]
    exact htr p.2 hp2
  rw [he1, parseU32_natToDigits _ (u32succ_lt p.1)]
  have h3 : trimBoth (remap_references e.2 (renumberOf survivors)) =
      remap_references e.2 (renumberOf survivors) := by
    rw [← htre]
    exact trimBoth_remap e.2 _
  rw [h3]
  rw [← he1]
  rfl

/-- The orphan collector preserves the invariant. -/
theorem remove_orphans_invariant (l2 out3 : List Line)
    (h : NoPanic l2)
    (hag : l2.filterMap orphanEntity? = dedupEntities l2)
    (hids : (dedupEntities l2).map Prod.fst = List.range' 1 (dedupEntities l2).length)
    (hlen : (dedupEntities l2).length < 2 ^ 32)
    (hcl : DedupClosed l2)
    (hout : remove_orphans l2 = .ok out3) :
    (dedupEntities out3).map Prod.fst = List.range' 1 (dedupEntities out3).length ∧
      DedupClosed out3 := by
  rw [remove_orphans_ok l2 h] at hout
  injection hout with hout
  by_cases he : (walkSet (entsOf l2)).isEmpty = true
  · rw [if_pos he] at hout
    subst hout
    exact ⟨hids, hcl⟩
  · rw [if_neg he] at hout
    subst hout
    have hsl : survivorsP l2 (walkSet (entsOf l2)) =
        (dedupEntities l2).filter
          (fun ent => decide (ent.1 ∈ walkSet (entsOf l2))) := by
      rw [survivorsP_eq_filter, hag]
    have hsub : ∀ x ∈ survivorsP l2 (walkSet (entsOf l2)), x ∈ dedupEntities l2 := by
      intro x hx
      rw [hsl] at hx
      exact (List.mem_filter.mp hx).1
    have hslen : (survivorsP l2 (walkSet (entsOf l2))).length < 2 ^ 32 := by
      have : (survivorsP l2 (walkSet (entsOf l2))).length ≤ (dedupEntities l2).length := by
        rw [hsl]
        exact List.length_filter_le _ _
      omega
    have htr : ∀ e ∈ survivorsP l2 (walkSet (entsOf l2)), trimBoth e.2 = e.2 :=
      fun e hee => dedupEntities_trimmed l2 e (hsub e hee)
    have hde3 := dedupEntities_rebuild (survivorsP l2 (walkSet (entsOf l2))) htr
    have hids3 : (dedupEntities (rebuildLines (survivorsP l2 (walkSet (entsOf l2))))).map
        Prod.fst = List.range' 1 (survivorsP l2 (walkSet (entsOf l2))).length := by
      rw [hde3, List.map_map]
      have : (Prod.fst ∘ fun e : Nat × List Char =>
          (e.1, remap_references e.2 (renumberOf (survivorsP l2 (walkSet (entsOf l2)))))) =
          (Prod.fst : Nat × List Char → Nat) := rfl
      rw [this]
      exact enum_map_u32succ _ hslen
    have hlen3 : (dedupEntities (rebuildLines (survivorsP l2 (walkSet (entsOf l2))))).length =
        (survivorsP l2 (walkSet (entsOf l2))).length := by
      rw [hde3]
      simp
    refine ⟨by rw [hids3, hlen3], ?_⟩
    have hndin : ((dedupEntities l2).map Prod.fst).Nodup := by
      rw [hids]
      exact List.nodup_range' _ _
    have hndrev : ((entsOf l2).map Prod.fst).Nodup := by
      rw [entsOf_eq, hag, List.map_reverse]
      exact List.nodup_reverse.mpr hndin
    intro x hx r hr
    rw [hde3] at hx
    rcases List.mem_map.mp hx with ⟨e, hee, heq⟩
    rcases List.mem_map.mp hee with ⟨p, hp, hpe⟩
    have hx2 : x.2 = remap_references p.2.2
        (renumberOf (survivorsP l2 (walkSet (entsOf l2)))) := by
      rw [← heq, ← hpe]
    have hp2 : p.2 ∈ survivorsP l2 (walkSet (entsOf l2)) := by
      have : p.2 ∈ (survivorsP l2 (walkSet (entsOf l2))).enum.map Prod.snd :=
        List.mem_map_of_mem Prod.snd hp
      rw [List.enum_map_snd] at this
      exact this
    rw [hx2, collect_remap _ (renumberOf_vals_lt _) _] at hr
    rcases List.mem_map.mp hr with ⟨r0, hr0, hrv⟩
    have hpded : p.2 ∈ dedupEntities l2 := hsub p.2 hp2
    have hpreach : p.2.1 ∈ walkSet (entsOf l2) := by
      rw [hsl] at hp2
      have := (List.mem_filter.mp hp2).2
      simpa using this
    have hfindp : entFind (entsOf l2) p.2.1 = some p.2.2 := by
      apply entFind_eq_of_nodup (entsOf l2) hndrev
      rw [entsOf_eq, hag, List.mem_reverse]
      exact (show (p.2.1, p.2.2) = p.2 from rfl) ▸ hpded
    have hr0ids : r0 ∈ (dedupEntities l2).map Prod.fst := hcl p.2 hpded r0 hr0
    have hr0some : (entFind (entsOf l2) r0).isSome = true := by
      rw [entFind_isSome_mem, entityIds, List.mem_dedup, entsOf_eq, hag,
        List.map_reverse, List.mem_reverse]
      exact hr0ids
    have hreach0 : Reachable (entsOf l2) r0 :=
      Reachable.step p.2.1 r0 p.2.2
        ((walkSet_iff (entsOf l2) p.2.1).mp hpreach) hfindp hr0 hr0some
    have hr0reach : r0 ∈ walkSet (entsOf l2) := walkSet_complete (entsOf l2) r0 hreach0
    rcases List.mem_map.mp hr0ids with ⟨er, her, herfst⟩
    have hersurv : er ∈ survivorsP l2 (walkSet (entsOf l2)) := by
      rw [hsl, List.mem_filter]
      exact ⟨her, by simp [herfst, hr0reach]⟩
    have hr0dom : (findId (renumberOf (survivorsP l2 (walkSet (entsOf l2)))) r0).isSome
        = true := by
      apply renumberOf_dom
      rw [← herfst]
      exact List.mem_map_of_mem Prod.fst hersurv
    rcases hfi : findId (renumberOf (survivorsP l2 (walkSet (entsOf l2)))) r0 with _ | v
    · rw [hfi] at hr0dom
      simp at hr0dom
    · have hrw : r = v := by
        rw [← hrv, remapVal, hfi]
        rfl
      rw [hrw, hids3]
      exact renumberOf_val_mem _ hfi hslen

/-!
## Concrete inputs used in the claim theorems below
-/

/-- The five data lines of the end-to-end merge example. -/
def exC2 : List Line :=
  [ "#1=CARTESIAN_POINT(".toList ++ [qc, qc] ++ ",0.,0.,0.);".toList,
    "#2=CARTESIAN_POINT(".toList ++ [qc, qc] ++ ",0.,0.,0.);".toList,
    "#3=DIRECTION(".toList ++ [qc, qc] ++ ",1.,0.,0.);".toList,
    "#4=AXIS2_PLACEMENT_3D(".toList ++ [qc, qc] ++ ",#1,#3,#3);".toList,
    "#5=AXIS2_PLACEMENT_3D(".toList ++ [qc, qc] ++ ",#2,#3,#3);".toList ]

/-- Expected reduction of `exC2`: three entities. -/
def exC2out : List Line :=
  [ "#1=CARTESIAN_POINT(".toList ++ [qc, qc] ++ ",0.,0.,0.);".toList,
    "#2=DIRECTION(".toList ++ [qc, qc] ++ ",1.,0.,0.);".toList,
    "#3=AXIS2_PLACEMENT_3D(".toList ++ [qc, qc] ++ ",#1,#2,#2);".toList ]

/-- Data lines of the idempotence counterexample: `#1` is an orphan, and
after its removal the renumbering `2 → 1`, `11 → 10` makes the canonical
keys of the `FOO` entities collide in the second run only. -/
def exC5data : List Line :=
  [ "#1=ORF(x);".toList,
    "#2=FOO(#2.0E1);".toList,
    "#3=PRODUCT_DEFINITION(a,#2,#4,#5,#6,#7,#8,#9,#10,#11);".toList,
    "#4=B4();".toList, "#5=B5();".toList, "#6=B6();".toList, "#7=B7();".toList,
    "#8=B8();".toList, "#9=B9();".toList, "#10=B10();".toList,
    "#11=FOO(#11.);".toList ]

/-- The idempotence counterexample as a whole file. -/
def exC5file : List Char :=
  serializeLines (["ISO-10303-21;".toList, "HEADER;".toList, "ENDSEC;".toList,
    "DATA;".toList] ++ exC5data ++ ["ENDSEC;".toList, "END-ISO-10303-21;".toList])

/-- First reduction of `exC5file`. -/
def exC5out1 : List Char :=
  serializeLines (["ISO-10303-21;".toList, "HEADER;".toList, "ENDSEC;".toList,
    "DATA;".toList] ++
    [ "#1=FOO(#1.0E1);".toList,
      "#2=PRODUCT_DEFINITION(a,#1,#3,#4,#5,#6,#7,#8,#9,#10);".toList,
      "#3=B4();".toList, "#4=B5();".toList, "#5=B6();".toList, "#6=B7();".toList,
      "#7=B8();".toList, "#8=B9();".toList, "#9=B10();".toList,
      "#10=FOO(#10.);".toList ] ++
    ["ENDSEC;".toList, "END-ISO-10303-21;".toList])

/-- Second reduction of `exC5file`: the two `FOO` entities now merge. -/
def exC5out2 : List Char :=
  serializeLines (["ISO-10303-21;".toList, "HEADER;".toList, "ENDSEC;".toList,
    "DATA;".toList] ++
    [ "#1=FOO(#1.0E1);".toList,
      "#2=PRODUCT_DEFINITION(a,#1,#3,#4,#5,#6,#7,#8,#9,#1);".toList,
      "#3=B4();".toList, "#4=B5();".toList, "#5=B6();".toList, "#6=B7();".toList,
      "#7=B8();".toList, "#8=B9();".toList, "#9=B10();".toList ] ++
    ["ENDSEC;".toList, "END-ISO-10303-21;".toList])

/-- Ten data lines whose reduction renumbers `#10` to `#9`, moving the
boundary of a numeric literal that begins inside the reference token. -/
def exC8lines : List Line :=
  [ "#1=P();".toList, "#2=P();".toList, "#3=Q3();".toList, "#4=Q4();".toList,
    "#5=Q5();".toList, "#6=Q6();".toList, "#7=Q7();".toList, "#8=Q8();".toList,
    "#9=Q9();".toList, "#10=FOO(#10.5);".toList ]

/-- Reduction of `exC8lines`. -/
def exC8out : List Line :=
  [ "#1=P();".toList, "#2=Q3();".toList, "#3=Q4();".toList, "#4=Q5();".toList,
    "#5=Q6();".toList, "#6=Q7();".toList, "#7=Q8();".toList, "#8=Q9();".toList,
    "#9=FOO(#9.5);".toList ]

/-- Two identical identity-typed entities, used as the C3 witness input. -/
def exC3lines : List Line :=
  [ "#1=PRODUCT_CONTEXT(a);".toList, "#2=PRODUCT_CONTEXT(a);".toList ]

/-- Root, reachable and orphan entities, used as the C1 witness input. -/
def exO1 : List Line :=
  [ "#1=APPLICATION_CONTEXT(core)".toList,
    "#2=PRODUCT_DEFINITION(pd,#1)".toList,
    "#3=CARTESIAN_POINT(n,0.,0.,0.)".toList ]

/-!
## Claim theorems
-/

/-- C7: the numeric normalizer satisfies the five listed equations
(`1.0 → 1.`, `1.0E-3 → 0.001`, `.5 → 0.5`, `-0.0 → 0.`, `1.200 → 1.2`)
and the decimal bound truncates rather than rounds
(`round(3.14159, 3) = 3.141`, `round(3.14159, 0) = 3.`). -/
theorem C7_normalize_round_equations :
    normalize_number "1.0".toList = "1.".toList ∧
    normalize_number "1.0E-3".toList = "0.001".toList ∧
    normalize_number ".5".toList = "0.5".toList ∧
    normalize_number "-0.0".toList = "0.".toList ∧
    normalize_number "1.200".toList = "1.2".toList ∧
    round_number "3.14159".toList 3 = "3.141".toList ∧
    round_number "3.14159".toList 0 = "3.".toList := by
  refine ⟨?_, ?_, ?_, ?_, ?_, ?_, ?_⟩ <;> decide

/-- C9: a data line consisting of `=X;` lacks the `#<digits>=` prefix, yet
far from being skipped it makes the inverted slice `line[1..0]` panic in
both the deduplication and the orphan-collection phase, so the whole
pipeline fails on a file containing it. -/
theorem C9_malformed_line_panics :
    deduplicate ["=X;".toList] none = .error () ∧
    remove_orphans ["=X;".toList] = .error () ∧
    reduceBytes none (serializeLines ["ISO-10303-21;".toList, "HEADER;".toList,
      "ENDSEC;".toList, "DATA;".toList, "=X;".toList, "ENDSEC;".toList,
      "END-ISO-10303-21;".toList]) = .error () :=
  ⟨rfl, rfl, rfl⟩

/-- C10: a `#`-plus-digits token whose digit run does not parse as a `u32`
is not treated as a reference: every collected reference value is below
`2 ^ 32`, and at such a token the scanner collects nothing and copies the
token's bytes unchanged. -/
theorem C10_overflow_not_reference (cs : List Char) (lk : List (Nat × Nat))
    (ds post : List Char) (hne : ds ≠ []) (hall : ∀ c ∈ ds, isDigitA c = true)
    (hov : 2 ^ 32 ≤ natOfDigits ds) (hpost : post.takeWhile isDigitA = []) :
    (∀ v ∈ collect_references cs, v < 2 ^ 32) ∧
    collect_references ('#' :: (ds ++ post)) = collect_references post ∧
    remap_references ('#' :: (ds ++ post)) lk = '#' :: (ds ++ remap_references post lk) :=
  ⟨collect_references_lt cs.length cs le_rfl,
   collect_references_overflow ds post hne hall hov hpost,
   remap_references_overflow ds post lk hne hall hov hpost⟩

/-- C10 witness: the token `#4294967296` (value `2 ^ 32`) inside
`FOO(#4294967296,#7)` is skipped while `#7` is remapped. -/
theorem C10_overflow_witness :
    ("4294967296".toList ≠ [] ∧ (∀ c ∈ "4294967296".toList, isDigitA c = true) ∧
      2 ^ 32 ≤ natOfDigits "4294967296".toList ∧
      ",#7)".toList.takeWhile isDigitA = []) ∧
    ((∀ v ∈ collect_references "FOO(#4294967296,#7)".toList, v < 2 ^ 32) ∧
      collect_references ('#' :: ("4294967296".toList ++ ",#7)".toList)) =
        collect_references ",#7)".toList ∧
      remap_references ('#' :: ("4294967296".toList ++ ",#7)".toList))
          [(4294967296, 1), (7, 2)] =
        '#' :: ("4294967296".toList ++
          remap_references ",#7)".toList [(4294967296, 1), (7, 2)])) :=
  ⟨⟨by decide, by decide, by decide, by decide⟩,
   C10_overflow_not_reference "FOO(#4294967296,#7)".toList [(4294967296, 1), (7, 2)]
     "4294967296".toList ",#7)".toList (by decide) (by decide) (by decide) (by decide)⟩

/-- C5: idempotence fails.  Reducing `exC5file` once yields `exC5out1`;
reducing that output again merges two entities whose canonical keys only
collide after the first run's renumbering, yielding a different file. -/
theorem C5_not_idempotent :
    reduceBytes none exC5file = .ok exC5out1 ∧
    reduceBytes none exC5out1 = .ok exC5out2 ∧
    exC5out2 ≠ exC5out1 :=
  ⟨rfl, rfl, by decide⟩

/-- C4 counterexample: deduplication preserves the dangling reference `#5`
of `#1=FOO(#5)`, so the no-dangling-references invariant fails without an
assumption on the input. -/
theorem C4_dangling_counterexample :
    deduplicate ["#1=FOO(#5)".toList] none = .ok ["#1=FOO(#5)".toList] ∧
    collect_references "FOO(#5)".toList = [5] ∧
    (dedupEntities ["#1=FOO(#5)".toList]).map Prod.fst = [1] :=
  ⟨rfl, by decide, by decide⟩

/-- C8 amended: in every pass the comparison bound influences only the key
table; the emitted line of each survivor is its raw kept content with the
references rewritten, and that rewriting preserves the reference mask
(every byte outside a reference token is unchanged).  Byte-identity of
numeric literals, however, fails (see the counterexample). -/
theorem C8_comparison_only_refmask (md : Option Nat) (lines out : List Line)
    (h : NoPanic lines) (hout : runPass md lines = .ok out) :
    out = (passFold md lines ⟨[], [], []⟩).out.map
        (formatLine (passFold md lines ⟨[], [], []⟩).lookup) ∧
    ∀ e ∈ (passFold md lines ⟨[], [], []⟩).out,
      refMask (remap_references e.2 (passFold md lines ⟨[], [], []⟩).lookup) =
        refMask e.2 := by
  rw [runPass_ok md lines h] at hout
  injection hout with hout
  refine ⟨hout.symm, ?_⟩
  intro e _
  have hvals := (passFold_vals_lt md lines ⟨[], [], []⟩
    (by intro x hx; simp at hx) (by intro x hx; simp at hx)).2
  exact refMask_remap (passFold md lines ⟨[], [], []⟩).lookup hvals e.2

/-- C8 witness for the amended frame property, at a two-line input whose
pass keeps both entities unchanged. -/
theorem C8_refmask_witness :
    NoPanic exC3lines ∧
    (exC3lines = (passFold none exC3lines ⟨[], [], []⟩).out.map
        (formatLine (passFold none exC3lines ⟨[], [], []⟩).lookup) ∧
      ∀ e ∈ (passFold none exC3lines ⟨[], [], []⟩).out,
        refMask (remap_references e.2 (passFold none exC3lines ⟨[], [], []⟩).lookup) =
          refMask e.2) :=
  ⟨by unfold NoPanic; decide,
   C8_comparison_only_refmask none exC3lines exC3lines (by unfold NoPanic; decide) rfl⟩

/-- C8 counterexample: reducing `exC8lines` renumbers `#10` to `#9`; the
numeric literal scanner then finds the literal `.5` in the output where the
input had `0.5`, so emitted numeric literals are not byte-identical to the
input's. -/
theorem C8_literal_counterexample :
    deduplicate exC8lines none = .ok exC8out ∧
    find_numbers "FOO(#10.5);".toList = ["0.5".toList] ∧
    find_numbers "FOO(#9.5);".toList = [".5".toList] :=
  ⟨rfl, by decide, by decide⟩

/-- C2: under panic-freedom and distinct parsed ids, any two non-identity
entities with byte-identical canonical keys are mapped by the pass's lookup
table to one and the same surviving id; every surviving line is emitted
with its references pushed through that table (a reference to a removed id
is thereby rewritten to its survivor's id); and the five-line
`CARTESIAN_POINT`/`DIRECTION`/`AXIS2_PLACEMENT_3D` example reduces to
exactly three entities. -/
theorem C2_merge_correctness (md : Option Nat) (lines : List Line)
    (h : NoPanic lines) (hnd : ((dedupEntities lines).map Prod.fst).Nodup) :
    (∀ e1 ∈ dedupEntities lines, ∀ e2 ∈ dedupEntities lines,
      is_identity_entity (get_entity_type e1.2) = false →
      is_identity_entity (get_entity_type e2.2) = false →
      canonKey e1.2 md = canonKey e2.2 md →
      findId (passFold md lines ⟨[], [], []⟩).lookup e1.1 =
        findId (passFold md lines ⟨[], [], []⟩).lookup e2.1 ∧
      (findId (passFold md lines ⟨[], [], []⟩).lookup e1.1).isSome = true) ∧
    (runPass md lines = .ok ((passFold md lines ⟨[], [], []⟩).out.map
        (formatLine (passFold md lines ⟨[], [], []⟩).lookup)) ∧
      ∀ rhs : List Char,
        collect_references (remap_references rhs (passFold md lines ⟨[], [], []⟩).lookup) =
          (collect_references rhs).map (remapVal (passFold md lines ⟨[], [], []⟩).lookup)) ∧
    deduplicate exC2 none = .ok exC2out := by
  refine ⟨?_, ⟨runPass_ok md lines h, ?_⟩, rfl⟩
  · intro e1 h1 e2 h2 hni1 hni2 hkey
    constructor
    · rw [passFold_lookup_eq_key md lines ⟨[], [], []⟩ e1 h1 hni1 hnd,
        passFold_lookup_eq_key md lines ⟨[], [], []⟩ e2 h2 hni2 hnd, hkey]
    · exact passFold_lookup_dom md lines ⟨[], [], []⟩ e1 h1
  · intro rhs
    have hvals := (passFold_vals_lt md lines ⟨[], [], []⟩
      (by intro x hx; simp at hx) (by intro x hx; simp at hx)).2
    exact collect_remap (passFold md lines ⟨[], [], []⟩).lookup hvals rhs

/-- C2 witness: the merge-correctness statement applied to the example. -/
theorem C2_merge_witness :
    (NoPanic exC2 ∧ ((dedupEntities exC2).map Prod.fst).Nodup) ∧
    ((∀ e1 ∈ dedupEntities exC2, ∀ e2 ∈ dedupEntities exC2,
      is_identity_entity (get_entity_type e1.2) = false →
      is_identity_entity (get_entity_type e2.2) = false →
      canonKey e1.2 none = canonKey e2.2 none →
      findId (passFold none exC2 ⟨[], [], []⟩).lookup e1.1 =
        findId (passFold none exC2 ⟨[], [], []⟩).lookup e2.1 ∧
      (findId (passFold none exC2 ⟨[], [], []⟩).lookup e1.1).isSome = true) ∧
    (runPass none exC2 = .ok ((passFold none exC2 ⟨[], [], []⟩).out.map
        (formatLine (passFold none exC2 ⟨[], [], []⟩).lookup)) ∧
      ∀ rhs : List Char,
        collect_references (remap_references rhs (passFold none exC2 ⟨[], [], []⟩).lookup) =
          (collect_references rhs).map (remapVal (passFold none exC2 ⟨[], [], []⟩).lookup)) ∧
    deduplicate exC2 none = .ok exC2out) :=
  ⟨⟨by unfold NoPanic; decide, by decide⟩,
   C2_merge_correctness none exC2 (by unfold NoPanic; decide) (by decide)⟩

/-- C3: identity-typed entities are never merged.  Through the whole
deduplication loop, the ordered list of `T`-typed entity contents in the
output is the input's list with references rewritten pass by pass — one
surviving output entity per identity-typed input entity, with its raw
content kept up to reference renumbering, and in particular equal counts. -/
theorem C3_identity_never_merged (md : Option Nat) (T : List Char)
    (hTid : T ∈ IDENTITY_ENTITIES) (lines out : List Line)
    (h : NoPanic lines) (hout : deduplicate lines md = .ok out) :
    ∃ lks, identContents T out = (identContents T lines).map (remapChain lks) ∧
      (identContents T out).length = (identContents T lines).length := by
  rcases dedupLoopGo_identContents md T hTid (lines.length + 1) lines out h hout
    with ⟨lks, hl⟩
  exact ⟨lks, hl, by rw [hl, List.length_map]⟩

/-- C3 witness: two identical `PRODUCT_CONTEXT` entities both survive. -/
theorem C3_identity_witness :
    ("PRODUCT_CONTEXT".toList ∈ IDENTITY_ENTITIES ∧ NoPanic exC3lines ∧
      deduplicate exC3lines none = .ok exC3lines) ∧
    (∃ lks, identContents "PRODUCT_CONTEXT".toList exC3lines =
        (identContents "PRODUCT_CONTEXT".toList exC3lines).map (remapChain lks) ∧
      (identContents "PRODUCT_CONTEXT".toList exC3lines).length =
        (identContents "PRODUCT_CONTEXT".toList exC3lines).length) :=
  ⟨⟨by decide, by unfold NoPanic; decide, rfl⟩,
   C3_identity_never_merged none "PRODUCT_CONTEXT".toList (by decide) exC3lines exC3lines
     (by unfold NoPanic; decide) rfl⟩

/-- C6: under panic-freedom every pass's output count is at most its input
count; the loop reaches a fixed point within the fuel bound (`deduplicate`
returns a value); and the returned value is exactly the output of a pass
that failed to strictly decrease the count. -/
theorem C6_loop_terminates (md : Option Nat) (lines : List Line) (h : NoPanic lines) :
    (∀ out, runPass md lines = .ok out → out.length ≤ lines.length) ∧
    (∃ out, deduplicate lines md = .ok out) ∧
    (∀ out, deduplicate lines md = .ok out →
      ∃ p, runPass md p = .ok out ∧ p.length ≤ out.length) := by
  refine ⟨fun out hout => runPass_length_le md lines out h hout,
    deduplicate_ok md lines h, ?_⟩
  intro out hout
  exact dedupLoopGo_exit md (lines.length + 1) lines out hout

/-- C6 witness at the five-line example. -/
theorem C6_loop_witness :
    NoPanic exC2 ∧
    ((∀ out, runPass none exC2 = .ok out → out.length ≤ exC2.length) ∧
      (∃ out, deduplicate exC2 none = .ok out) ∧
      (∀ out, deduplicate exC2 none = .ok out →
        ∃ p, runPass none p = .ok out ∧ p.length ≤ out.length)) :=
  ⟨by unfold NoPanic; decide, C6_loop_terminates none exC2 (by unfold NoPanic; decide)⟩

/-- C1: under panic-freedom, if no entity has a root type the collector
returns its input unchanged (fail-open); if some entity has a root type,
the output is the rebuilt survivor list, and a parsed entity survives if
and only if its id is transitively reachable, through existing `#N`
references, from an entity whose type is a GC root type. -/
theorem C1_orphan_reachability (lines : List Line) (h : NoPanic lines) :
    (rootsOf (entsOf lines) = [] → remove_orphans lines = .ok lines) ∧
    (rootsOf (entsOf lines) ≠ [] →
      remove_orphans lines =
        .ok (rebuildLines (survivorsP lines (walkSet (entsOf lines)))) ∧
      ∀ ent ∈ lines.filterMap orphanEntity?,
        (ent ∈ survivorsP lines (walkSet (entsOf lines)) ↔
          Reachable (entsOf lines) ent.1)) := by
  constructor
  · intro hr
    rw [remove_orphans_ok lines h, walkSet_of_roots_nil _ hr]
    simp
  · intro hr
    have hne := walkSet_ne_nil _ hr
    have hie : (walkSet (entsOf lines)).isEmpty = false := by
      cases hw : walkSet (entsOf lines) with
      | nil => exact absurd hw hne
      | cons a t => rfl
    refine ⟨by rw [remove_orphans_ok lines h, if_neg (by simp [hie])], ?_⟩
    intro ent hent
    rw [survivorsP_eq_filter, List.mem_filter]
    constructor
    · rintro ⟨_, hp⟩
      exact (walkSet_iff _ _).mp (by simpa using hp)
    · intro hre
      exact ⟨hent, by simpa using walkSet_complete _ _ hre⟩

/-- C4 amended: provided no line panics, the line count fits in a `u32`,
and every `#N` reference of the input points at a parsed input id, then
after the deduplication phase and again after the orphan-collection phase
the surviving ids form the contiguous range `1..=n` and every reference in
a surviving content points at a surviving id. -/
theorem C4_contiguous_no_dangling (md : Option Nat) (lines d1 d2 : List Line)
    (h : NoPanic lines) (hlen : lines.length < 2 ^ 32) (hcl : DedupClosed lines)
    (hd1 : deduplicate lines md = .ok d1) (hd2 : remove_orphans d1 = .ok d2) :
    ((dedupEntities d1).map Prod.fst = List.range' 1 (dedupEntities d1).length ∧
      DedupClosed d1) ∧
    ((dedupEntities d2).map Prod.fst = List.range' 1 (dedupEntities d2).length ∧
      DedupClosed d2) := by
  obtain ⟨hids1, hcl1, hnp1, hle1, hlen1, hag1⟩ :=
    dedupLoopGo_final md (lines.length + 1) lines d1 h hlen hcl hd1
  refine ⟨⟨hids1, hcl1⟩, ?_⟩
  exact remove_orphans_invariant d1 d2 hnp1 hag1 hids1 (by omega) hcl1 hd2

/-- C4 witness: both phases of the example keep ids `1..=n` contiguous and
reference-closed. -/
theorem C4_invariant_witness :
    (NoPanic exC2 ∧ exC2.length < 2 ^ 32 ∧ DedupClosed exC2 ∧
      deduplicate exC2 none = .ok exC2out ∧ remove_orphans exC2out = .ok exC2out) ∧
    (((dedupEntities exC2out).map Prod.fst =
        List.range' 1 (dedupEntities exC2out).length ∧ DedupClosed exC2out) ∧
      ((dedupEntities exC2out).map Prod.fst =
        List.range' 1 (dedupEntities exC2out).length ∧ DedupClosed exC2out)) :=
  ⟨⟨by unfold NoPanic; decide, by decide, by unfold DedupClosed; decide, rfl, rfl⟩,
   C4_contiguous_no_dangling none exC2 exC2out exC2out (by unfold NoPanic; decide)
     (by decide) (by unfold DedupClosed; decide) rfl rfl⟩

/-- C1 witness: a root, a transitively reachable entity and an orphan. -/
theorem C1_orphan_witness :
    NoPanic exO1 ∧
    ((rootsOf (entsOf exO1) = [] → remove_orphans exO1 = .ok exO1) ∧
      (rootsOf (entsOf exO1) ≠ [] →
        remove_orphans exO1 =
          .ok (rebuildLines (survivorsP exO1 (walkSet (entsOf exO1)))) ∧
        ∀ ent ∈ exO1.filterMap orphanEntity?,
          (ent ∈ survivorsP exO1 (walkSet (entsOf exO1)) ↔
            Reachable (entsOf exO1) ent.1))) :=
  ⟨by unfold NoPanic; decide, C1_orphan_reachability exO1 (by unfold NoPanic; decide)⟩

end StepReduce
